import Mathlib

/-!
Verification of the orasort hybrid key-prefix sort engine.

The development shallowly embeds `src/core.rs` and `src/algo.rs`:
keys are byte sequences (`List Nat` whose members are `< 256`), a key
accessor is a pure function `K : Nat → List Nat` from row index to key
bytes, and `u64` cache arithmetic is `Nat` arithmetic with explicit
`% 2 ^ 64` where the Rust semantics truncates.
-/

namespace Orasort

/-- Lexicographic comparison of byte sequences: unsigned byte order, a
strict prefix ordering before its extensions.  This is the comparison
performed by Rust's `<[u8] as Ord>::cmp`. -/
def listCompare : List Nat → List Nat → Ordering
  | [], [] => .eq
  | [], _ :: _ => .lt
  | _ :: _, [] => .gt
  | a :: as, b :: bs =>
    match compare a b with
    | .eq => listCompare as bs
    | o => o

/-- Big-endian integer formed from a byte list (`u64::from_be_bytes` when
the list has eight members). -/
def bytesToBE (bs : List Nat) : Nat :=
  bs.foldl (fun acc b => acc * 256 + b) 0

/-- Pad a byte list on the right with zeros to length 8 (the zero-filled
copy buffer of `KeyAccessor::get_u64_prefix`). -/
def padTo8 (bs : List Nat) : List Nat :=
  bs ++ List.replicate (8 - bs.length) 0

/-- `SPLICE_PREFIX_SIZE` from `src/core.rs`. -/
def SPLICE_PREFIX_SIZE : Nat := 8

/-- `KeyAccessor::get_u64_prefix` (default implementation, `src/core.rs`
lines 66-87): big-endian read of up to eight key bytes at `offset`,
zero-padded past end-of-key; `0` when `offset` is at or past end-of-key.
The branch taking an unaligned 8-byte load is the `remaining ≥ 8` case. -/
def get_u64_prefix (key : List Nat) (offset : Nat) : Nat :=
  let len := key.length
  if len ≤ offset then 0
  else
    let remaining := len - offset
    if SPLICE_PREFIX_SIZE ≤ remaining then
      bytesToBE ((key.drop offset).take 8)
    else
      bytesToBE (padTo8 (key.drop offset))

/-- The total preorder the engine realizes at common-prefix offset `off`
(spec §3 and §4.3): compare the key suffixes from `off` lexicographically
and break ties by total key length, shorter first.  At `off = 0` this is
exactly the §3 ordering of whole keys. -/
def keyOrder (off : Nat) (x y : List Nat) : Ordering :=
  match listCompare (x.drop off) (y.drop off) with
  | .eq => compare x.length y.length
  | o => o

/-- `SortPtr` from `src/core.rs`: row index plus a cached 64-bit
big-endian key prefix. -/
structure SortPtr where
  index : Nat
  cache : Nat
deriving DecidableEq, Repr

/-- `compare_entries` from `src/algo.rs` lines 350-391. -/
def compare_entries (K : Nat → List Nat) (a pivot : SortPtr) (offset : Nat) :
    Ordering :=
  if a.cache ≠ pivot.cache then
    compare a.cache pivot.cache
  else
    let key_a := K a.index
    let key_p := K pivot.index
    let start_safe := offset + 8
    if key_a.length < start_safe ∨ key_p.length < start_safe then
      -- `&key[offset..]` guarded by `offset < len`, else the empty slice:
      -- both cases are `List.drop offset`.
      match listCompare (key_a.drop offset) (key_p.drop offset) with
      | .eq => compare key_a.length key_p.length
      | o => o
    else
      match listCompare (key_a.drop start_safe) (key_p.drop start_safe) with
      | .eq => compare key_a.length key_p.length
      | o => o

/-- `RADIX_SORT_THRESHOLD` from `src/algo.rs`. -/
def RADIX_SORT_THRESHOLD : Nat := 1024

/-- `RADIX_BUCKETS` from `src/algo.rs`. -/
def RADIX_BUCKETS : Nat := 256

/-- `update_caches` from `src/algo.rs` lines 337-342. -/
def update_caches (K : Nat → List Nat) (ptrs : List SortPtr) (new_cp : Nat) :
    List SortPtr :=
  ptrs.map fun p =>
    let cache := get_u64_prefix (K p.index) new_cp
    ⟨p.index, cache⟩

/-- The radix bucket digit `(cache >> 56) as u8`. -/
def topByte (c : Nat) : Nat := c / 2 ^ 56

/-- Byte `i` (from the most significant end) of a cached `u64`:
`(cache >> (56 - i*8)) as u8`. -/
def cacheByte (c i : Nat) : Nat := c / 2 ^ (56 - 8 * i) % 256

/-- Bit length (position of the highest set bit plus one), computed by
structural recursion on a fuel of 64 halvings, which covers every `u64`
value. -/
def bitLen : Nat → Nat → Nat
  | 0, _ => 0
  | fuel + 1, n => if n = 0 then 0 else bitLen fuel (n / 2) + 1

/-- `u64::leading_zeros` for values below `2 ^ 64`. -/
def clz64 (n : Nat) : Nat := 64 - bitLen 64 n

/-- The XOR-difference accumulator of the block-skip pass
(`src/algo.rs` line 229). -/
def diffOf (ptrs : List SortPtr) (anchor : Nat) : Nat :=
  ptrs.foldl (fun acc p => acc ||| (p.cache ^^^ anchor)) 0

/-- The `safe_bytes` count of the block-skip pass (`src/algo.rs` lines
237-245): leading bytes of the anchor cache, up to `common_bytes`,
stopping at the first zero byte. -/
def safeBytesOf (anchor common_bytes : Nat) : Nat :=
  ((List.range common_bytes).takeWhile fun i => cacheByte anchor i != 0).length

/-- The comparator handed to `sort_unstable_by` (`src/algo.rs` line 200),
as a ≤ test. -/
def ptrLE (K : Nat → List Nat) (cp_len : Nat) (a b : SortPtr) : Bool :=
  (compare_entries K a b cp_len).isLE

mutual

/-- `cps_quicksort` from `src/algo.rs` lines 184-201.  The call to Rust's
`sort_unstable_by` (an unstable, deterministic comparison sort) is
modelled by `List.mergeSort` with the same comparator. -/
def cps_quicksort (K : Nat → List Nat) (ptrs : List SortPtr) (cp_len : Nat)
    (allow_radix : Bool) : List SortPtr :=
  if h : allow_radix = true ∧ RADIX_SORT_THRESHOLD < ptrs.length then
    aqs_radix K ptrs cp_len
  else
    ptrs.mergeSort (ptrLE K cp_len)
termination_by (ptrs.length, if allow_radix then 2 else 0, 0)
decreasing_by
  simp only [h.1]
  exact Prod.Lex.right _ (Prod.Lex.left _ _ (by simp))

/-- `aqs_radix` from `src/algo.rs` lines 220-331.  The `loop` is run by
`aqs_loop` with enough fuel to cover every possible block-skip iteration:
each skip consumes at least one non-zero (hence real) byte of the anchor
key, so at most `anchor key length` skips can ever happen before the
histogram pass is reached. -/
def aqs_radix (K : Nat → List Nat) (ptrs : List SortPtr) (cp_len : Nat) :
    List SortPtr :=
  aqs_loop K ptrs cp_len 0 ((K ((ptrs.headD ⟨0, 0⟩).index)).length + 1)
termination_by (ptrs.length, 1, (K ((ptrs.headD ⟨0, 0⟩).index)).length + 3)
decreasing_by
  exact Prod.Lex.right _ (Prod.Lex.right _ (by omega))

/-- One iteration of the `loop` in `aqs_radix` (`src/algo.rs` lines
224-330).  With fuel available it performs the block-skip check and
either skips (`continue`) or falls through to the histogram pass; the
fuel-exhausted branch also runs the histogram pass, and is unreachable
from `aqs_radix` (each skip needs a non-zero anchor byte).  The
histogram + prefix-sum + aux-buffer permutation of the source is the
stable partition of the region into the 256 buckets by top cache byte,
in bucket order; each non-empty bucket is reloaded at `cp_len + 1` and
recursed on, with radix vetoed exactly for a bucket holding the whole
region. -/
def aqs_loop (K : Nat → List Nat) (ptrs : List SortPtr)
    (cp_len bytes_since_load fuel : Nat) : List SortPtr :=
  let anchor := (ptrs.headD ⟨0, 0⟩).cache
  let diff := diffOf ptrs anchor
  let common_bytes := clz64 diff / 8
  let safe_bytes := safeBytesOf anchor common_bytes
  if hf : 0 < safe_bytes ∧ 0 < fuel then
    let cp2 := cp_len + safe_bytes
    let bsl2 := bytes_since_load + safe_bytes
    if 8 ≤ bsl2 then
      aqs_loop K (update_caches K ptrs cp2) cp2 0 (fuel - 1)
    else
      aqs_loop K
        (ptrs.map fun p => ⟨p.index, p.cache * 2 ^ (8 * safe_bytes) % 2 ^ 64⟩)
        cp2 bsl2 (fuel - 1)
  else
    (List.range RADIX_BUCKETS).flatMap fun b =>
      let bucket := ptrs.filter fun p => topByte p.cache == b
      if hb : bucket.length = 0 then []
      else
        let bucket2 := update_caches K bucket (cp_len + 1)
        cps_quicksort K bucket2 (cp_len + 1) (!(bucket.length == ptrs.length))
termination_by (ptrs.length, 1, fuel + 1)
decreasing_by
  · simp only [update_caches, List.length_map]
    exact Prod.Lex.right _ (Prod.Lex.right _ (by omega))
  · simp only [List.length_map]
    exact Prod.Lex.right _ (Prod.Lex.right _ (by omega))
  · simp only [update_caches, List.length_map]
    rcases Nat.lt_or_ge bucket.length ptrs.length with hlt | hge
    · exact Prod.Lex.left _ _ hlt
    · have heq : bucket.length = ptrs.length :=
        Nat.le_antisymm (List.length_filter_le _ _) hge
      simp only [heq, beq_self_eq_true, Bool.not_true, Bool.false_eq_true,
        if_false]
      exact Prod.Lex.right _ (Prod.Lex.left _ _ (by omega))

end

/-- `orasort` from `src/algo.rs` lines 43-60, over an accessor with key
function `K` and `len` rows. -/
def orasort (K : Nat → List Nat) (len : Nat) : List Nat :=
  if len = 0 then []
  else
    let pointers := (List.range len).map fun index =>
      let cache := get_u64_prefix (K index) 0
      SortPtr.mk index cache
    (cps_quicksort K pointers 0 true).map fun p => p.index

/-- `orasort_from_indices` from `src/algo.rs` lines 66-89. -/
def orasort_from_indices (K : Nat → List Nat) (indices : List Nat)
    (offset : Nat) : List Nat :=
  if indices.length = 0 then []
  else
    let pointers := indices.map fun index =>
      let cache := get_u64_prefix (K index) offset
      SortPtr.mk index cache
    (cps_quicksort K pointers offset true).map fun p => p.index

/-- Number of `cps_quicksort` invocations performed directly by the body
of `orasort` (`src/algo.rs` lines 43-60): the call on line 57 runs
whenever `len ≠ 0`; there is no length-one early return. -/
def orasortDriverCalls (len : Nat) : Nat :=
  if len = 0 then 0 else 1

/-- Swap two positions of a list (Rust `slice::swap`; out-of-range reads
default to `[]`, which the verified uses never hit). -/
def listSwap (l : List (List Nat)) (i j : Nat) : List (List Nat) :=
  let vi := l.getD i []
  let vj := l.getD j []
  (l.set i vj).set j vi

/-- The inner `while` of `apply_permutation` (`src/algo.rs` lines
123-128) together with the closing `indices[current] = current`, run on
fuel: each iteration swaps the current element toward its place and
marks the slot as visited.  `apply_permutation` supplies fuel
`indices.length + 1`, which is enough because every iteration marks one
previously unmarked slot. -/
def cycleWalk (fuel : Nat) (data : List (List Nat)) (ind : List Nat)
    (i cur : Nat) : List (List Nat) × List Nat :=
  match fuel with
  | 0 => (data, ind)
  | fuel + 1 =>
    if ind.getD cur 0 ≠ i then
      let next := ind.getD cur 0
      cycleWalk fuel (listSwap data cur next) (ind.set cur cur) i next
    else
      (data, ind.set cur cur)

/-- `apply_permutation` from `src/algo.rs` lines 120-131, specialized to
byte-string elements (`T = Vec<u8>`). -/
def apply_permutation (data : List (List Nat)) (indices : List Nat) :
    List (List Nat) :=
  ((List.range data.length).foldl
    (fun st i => cycleWalk (st.2.length + 1) st.1 st.2 i i)
    (data, indices)).1

/-- The blanket `KeyAccessor` view of a slice of byte strings
(`src/core.rs` lines 91-99): row `i`'s key is element `i`. -/
def keyFun (data : List (List Nat)) : Nat → List Nat :=
  fun i => data.getD i []

/-- `orasort_mut` from `src/algo.rs` lines 110-118, for byte-string
elements. -/
def orasort_mut (data : List (List Nat)) : List (List Nat) :=
  let indices := orasort (keyFun data) data.length
  apply_permutation data indices

/-- Every key byte the accessor can produce is an actual byte. -/
def ByteKeys (K : Nat → List Nat) : Prop :=
  ∀ i, ∀ b ∈ K i, b < 256

/-! ### Basic facts about the lexicographic byte comparison -/

theorem listCompare_eq_iff : ∀ {x y : List Nat}, listCompare x y = .eq ↔ x = y
  | [], [] => by simp [listCompare]
  | [], _ :: _ => by simp [listCompare]
  | _ :: _, [] => by simp [listCompare]
  | a :: as, b :: bs => by
    simp only [listCompare]
    cases h : compare a b with
    | eq =>
      have hab : a = b := Nat.compare_eq_eq.mp h
      simpa [hab] using listCompare_eq_iff (x := as) (y := bs)
    | lt =>
      have hab : a ≠ b := by
        intro hc
        simp [hc, Nat.compare_eq_eq.mpr rfl] at h
      simp [hab]
    | gt =>
      have hab : a ≠ b := by
        intro hc
        simp [hc, Nat.compare_eq_eq.mpr rfl] at h
      simp [hab]

theorem listCompare_self (x : List Nat) : listCompare x x = .eq :=
  listCompare_eq_iff.mpr rfl

theorem listCompare_swap : ∀ (x y : List Nat),
    listCompare y x = (listCompare x y).swap
  | [], [] => rfl
  | [], _ :: _ => rfl
  | _ :: _, [] => rfl
  | a :: as, b :: bs => by
    simp only [listCompare]
    rcases Nat.lt_trichotomy a b with h | h | h
    · rw [Nat.compare_eq_lt.mpr h, Nat.compare_eq_gt.mpr h]
      rfl
    · rw [Nat.compare_eq_eq.mpr h, Nat.compare_eq_eq.mpr h.symm]
      exact listCompare_swap as bs
    · rw [Nat.compare_eq_gt.mpr h, Nat.compare_eq_lt.mpr h]
      rfl

theorem listCompare_lt_trans : ∀ {x y z : List Nat},
    listCompare x y = .lt → listCompare y z = .lt → listCompare x z = .lt
  | [], _ :: _, _ :: _, _, _ => rfl
  | [], [], _, h, _ => by simp [listCompare] at h
  | [], _ :: _, [], _, h => by simp [listCompare] at h
  | _ :: _, [], _, h, _ => by simp [listCompare] at h
  | _ :: _, _ :: _, [], _, h => by simp [listCompare] at h
  | a :: as, b :: bs, c :: cs, h1, h2 => by
    simp only [listCompare] at h1 h2 ⊢
    rcases Nat.lt_trichotomy a b with hab | hab | hab
    · rcases Nat.lt_trichotomy b c with hbc | hbc | hbc
      · rw [Nat.compare_eq_lt.mpr (Nat.lt_trans hab hbc)]
      · rw [Nat.compare_eq_lt.mpr (hbc ▸ hab)]
      · rw [Nat.compare_eq_gt.mpr hbc] at h2
        exact absurd h2 (by simp)
    · subst hab
      rcases Nat.lt_trichotomy a c with hac | hac | hac
      · rw [Nat.compare_eq_lt.mpr hac]
      · subst hac
        rw [Nat.compare_eq_eq.mpr rfl] at h1 h2 ⊢
        exact listCompare_lt_trans h1 h2
      · rw [Nat.compare_eq_gt.mpr hac] at h2
        exact absurd h2 (by simp)
    · rw [Nat.compare_eq_gt.mpr hab] at h1
      exact absurd h1 (by simp)

theorem listCompare_ne_gt {x y : List Nat} :
    listCompare x y ≠ .gt ↔ listCompare x y = .lt ∨ x = y := by
  rw [← listCompare_eq_iff]
  cases listCompare x y <;> simp

/-- Dropping an equal prefix from both sides does not change the
comparison. -/
theorem listCompare_append_left : ∀ (p x y : List Nat),
    listCompare (p ++ x) (p ++ y) = listCompare x y
  | [], _, _ => rfl
  | a :: p, x, y => by
    simp only [List.cons_append, listCompare, Nat.compare_eq_eq.mpr rfl]
    exact listCompare_append_left p x y

/-! ### The engine's total preorder at an offset -/

/-- `keyOrder` as an unfolded disjunction for the `≤` direction. -/
theorem keyOrder_ne_gt {off : Nat} {x y : List Nat} :
    keyOrder off x y ≠ .gt ↔
      listCompare (x.drop off) (y.drop off) = .lt ∨
        (x.drop off = y.drop off ∧ x.length ≤ y.length) := by
  unfold keyOrder
  cases h : listCompare (x.drop off) (y.drop off) with
  | lt => simp
  | gt =>
    have hne : x.drop off ≠ y.drop off := fun hc => by
      rw [hc, listCompare_self] at h
      cases h
    simp [hne]
  | eq =>
    have heq : x.drop off = y.drop off := listCompare_eq_iff.mp h
    have hcomp : compare x.length y.length ≠ .gt ↔ x.length ≤ y.length := by
      rw [Ne, Nat.compare_eq_gt, Nat.not_lt]
    simp [heq, hcomp]

theorem keyOrder_swap (off : Nat) (x y : List Nat) :
    keyOrder off y x = (keyOrder off x y).swap := by
  unfold keyOrder
  rw [listCompare_swap (x.drop off) (y.drop off)]
  cases h : listCompare (x.drop off) (y.drop off) with
  | lt => rfl
  | gt => rfl
  | eq =>
    simp only [Ordering.swap]
    rcases Nat.lt_trichotomy x.length y.length with hl | hl | hl
    · rw [Nat.compare_eq_lt.mpr hl, Nat.compare_eq_gt.mpr hl]
    · rw [Nat.compare_eq_eq.mpr hl, Nat.compare_eq_eq.mpr hl.symm]
    · rw [Nat.compare_eq_gt.mpr hl, Nat.compare_eq_lt.mpr hl]

theorem keyOrder_le_trans {off : Nat} {x y z : List Nat}
    (h1 : keyOrder off x y ≠ .gt) (h2 : keyOrder off y z ≠ .gt) :
    keyOrder off x z ≠ .gt := by
  rw [keyOrder_ne_gt] at h1 h2 ⊢
  rcases h1 with h1 | ⟨h1e, h1l⟩
  · rcases h2 with h2 | ⟨h2e, h2l⟩
    · exact Or.inl (listCompare_lt_trans h1 h2)
    · exact Or.inl (h2e ▸ h1)
  · rcases h2 with h2 | ⟨h2e, h2l⟩
    · exact Or.inl (h1e ▸ h2)
    · exact Or.inr ⟨h1e.trans h2e, Nat.le_trans h1l h2l⟩

theorem keyOrder_le_total (off : Nat) (x y : List Nat) :
    keyOrder off x y ≠ .gt ∨ keyOrder off y x ≠ .gt := by
  cases h : keyOrder off x y with
  | lt => exact Or.inl (by simp)
  | eq => exact Or.inl (by simp)
  | gt =>
    right
    rw [keyOrder_swap, h]
    decide

/-! ### Big-endian packing arithmetic -/

theorem bytesToBE_foldl (bs : List Nat) :
    ∀ acc, List.foldl (fun a b => a * 256 + b) acc bs =
      acc * 256 ^ bs.length + List.foldl (fun a b => a * 256 + b) 0 bs := by
  induction bs with
  | nil => intro acc; simp
  | cons b bs ih =>
    intro acc
    simp only [List.foldl_cons, List.length_cons]
    rw [ih (acc * 256 + b), ih (0 * 256 + b)]
    ring

theorem bytesToBE_cons (b : Nat) (bs : List Nat) :
    bytesToBE (b :: bs) = b * 256 ^ bs.length + bytesToBE bs := by
  unfold bytesToBE
  simp only [List.foldl_cons]
  rw [bytesToBE_foldl]
  ring

theorem bytesToBE_append (u v : List Nat) :
    bytesToBE (u ++ v) = bytesToBE u * 256 ^ v.length + bytesToBE v := by
  unfold bytesToBE
  rw [List.foldl_append, bytesToBE_foldl]

theorem bytesToBE_singleton (b : Nat) : bytesToBE [b] = b := by
  unfold bytesToBE
  simp

theorem bytesToBE_lt (bs : List Nat) (h : ∀ b ∈ bs, b < 256) :
    bytesToBE bs < 256 ^ bs.length := by
  induction bs with
  | nil => simp [bytesToBE]
  | cons b bs ih =>
    rw [bytesToBE_cons]
    have hb : b < 256 := h b (by simp)
    have hbs : bytesToBE bs < 256 ^ bs.length := ih fun c hc => h c (by simp [hc])
    calc b * 256 ^ bs.length + bytesToBE bs
        < b * 256 ^ bs.length + 256 ^ bs.length := by omega
      _ = (b + 1) * 256 ^ bs.length := by ring
      _ ≤ 256 * 256 ^ bs.length := by
          exact Nat.mul_le_mul_right _ (by omega)
      _ = 256 ^ (b :: bs).length := by
          rw [List.length_cons, pow_succ]
          ring

theorem bytesToBE_replicate_zero (n : Nat) :
    bytesToBE (List.replicate n 0) = 0 := by
  induction n with
  | zero => rfl
  | succ n ih => rw [List.replicate_succ, bytesToBE_cons, ih]; ring

/-- Same-length byte lists compare as integers exactly as they compare
lexicographically. -/
theorem compare_bytesToBE : ∀ (xs ys : List Nat),
    xs.length = ys.length → (∀ b ∈ xs, b < 256) → (∀ b ∈ ys, b < 256) →
    compare (bytesToBE xs) (bytesToBE ys) = listCompare xs ys
  | [], [], _, _, _ => by simp [bytesToBE, listCompare, Nat.compare_eq_eq]
  | [], _ :: _, h, _, _ => by simp at h
  | _ :: _, [], h, _, _ => by simp at h
  | a :: as, b :: bs, hlen, hx, hy => by
    have hlen2 : as.length = bs.length := by simpa using hlen
    have ha : a < 256 := hx a (by simp)
    have hb : b < 256 := hy b (by simp)
    have has : ∀ c ∈ as, c < 256 := fun c hc => hx c (by simp [hc])
    have hbs : ∀ c ∈ bs, c < 256 := fun c hc => hy c (by simp [hc])
    have hasl : bytesToBE as < 256 ^ as.length := bytesToBE_lt as has
    have hbsl : bytesToBE bs < 256 ^ bs.length := bytesToBE_lt bs hbs
    rw [bytesToBE_cons, bytesToBE_cons]
    simp only [listCompare]
    rcases Nat.lt_trichotomy a b with hab | hab | hab
    · rw [Nat.compare_eq_lt.mpr hab]
      apply Nat.compare_eq_lt.mpr
      calc a * 256 ^ as.length + bytesToBE as
          < (a + 1) * 256 ^ as.length := by
            rw [Nat.add_mul, Nat.one_mul]
            omega
        _ ≤ b * 256 ^ as.length := Nat.mul_le_mul_right _ (by omega)
        _ ≤ b * 256 ^ bs.length + bytesToBE bs := by rw [hlen2]; omega
    · subst hab
      rw [Nat.compare_eq_eq.mpr rfl, hlen2]
      have harith : ∀ r s t : Nat,
          compare (t + r) (t + s) = compare r s := by
        intro r s t
        rcases Nat.lt_trichotomy r s with h | h | h
        · rw [Nat.compare_eq_lt.mpr h, Nat.compare_eq_lt.mpr (by omega)]
        · subst h; rw [Nat.compare_eq_eq.mpr rfl, Nat.compare_eq_eq.mpr rfl]
        · rw [Nat.compare_eq_gt.mpr h, Nat.compare_eq_gt.mpr (by omega)]
      rw [harith]
      exact compare_bytesToBE as bs hlen2 has hbs
    · rw [Nat.compare_eq_gt.mpr hab]
      apply Nat.compare_eq_gt.mpr
      calc b * 256 ^ bs.length + bytesToBE bs
          < (b + 1) * 256 ^ bs.length := by
            rw [Nat.add_mul, Nat.one_mul]
            omega
        _ ≤ a * 256 ^ bs.length := Nat.mul_le_mul_right _ (by omega)
        _ ≤ a * 256 ^ as.length + bytesToBE as := by rw [hlen2]; omega

theorem pow256_eq (n : Nat) : 256 ^ n = 2 ^ (8 * n) := by
  rw [pow_mul]
  norm_num

/-- Extracting byte `j` of an 8-byte big-endian packed value. -/
theorem cacheByte_bytesToBE (xs : List Nat) (hlen : xs.length = 8)
    (hb : ∀ b ∈ xs, b < 256) (j : Nat) (hj : j < 8) :
    cacheByte (bytesToBE xs) j = xs.getD j 0 := by
  have hsplit := List.take_append_drop (j + 1) xs
  have hdlen : (xs.drop (j + 1)).length = 7 - j := by
    rw [List.length_drop, hlen]
    omega
  have htlen : (xs.take (j + 1)).length = j + 1 := by
    rw [List.length_take, hlen]
    omega
  have hdb : ∀ b ∈ xs.drop (j + 1), b < 256 :=
    fun b hmem => hb b (List.mem_of_mem_drop hmem)
  have htake : xs.take (j + 1) = xs.take j ++ [xs.getD j 0] := by
    rw [List.take_succ]
    congr 1
    have : xs[j]? = some (xs.getD j 0) := by
      rw [List.getD_eq_getElem?_getD]
      cases hx : xs[j]? with
      | none =>
        have := List.getElem?_eq_none_iff.mp hx
        omega
      | some v => simp
    rw [this]
    rfl
  have hxj : xs.getD j 0 < 256 := by
    apply hb
    have : xs.getD j 0 ∈ xs.take (j + 1) := by
      rw [htake]
      simp
    exact List.mem_of_mem_take this
  unfold cacheByte
  have h56 : (2 : Nat) ^ (56 - 8 * j) = 256 ^ (7 - j) := by
    rw [pow256_eq]
    congr 1
    omega
  have hvlt : bytesToBE (xs.drop (j + 1)) < 256 ^ (7 - j) := by
    have := bytesToBE_lt _ hdb
    rwa [hdlen] at this
  conv_lhs => rw [← hsplit]
  rw [bytesToBE_append, hdlen, h56]
  rw [Nat.add_comm, Nat.add_mul_div_right _ _
    (pow_pos (by norm_num : (0 : Nat) < 256) _)]
  rw [Nat.div_eq_of_lt hvlt, Nat.zero_add]
  rw [htake, bytesToBE_append, bytesToBE_singleton]
  simp only [List.length_cons, List.length_nil, Nat.zero_add, pow_one]
  rw [Nat.add_comm, Nat.add_mul_mod_self_right]
  exact Nat.mod_eq_of_lt hxj

/-! ### The cached prefix loader -/

/-- Both branches of `get_u64_prefix` compute the zero-padded big-endian
packing of the first eight key bytes at `offset`. -/
theorem get_u64_prefix_eq_pad (key : List Nat) (off : Nat) :
    get_u64_prefix key off = bytesToBE (padTo8 ((key.drop off).take 8)) := by
  unfold get_u64_prefix
  by_cases h1 : key.length ≤ off
  · rw [if_pos h1]
    have hdrop : key.drop off = [] := List.drop_eq_nil_of_le h1
    rw [hdrop, List.take_nil]
    unfold padTo8
    rw [List.nil_append, List.length_nil, bytesToBE_replicate_zero]
  · rw [if_neg h1]
    by_cases h2 : SPLICE_PREFIX_SIZE ≤ key.length - off
    · rw [if_pos h2]
      have hlen : ((key.drop off).take 8).length = 8 := by
        rw [List.length_take, List.length_drop]
        unfold SPLICE_PREFIX_SIZE at h2
        omega
      unfold padTo8
      rw [hlen]
      simp
    · rw [if_neg h2]
      have : (key.drop off).take 8 = key.drop off := by
        apply List.take_of_length_le
        rw [List.length_drop]
        unfold SPLICE_PREFIX_SIZE at h2
        omega
      rw [this]

theorem padTo8_length (bs : List Nat) (h : bs.length ≤ 8) :
    (padTo8 bs).length = 8 := by
  unfold padTo8
  rw [List.length_append, List.length_replicate]
  omega

theorem padTo8_bytes (bs : List Nat) (h : ∀ b ∈ bs, b < 256) :
    ∀ b ∈ padTo8 bs, b < 256 := by
  intro b hmem
  unfold padTo8 at hmem
  rcases List.mem_append.mp hmem with hm | hm
  · exact h b hm
  · rw [List.eq_of_mem_replicate hm]
    norm_num

theorem get_u64_prefix_lt (key : List Nat) (off : Nat)
    (hb : ∀ b ∈ key, b < 256) : get_u64_prefix key off < 2 ^ 64 := by
  rw [get_u64_prefix_eq_pad]
  have hlen : ((key.drop off).take 8).length ≤ 8 := by
    rw [List.length_take]
    omega
  have hbytes : ∀ b ∈ (key.drop off).take 8, b < 256 := fun b hmem =>
    hb b (List.mem_of_mem_drop (List.mem_of_mem_take hmem))
  have := bytesToBE_lt _ (padTo8_bytes _ hbytes)
  rw [padTo8_length _ hlen] at this
  calc bytesToBE (padTo8 ((key.drop off).take 8)) < 256 ^ 8 := this
    _ = 2 ^ 64 := by norm_num

theorem padTo8_getD (bs : List Nat) (j : Nat) :
    (padTo8 bs).getD j 0 = bs.getD j 0 := by
  unfold padTo8
  rw [List.getD_eq_getElem?_getD, List.getD_eq_getElem?_getD,
    List.getElem?_append]
  by_cases h : j < bs.length
  · rw [if_pos h]
  · rw [if_neg h, List.getElem?_replicate]
    have : bs[j]? = none := List.getElem?_eq_none_iff.mpr (by omega)
    rw [this]
    by_cases h2 : j - bs.length < 8 - bs.length
    · rw [if_pos h2]
      rfl
    · rw [if_neg h2]

/-- Byte `j` of the cached prefix at `offset` is key byte `offset + j`
(`0` past end-of-key). -/
theorem cacheByte_get_u64_prefix (key : List Nat) (off : Nat)
    (hb : ∀ b ∈ key, b < 256) (j : Nat) (hj : j < 8) :
    cacheByte ( get_u64_prefix key off) j = key.getD (off + j) 0 := by
  rw [get_u64_prefix_eq_pad]
  have hlen : ((key.drop off).take 8).length ≤ 8 := by
    rw [List.length_take]
    omega
  have hbytes : ∀ b ∈ (key.drop off).take 8, b < 256 := fun b hmem =>
    hb b (List.mem_of_mem_drop (List.mem_of_mem_take hmem))
  rw [cacheByte_bytesToBE _ (padTo8_length _ hlen)
    (padTo8_bytes _ hbytes) j hj]
  rw [padTo8_getD]
  rw [List.getD_eq_getElem?_getD, List.getD_eq_getElem?_getD]
  rw [List.getElem?_take, List.getElem?_drop]
  rw [if_pos hj]

theorem topByte_eq_cacheByte (c : Nat) (hc : c < 2 ^ 64) :
    topByte c = cacheByte c 0 := by
  unfold topByte cacheByte
  rw [Nat.mul_zero, Nat.sub_zero]
  have : c / 2 ^ 56 < 256 := by
    apply Nat.div_lt_of_lt_mul
    calc c < 2 ^ 64 := hc
      _ = 2 ^ 56 * 256 := by norm_num
  omega

theorem topByte_lt (c : Nat) (hc : c < 2 ^ 64) : topByte c < 256 := by
  unfold topByte
  apply Nat.div_lt_of_lt_mul
  calc c < 2 ^ 64 := hc
    _ = 2 ^ 56 * 256 := by norm_num

/-- Slicing bits `[e, e+k)` is unaffected by truncation above them. -/
theorem div_mod_of_mod_pow (c m e k : Nat) (h : e + k ≤ m) :
    c % 2 ^ m / 2 ^ e % 2 ^ k = c / 2 ^ e % 2 ^ k := by
  conv_rhs => rw [← Nat.div_add_mod c (2 ^ m)]
  have h1 : (2 : Nat) ^ m * (c / 2 ^ m) =
      2 ^ (m - e) * (c / 2 ^ m) * 2 ^ e := by
    calc (2 : Nat) ^ m * (c / 2 ^ m)
        = 2 ^ (m - e) * 2 ^ e * (c / 2 ^ m) := by
          rw [← pow_add]
          congr 2
          omega
      _ = 2 ^ (m - e) * (c / 2 ^ m) * 2 ^ e := by ring
  rw [h1, Nat.add_comm (2 ^ (m - e) * (c / 2 ^ m) * 2 ^ e) (c % 2 ^ m)]
  rw [Nat.add_mul_div_right _ _ (Nat.two_pow_pos e)]
  have h2 : (2 : Nat) ^ (m - e) * (c / 2 ^ m) =
      2 ^ (m - e - k) * (c / 2 ^ m) * 2 ^ k := by
    calc (2 : Nat) ^ (m - e) * (c / 2 ^ m)
        = 2 ^ (m - e - k) * 2 ^ k * (c / 2 ^ m) := by
          rw [← pow_add]
          congr 2
          omega
      _ = _ := by ring
  rw [h2, Nat.add_mul_mod_self_right]

/-- Shifting a cached `u64` left by `t` whole bytes exposes byte `j + t`
at position `j`, for positions that stay inside the register. -/
theorem cacheByte_shift (c t j : Nat) (hjt : j + t < 8) :
    cacheByte (c * 2 ^ (8 * t) % 2 ^ 64) j = cacheByte c (j + t) := by
  unfold cacheByte
  have hsplit : (2 : Nat) ^ 64 = 2 ^ (64 - 8 * t) * 2 ^ (8 * t) := by
    rw [← pow_add]
    congr 1
    omega
  rw [hsplit, Nat.mul_mod_mul_right]
  have hexp : (2 : Nat) ^ (56 - 8 * j) =
      2 ^ (56 - 8 * (j + t)) * 2 ^ (8 * t) := by
    rw [← pow_add]
    congr 1
    omega
  rw [hexp, Nat.mul_div_mul_right _ _ (Nat.two_pow_pos (8 * t))]
  exact div_mod_of_mod_pow c (64 - 8 * t) (56 - 8 * (j + t)) 8 (by omega)

/-! ### Zero padding versus lexicographic comparison -/

/-- Truncate-and-zero-pad to length `n` (the content of a cached prefix,
list-level). -/
def padN (n : Nat) (s : List Nat) : List Nat :=
  s.take n ++ List.replicate (n - s.length) 0

theorem padN_zero (s : List Nat) : padN 0 s = [] := by
  simp [padN]

theorem padN_succ_nil (n : Nat) : padN (n + 1) [] = 0 :: padN n [] := by
  simp [padN, List.replicate_succ]

theorem padN_succ_cons (n a : Nat) (s : List Nat) :
    padN (n + 1) (a :: s) = a :: padN n s := by
  simp only [padN, List.take_succ_cons, List.cons_append, List.length_cons]
  have harith : n + 1 - (s.length + 1) = n - s.length := by omega
  rw [harith]

theorem padN_length (n : Nat) (s : List Nat) : (padN n s).length = n := by
  simp only [padN, List.length_append, List.length_take,
    List.length_replicate]
  omega

theorem padN_bytes (n : Nat) (s : List Nat) (h : ∀ b ∈ s, b < 256) :
    ∀ b ∈ padN n s, b < 256 := by
  intro b hmem
  rcases List.mem_append.mp hmem with hm | hm
  · exact h b (List.mem_of_mem_take hm)
  · rw [List.eq_of_mem_replicate hm]
    norm_num

theorem padN_of_le (n : Nat) (s : List Nat) (h : n ≤ s.length) :
    padN n s = s.take n := by
  simp [padN, Nat.sub_eq_zero_of_le h]

theorem padTo8_take_eq_padN (s : List Nat) :
    padTo8 (s.take 8) = padN 8 s := by
  unfold padTo8 padN
  congr 2
  rw [List.length_take]
  omega

/-- A padded comparison that is decided (not `eq`) agrees with the
comparison of the unpadded sequences. -/
theorem listCompare_padN : ∀ (n : Nat) (s t : List Nat),
    listCompare (padN n s) (padN n t) ≠ .eq →
    listCompare s t = listCompare (padN n s) (padN n t) := by
  intro n
  induction n with
  | zero =>
    intro s t h
    rw [padN_zero, padN_zero] at h
    exact absurd (listCompare_self []) h
  | succ n ih =>
    intro s t h
    cases s with
    | nil =>
      cases t with
      | nil => exact absurd (listCompare_self _) h
      | cons b t =>
        rw [padN_succ_nil, padN_succ_cons] at h ⊢
        simp only [listCompare] at h ⊢
        rcases Nat.eq_zero_or_pos b with hb | hb
        · subst hb
          rw [Nat.compare_eq_eq.mpr rfl] at h ⊢
          have hrec := ih [] t h
          have htne : t ≠ [] := by
            intro hc
            subst hc
            exact absurd (listCompare_self _) h
          have : listCompare [] t = .lt := by
            cases t with
            | nil => exact absurd rfl htne
            | cons c cs => rfl
          rw [← hrec, this]
        · rw [Nat.compare_eq_lt.mpr hb]
    | cons a s =>
      cases t with
      | nil =>
        rw [padN_succ_cons, padN_succ_nil] at h ⊢
        simp only [listCompare] at h ⊢
        rcases Nat.eq_zero_or_pos a with ha | ha
        · subst ha
          rw [Nat.compare_eq_eq.mpr rfl] at h ⊢
          have hrec := ih s [] h
          have hsne : s ≠ [] := by
            intro hc
            subst hc
            exact absurd (listCompare_self _) h
          have : listCompare s [] = .gt := by
            cases s with
            | nil => exact absurd rfl hsne
            | cons c cs => rfl
          rw [← hrec, this]
        · rw [Nat.compare_eq_gt.mpr ha]
      | cons b t =>
        rw [padN_succ_cons, padN_succ_cons] at h ⊢
        simp only [listCompare] at h ⊢
        rcases Nat.lt_trichotomy a b with hab | hab | hab
        · rw [Nat.compare_eq_lt.mpr hab]
        · subst hab
          rw [Nat.compare_eq_eq.mpr rfl] at h ⊢
          exact ih s t h
        · rw [Nat.compare_eq_gt.mpr hab]

/-! ### Correctness of the comparator -/

/-- A valid cache packs the key bytes at the comparison offset. -/
theorem cache_eq_bytesToBE_padN (key : List Nat) (off : Nat) :
    get_u64_prefix key off = bytesToBE (padN 8 (key.drop off)) := by
  rw [get_u64_prefix_eq_pad, padTo8_take_eq_padN]

/-- With valid caches, `compare_entries` computes exactly the engine's
total preorder `keyOrder` on the two full keys. -/
theorem compare_entries_eq_keyOrder (K : Nat → List Nat) (hK : ByteKeys K)
    (a pivot : SortPtr) (off : Nat)
    (ha : a.cache = get_u64_prefix (K a.index) off)
    (hp : pivot.cache = get_u64_prefix (K pivot.index) off) :
    compare_entries K a pivot off = keyOrder off (K a.index) (K pivot.index) := by
  have hba : ∀ b ∈ (K a.index).drop off, b < 256 := fun b hb =>
    hK a.index b (List.mem_of_mem_drop hb)
  have hbp : ∀ b ∈ (K pivot.index).drop off, b < 256 := fun b hb =>
    hK pivot.index b (List.mem_of_mem_drop hb)
  have hca : a.cache = bytesToBE (padN 8 ((K a.index).drop off)) := by
    rw [ha, cache_eq_bytesToBE_padN]
  have hcp : pivot.cache = bytesToBE (padN 8 ((K pivot.index).drop off)) := by
    rw [hp, cache_eq_bytesToBE_padN]
  have hcmp : compare a.cache pivot.cache =
      listCompare (padN 8 ((K a.index).drop off))
        (padN 8 ((K pivot.index).drop off)) := by
    rw [hca, hcp]
    exact compare_bytesToBE _ _ (by rw [padN_length, padN_length])
      (padN_bytes _ _ hba) (padN_bytes _ _ hbp)
  unfold compare_entries
  by_cases hne : a.cache = pivot.cache
  · rw [if_neg (by simpa using hne)]
    have hpad : padN 8 ((K a.index).drop off) =
        padN 8 ((K pivot.index).drop off) := by
      have : compare a.cache pivot.cache = .eq := Nat.compare_eq_eq.mpr hne
      rw [hcmp] at this
      exact listCompare_eq_iff.mp this
    by_cases hshort :
        (K a.index).length < off + 8 ∨ (K pivot.index).length < off + 8
    · rw [if_pos hshort]
      rfl
    · rw [if_neg hshort]
      push_neg at hshort
      have hla : 8 ≤ ((K a.index).drop off).length := by
        rw [List.length_drop]
        omega
      have hlp : 8 ≤ ((K pivot.index).drop off).length := by
        rw [List.length_drop]
        omega
      have htake : ((K a.index).drop off).take 8 =
          ((K pivot.index).drop off).take 8 := by
        rw [← padN_of_le 8 _ hla, ← padN_of_le 8 _ hlp]
        exact hpad
      unfold keyOrder
      have hsplit : listCompare ((K a.index).drop off)
          ((K pivot.index).drop off) =
          listCompare ((K a.index).drop (off + 8))
            ((K pivot.index).drop (off + 8)) := by
        conv_lhs =>
          rw [← List.take_append_drop 8 ((K a.index).drop off),
            ← List.take_append_drop 8 ((K pivot.index).drop off)]
        rw [htake, listCompare_append_left, List.drop_drop, List.drop_drop]
      rw [hsplit]
  · rw [if_pos (by simpa using hne)]
    have hpne : listCompare (padN 8 ((K a.index).drop off))
        (padN 8 ((K pivot.index).drop off)) ≠ .eq := by
      intro hc
      apply hne
      apply Nat.compare_eq_eq.mp
      rw [hcmp]
      exact hc
    have hlc := listCompare_padN 8 _ _ hpne
    unfold keyOrder
    rw [hlc, ← hcmp]
    cases hv : compare a.cache pivot.cache with
    | lt => rfl
    | gt => rfl
    | eq =>
      rw [hcmp] at hv
      exact absurd hv hpne

/-! ### Advancing the comparison offset across known-equal bytes -/

theorem drop_eq_getD_cons {x : List Nat} {off : Nat} (h : off < x.length) :
    x.drop off = x.getD off 0 :: x.drop (off + 1) := by
  rw [List.getD_eq_getElem x 0 h]
  exact List.drop_eq_getElem_cons h

theorem getD_zero_of_le (x : List Nat) (off : Nat) (h : x.length ≤ off) :
    x.getD off 0 = 0 := by
  rw [List.getD_eq_getElem?_getD, List.getElem?_eq_none_iff.mpr (by omega)]
  rfl

/-- If two keys have the same (zero-padded) byte at `off`, ordering from
`off` is the same as ordering from `off + 1`. -/
theorem keyOrder_succ_of_getD_eq : ∀ {off : Nat} {x y : List Nat},
    x.getD off 0 = y.getD off 0 → keyOrder off x y = keyOrder (off + 1) x y := by
  have main : ∀ (off : Nat) (x y : List Nat), x.getD off 0 = y.getD off 0 →
      x.length ≤ off → keyOrder off x y = keyOrder (off + 1) x y := by
    intro off x y hb hxs
    have hdx : x.drop off = [] := List.drop_eq_nil_of_le hxs
    have hdx1 : x.drop (off + 1) = [] := List.drop_eq_nil_of_le (by omega)
    by_cases hy : off < y.length
    · have hy0 : y.getD off 0 = 0 := by
        rw [← hb, getD_zero_of_le x off hxs]
      unfold keyOrder
      rw [hdx, hdx1, drop_eq_getD_cons hy, hy0]
      have hlt : listCompare [] (0 :: y.drop (off + 1)) = .lt := rfl
      rw [hlt]
      cases hv : y.drop (off + 1) with
      | nil =>
        have hylen : y.length ≤ off + 1 := by
          by_contra hcon
          have : (y.drop (off + 1)).length = y.length - (off + 1) := by
            rw [List.length_drop]
          rw [hv] at this
          simp at this
          omega
        have : x.length < y.length := by omega
        rw [show listCompare [] [] = .eq from rfl]
        rw [Nat.compare_eq_lt.mpr this]
      | cons c cs => rfl
    · have hys : y.length ≤ off := by omega
      unfold keyOrder
      rw [hdx, hdx1, List.drop_eq_nil_of_le hys,
        List.drop_eq_nil_of_le (show y.length ≤ off + 1 by omega)]
  intro off x y hb
  by_cases hx : off < x.length
  · by_cases hy : off < y.length
    · unfold keyOrder
      rw [drop_eq_getD_cons hx, drop_eq_getD_cons hy, hb]
      show (match (match compare (y.getD off 0) (y.getD off 0) with
        | .eq => listCompare (x.drop (off + 1)) (y.drop (off + 1))
        | o => o) with
        | .eq => compare x.length y.length
        | o => o) = _
      rw [Nat.compare_eq_eq.mpr rfl]
    · have h1 := main off y x hb.symm (by omega)
      rw [keyOrder_swap off y x, keyOrder_swap (off + 1) y x, h1]
  · exact main off x y hb (by omega)

/-- Advancing the offset across a block of known-equal padded bytes. -/
theorem keyOrder_add_of_agree {off : Nat} {x y : List Nat} (k : Nat)
    (h : ∀ j < k, x.getD (off + j) 0 = y.getD (off + j) 0) :
    keyOrder off x y = keyOrder (off + k) x y := by
  induction k with
  | zero => rfl
  | succ k ih =>
    rw [ih fun j hj => h j (by omega)]
    rw [keyOrder_succ_of_getD_eq (h k (by omega))]
    rfl

/-- A strictly smaller padded byte at the offset decides the order. -/
theorem keyOrder_lt_of_getD_lt {off : Nat} {x y : List Nat}
    (h : x.getD off 0 < y.getD off 0) : keyOrder off x y = .lt := by
  have hy : off < y.length := by
    by_contra hc
    rw [getD_zero_of_le y off (by omega)] at h
    omega
  unfold keyOrder
  rw [drop_eq_getD_cons hy]
  by_cases hx : off < x.length
  · rw [drop_eq_getD_cons hx]
    show (match (match compare (x.getD off 0) (y.getD off 0) with
      | .eq => listCompare (x.drop (off + 1)) (y.drop (off + 1))
      | o => o) with
      | .eq => compare x.length y.length
      | o => o) = _
    rw [Nat.compare_eq_lt.mpr h]
  · rw [List.drop_eq_nil_of_le (by omega)]
    rfl

/-! ### A congruence principle for the modelled comparison sort -/

theorem merge_congr {α : Type _} : ∀ (xs ys : List α) (le1 le2 : α → α → Bool),
    (∀ a ∈ xs, ∀ b ∈ ys, le1 a b = le2 a b) →
    xs.merge ys le1 = xs.merge ys le2
  | [], ys, _, _, _ => by rw [List.nil_merge, List.nil_merge]
  | _ :: _, [], _, _, _ => by rw [List.merge_right, List.merge_right]
  | x :: xs, y :: ys, le1, le2, h => by
    rw [List.cons_merge_cons, List.cons_merge_cons]
    have hxy : le1 x y = le2 x y := h x (by simp) y (by simp)
    by_cases hle : le2 x y = true
    · rw [if_pos (by rw [hxy]; exact hle), if_pos hle]
      rw [merge_congr xs (y :: ys) le1 le2
        (fun a ha b hb => h a (by simp [ha]) b hb)]
    · rw [if_neg (by rw [hxy]; exact hle), if_neg hle]
      rw [merge_congr (x :: xs) ys le1 le2
        (fun a ha b hb => h a ha b (by simp [hb]))]
termination_by xs ys => xs.length + ys.length

/-- `mergeSort` only consults the comparator on pairs drawn from the
list being sorted. -/
theorem mergeSort_congr {α : Type _} : ∀ (l : List α) (le1 le2 : α → α → Bool),
    (∀ a ∈ l, ∀ b ∈ l, le1 a b = le2 a b) →
    l.mergeSort le1 = l.mergeSort le2
  | [], _, _, _ => by simp
  | [a], _, _, _ => by simp
  | a :: b :: xs, le1, le2, h => by
    rw [List.mergeSort.eq_3, List.mergeSort.eq_3]
    have hfst : ((List.splitInTwo ⟨a :: b :: xs, rfl⟩).1 :
        { l : List α // l.length = (xs.length + 2 + 1) / 2 }).1 =
        (a :: b :: xs).take ((xs.length + 2 + 1) / 2) := by
      rw [List.splitInTwo_fst]
      simp only [List.length_cons]
    have hsnd : ((List.splitInTwo ⟨a :: b :: xs, rfl⟩).2 :
        { l : List α // l.length = (xs.length + 2) / 2 }).1 =
        (a :: b :: xs).drop ((xs.length + 2 + 1) / 2) := by
      rw [List.splitInTwo_snd]
      simp only [List.length_cons]
    have hmem1 : ∀ c ∈ ((List.splitInTwo ⟨a :: b :: xs, rfl⟩).1 :
        { l : List α // l.length = (xs.length + 2 + 1) / 2 }).1,
        c ∈ a :: b :: xs := by
      intro c hc
      rw [hfst] at hc
      exact List.mem_of_mem_take hc
    have hmem2 : ∀ c ∈ ((List.splitInTwo ⟨a :: b :: xs, rfl⟩).2 :
        { l : List α // l.length = (xs.length + 2) / 2 }).1,
        c ∈ a :: b :: xs := by
      intro c hc
      rw [hsnd] at hc
      exact List.mem_of_mem_drop hc
    have h1 := mergeSort_congr
      ((List.splitInTwo ⟨a :: b :: xs, rfl⟩).1 :
        { l : List α // l.length = (xs.length + 2 + 1) / 2 }).1 le1 le2
      (fun c hc d hd => h c (hmem1 c hc) d (hmem1 d hd))
    have h2 := mergeSort_congr
      ((List.splitInTwo ⟨a :: b :: xs, rfl⟩).2 :
        { l : List α // l.length = (xs.length + 2) / 2 }).1 le1 le2
      (fun c hc d hd => h c (hmem2 c hc) d (hmem2 d hd))
    rw [h1, h2]
    apply merge_congr
    intro c hc d hd
    have hc2 : c ∈ a :: b :: xs :=
      hmem1 c ((List.mergeSort_perm _ le2).mem_iff.mp hc)
    have hd2 : d ∈ a :: b :: xs :=
      hmem2 d ((List.mergeSort_perm _ le2).mem_iff.mp hd)
    exact h c hc2 d hd2
termination_by l => l.length
decreasing_by
  · have := ((List.splitInTwo ⟨a :: b :: xs, rfl⟩).1 :
      { l : List α // l.length = (xs.length + 2 + 1) / 2 }).2
    rw [this]
    simp only [List.length_cons]
    omega
  · have := ((List.splitInTwo ⟨a :: b :: xs, rfl⟩).2 :
      { l : List α // l.length = (xs.length + 2) / 2 }).2
    rw [this]
    simp only [List.length_cons]
    omega

/-! ### Flattening the radix buckets -/

theorem flatMap_congr {α β : Type _} (bs : List α) (g h : α → List β)
    (hgh : ∀ b ∈ bs, g b = h b) : bs.flatMap g = bs.flatMap h := by
  induction bs with
  | nil => rfl
  | cons b bs ih =>
    rw [List.flatMap_cons, List.flatMap_cons, hgh b (by simp),
      ih fun c hc => hgh c (by simp [hc])]

theorem flatMap_perm_congr {α β : Type _} (bs : List α) (g h : α → List β)
    (hgh : ∀ b ∈ bs, (g b).Perm (h b)) :
    (bs.flatMap g).Perm (bs.flatMap h) := by
  induction bs with
  | nil => exact List.Perm.refl _
  | cons b bs ih =>
    rw [List.flatMap_cons, List.flatMap_cons]
    exact (hgh b (by simp)).append (ih fun c hc => hgh c (by simp [hc]))

/-- Stable bucket partitioning is a permutation of the region. -/
theorem flatMap_filter_perm {α : Type _} (f : α → Nat) :
    ∀ (bs : List Nat) (l : List α), bs.Nodup → (∀ x ∈ l, f x ∈ bs) →
    (bs.flatMap fun b => l.filter fun x => f x == b).Perm l := by
  intro bs
  induction bs with
  | nil =>
    intro l _ hcov
    have : l = [] := by
      cases l with
      | nil => rfl
      | cons x xs => exact absurd (hcov x (by simp)) (by simp)
    rw [this]
    exact List.Perm.refl _
  | cons b bs ih =>
    intro l hnd hcov
    rw [List.flatMap_cons]
    have hb : b ∉ bs := (List.nodup_cons.mp hnd).1
    have hshift : ∀ b2 ∈ bs, l.filter (fun x => f x == b2) =
        (l.filter fun x => !(f x == b)).filter fun x => f x == b2 := by
      intro b2 hb2
      rw [List.filter_filter]
      apply List.filter_congr
      intro x _
      by_cases hfx : f x = b2
      · have hne : b2 ≠ b := fun hc => hb (hc ▸ hb2)
        simp [hfx, hne]
      · simp [hfx]
    rw [flatMap_congr bs _ _ hshift]
    have hcov2 : ∀ x ∈ (l.filter fun x => !(f x == b)), f x ∈ bs := by
      intro x hx
      rcases List.mem_filter.mp hx with ⟨hxl, hxb⟩
      rcases hcov x hxl with hxc
      simp only [List.mem_cons] at hxc
      rcases hxc with hxc | hxc
      · exfalso
        rw [hxc] at hxb
        simp at hxb
      · exact hxc
    have hperm := ih (l.filter fun x => !(f x == b))
      (List.nodup_cons.mp hnd).2 hcov2
    have h1 := List.Perm.append (List.Perm.refl (l.filter fun x => f x == b))
      hperm
    exact h1.trans (List.filter_append_perm _ l)

/-- Pairwise order of a bucket flattening: inside each bucket and across
increasing bucket digits. -/
theorem pairwise_flatMap {α : Type _} {R : α → α → Prop} :
    ∀ (bs : List Nat) (g : Nat → List α),
    (∀ b ∈ bs, List.Pairwise R (g b)) →
    (∀ b ∈ bs, ∀ b2 ∈ bs, b < b2 → ∀ x ∈ g b, ∀ y ∈ g b2, R x y) →
    bs.Pairwise (· < ·) → List.Pairwise R (bs.flatMap g) := by
  intro bs
  induction bs with
  | nil => intro g _ _ _; exact List.Pairwise.nil
  | cons b bs ih =>
    intro g hin hcross hbs
    rw [List.flatMap_cons]
    rw [List.pairwise_append]
    refine ⟨hin b (by simp), ?_, ?_⟩
    · exact ih g (fun c hc => hin c (by simp [hc]))
        (fun c hc d hd hcd => hcross c (by simp [hc]) d (by simp [hd]) hcd)
        (List.pairwise_cons.mp hbs).2
    · intro x hx y hy
      rcases List.mem_flatMap.mp hy with ⟨b2, hb2, hyb2⟩
      have hlt : b < b2 := (List.pairwise_cons.mp hbs).1 b2 hb2
      exact hcross b (by simp) b2 (by simp [hb2]) hlt x hx y hyb2

/-! ### Engine invariants -/

/-- Row indices of a pointer region. -/
def idx (l : List SortPtr) : List Nat := l.map SortPtr.index

/-- The `≤` relation realized by the engine at offset `off`, on row
indices. -/
def keyIdxLE (K : Nat → List Nat) (off i j : Nat) : Prop :=
  keyOrder off (K i) (K j) ≠ .gt

/-- Freshly loaded caches: each pointer caches its key's 8 bytes at
`cp`. -/
def CacheInv (K : Nat → List Nat) (cp : Nat) (ptrs : List SortPtr) : Prop :=
  ∀ p ∈ ptrs, p.cache = get_u64_prefix (K p.index) cp

/-- Block-skip loop state: each cache is the load at `cp - s` shifted
left by `s` whole bytes (`s` is `bytes_since_load`). -/
def LoopInv (K : Nat → List Nat) (cp s : Nat) (ptrs : List SortPtr) : Prop :=
  s ≤ 7 ∧ s ≤ cp ∧ ∀ p ∈ ptrs,
    p.cache = get_u64_prefix (K p.index) (cp - s) * 2 ^ (8 * s) % 2 ^ 64

theorem ordering_isLE_iff (o : Ordering) : o.isLE = true ↔ o ≠ .gt := by
  cases o <;> simp [Ordering.isLE]

theorem CacheInv_loopInv (K : Nat → List Nat) (hK : ByteKeys K) (cp : Nat)
    (ptrs : List SortPtr) (h : CacheInv K cp ptrs) : LoopInv K cp 0 ptrs := by
  refine ⟨by omega, by omega, fun p hp => ?_⟩
  rw [Nat.sub_zero, h p hp, Nat.mul_zero, pow_zero, Nat.mul_one,
    Nat.mod_eq_of_lt ( get_u64_prefix_lt _ _ (hK p.index))]

theorem update_caches_cacheInv (K : Nat → List Nat) (ptrs : List SortPtr)
    (cp : Nat) : CacheInv K cp (update_caches K ptrs cp) := by
  intro p hp
  rcases List.mem_map.mp hp with ⟨q, _, hq⟩
  rw [← hq]

theorem idx_update_caches (K : Nat → List Nat) (ptrs : List SortPtr)
    (cp : Nat) : idx (update_caches K ptrs cp) = idx ptrs := by
  unfold idx update_caches
  rw [List.map_map]
  rfl

theorem update_caches_length (K : Nat → List Nat) (ptrs : List SortPtr)
    (cp : Nat) : (update_caches K ptrs cp).length = ptrs.length := by
  unfold update_caches
  rw [List.length_map]

/-- Correctness of the comparison-sort branch on a region with valid
caches. -/
theorem mergeSort_branch_correct (K : Nat → List Nat) (hK : ByteKeys K)
    (ptrs : List SortPtr) (cp : Nat) (hinv : CacheInv K cp ptrs) :
    (idx (ptrs.mergeSort (ptrLE K cp))).Perm (idx ptrs) ∧
    List.Pairwise (fun i j => keyIdxLE K cp i j)
      (idx (ptrs.mergeSort (ptrLE K cp))) := by
  have hcongr : ptrs.mergeSort (ptrLE K cp) =
      ptrs.mergeSort fun p q =>
        (keyOrder cp (K p.index) (K q.index)).isLE := by
    apply mergeSort_congr
    intro p hp q hq
    unfold ptrLE
    rw [compare_entries_eq_keyOrder K hK p q cp (hinv p hp) (hinv q hq)]
  constructor
  · exact (List.mergeSort_perm ptrs _).map SortPtr.index
  · rw [hcongr]
    have htrans : ∀ a b c : SortPtr,
        (keyOrder cp (K a.index) (K b.index)).isLE = true →
        (keyOrder cp (K b.index) (K c.index)).isLE = true →
        (keyOrder cp (K a.index) (K c.index)).isLE = true := by
      intro a b c h1 h2
      rw [ordering_isLE_iff] at h1 h2 ⊢
      exact keyOrder_le_trans h1 h2
    have htotal : ∀ a b : SortPtr,
        ((keyOrder cp (K a.index) (K b.index)).isLE ||
          (keyOrder cp (K b.index) (K a.index)).isLE) = true := by
      intro a b
      rcases keyOrder_le_total cp (K a.index) (K b.index) with h | h
      · rw [Bool.or_eq_true]
        exact Or.inl ((ordering_isLE_iff _).mpr h)
      · rw [Bool.or_eq_true]
        exact Or.inr ((ordering_isLE_iff _).mpr h)
    have hpw := List.sorted_mergeSort htrans htotal ptrs
    unfold idx
    apply List.pairwise_map.mpr
    apply hpw.imp
    intro a b hab
    exact (ordering_isLE_iff _).mp hab

/-! ### The block-skip scan -/

theorem foldl_or_testBit : ∀ (l : List Nat) (acc i : Nat),
    (l.foldl (· ||| ·) acc).testBit i =
      (acc.testBit i || l.any fun x => x.testBit i) := by
  intro l
  induction l with
  | nil => intro acc i; simp
  | cons x xs ih =>
    intro acc i
    rw [List.foldl_cons, ih (acc ||| x) i]
    rw [Nat.testBit_lor]
    simp [Bool.or_assoc]

theorem diffOf_testBit_mem (ptrs : List SortPtr) (anchor : Nat)
    (p : SortPtr) (hp : p ∈ ptrs) (i : Nat)
    (h : (p.cache ^^^ anchor).testBit i = true) :
    (diffOf ptrs anchor).testBit i = true := by
  unfold diffOf
  have hmap : ptrs.foldl (fun acc q => acc ||| (q.cache ^^^ anchor)) 0 =
      (ptrs.map fun q => q.cache ^^^ anchor).foldl (· ||| ·) 0 := by
    rw [List.foldl_map]
  rw [hmap, foldl_or_testBit]
  rw [Bool.or_eq_true]
  right
  rw [List.any_eq_true]
  exact ⟨p.cache ^^^ anchor, List.mem_map_of_mem _ hp, h⟩

theorem bitLen_le_fuel : ∀ (fuel n : Nat), bitLen fuel n ≤ fuel := by
  intro fuel
  induction fuel with
  | zero => intro n; exact Nat.le_refl _
  | succ f ih =>
    intro n
    unfold bitLen
    by_cases hn : n = 0
    · rw [if_pos hn]
      omega
    · rw [if_neg hn]
      have := ih (n / 2)
      omega

theorem lt_pow_of_bitLen_le : ∀ (fuel n m : Nat), n < 2 ^ fuel →
    bitLen fuel n ≤ m → n < 2 ^ m := by
  intro fuel
  induction fuel with
  | zero =>
    intro n m hn _
    have : n = 0 := by
      rw [pow_zero] at hn
      omega
    rw [this]
    exact Nat.pos_pow_of_pos m (by norm_num)
  | succ f ih =>
    intro n m hn hb
    unfold bitLen at hb
    by_cases hn0 : n = 0
    · rw [hn0]
      exact Nat.pos_pow_of_pos m (by norm_num)
    · rw [if_neg hn0] at hb
      have hm : 1 ≤ m := by omega
      have hhalf : n / 2 < 2 ^ f := by
        rw [pow_succ] at hn
        omega
      have := ih (n / 2) (m - 1) hhalf (by omega)
      have hpow : 2 ^ m = 2 * 2 ^ (m - 1) := by
        rw [← pow_succ']
        congr 1
        omega
      omega

theorem bitLen_le_of_lt_pow : ∀ (fuel n m : Nat), n < 2 ^ m →
    bitLen fuel n ≤ m := by
  intro fuel
  induction fuel with
  | zero => intro n m _; exact Nat.zero_le _
  | succ f ih =>
    intro n m hn
    unfold bitLen
    by_cases hn0 : n = 0
    · rw [if_pos hn0]
      exact Nat.zero_le _
    · rw [if_neg hn0]
      have hm : 1 ≤ m := by
        by_contra hc
        have : m = 0 := by omega
        rw [this, pow_zero] at hn
        omega
      have hhalf : n / 2 < 2 ^ (m - 1) := by
        have hpow : 2 ^ m = 2 * 2 ^ (m - 1) := by
          rw [← pow_succ']
          congr 1
          omega
        omega
      have := ih (n / 2) (m - 1) hhalf
      omega

theorem cacheByte_eq_of_high_testBit (x y : Nat) (j : Nat)
    (h : ∀ i, 56 - 8 * j ≤ i → x.testBit i = y.testBit i) :
    cacheByte x j = cacheByte y j := by
  unfold cacheByte
  have hdiv : x / 2 ^ (56 - 8 * j) = y / 2 ^ (56 - 8 * j) := by
    rw [← Nat.shiftRight_eq_div_pow, ← Nat.shiftRight_eq_div_pow]
    apply Nat.eq_of_testBit_eq
    intro i
    rw [Nat.testBit_shiftRight, Nat.testBit_shiftRight]
    exact h _ (Nat.le_add_right _ _)
  rw [hdiv]

/-- Inside the common-prefix count derived from the XOR accumulator, all
caches in the region agree bytewise with the anchor. -/
theorem cacheByte_eq_anchor (ptrs : List SortPtr) (anchor : Nat)
    (hdlt : diffOf ptrs anchor < 2 ^ 64)
    (p : SortPtr) (hp : p ∈ ptrs) (j : Nat)
    (hj : 8 * (j + 1) ≤ clz64 (diffOf ptrs anchor)) :
    cacheByte p.cache j = cacheByte anchor j := by
  have hblen : bitLen 64 (diffOf ptrs anchor) ≤ 56 - 8 * j := by
    have hb64 := bitLen_le_fuel 64 (diffOf ptrs anchor)
    unfold clz64 at hj
    omega
  have hlt : diffOf ptrs anchor < 2 ^ (56 - 8 * j) :=
    lt_pow_of_bitLen_le 64 _ _ hdlt hblen
  apply cacheByte_eq_of_high_testBit
  intro i hi
  by_contra hne
  have hxor : (p.cache ^^^ anchor).testBit i = true := by
    rw [Nat.testBit_xor]
    cases hx : p.cache.testBit i <;> cases hy : anchor.testBit i
    · rw [hx, hy] at hne; exact absurd rfl hne
    · rfl
    · rfl
    · rw [hx, hy] at hne; exact absurd rfl hne
  have hbit := diffOf_testBit_mem ptrs anchor p hp i hxor
  have hfalse : (diffOf ptrs anchor).testBit i = false := by
    apply Nat.testBit_lt_two_pow
    exact Nat.lt_of_lt_of_le hlt (Nat.pow_le_pow_right (by norm_num) hi)
  rw [hbit] at hfalse
  cases hfalse

theorem takeWhile_stop {α : Type _} : ∀ (l : List α) (p : α → Bool) (x : α),
    l[(l.takeWhile p).length]? = some x → p x = false := by
  intro l
  induction l with
  | nil => intro p x h; simp at h
  | cons y ys ih =>
    intro p x h
    cases hp : p y with
    | true =>
      rw [List.takeWhile_cons_of_pos hp] at h
      simp only [List.length_cons] at h
      rw [List.getElem?_cons_succ] at h
      exact ih p x h
    | false =>
      rw [List.takeWhile_cons_of_neg (by simp [hp])] at h
      simp only [List.length_nil] at h
      rw [List.getElem?_cons_zero] at h
      obtain rfl := Option.some.inj h
      exact hp

theorem takeWhile_range_eq_range (n : Nat) (p : Nat → Bool) :
    (List.range n).takeWhile p =
      List.range ((List.range n).takeWhile p).length := by
  have hpre : (List.range n).takeWhile p <+: List.range n :=
    List.takeWhile_prefix p
  have hle : ((List.range n).takeWhile p).length ≤ n := by
    have := hpre.length_le
    rwa [List.length_range] at this
  conv_lhs => rw [List.prefix_iff_eq_take.mp hpre]
  rw [List.take_range]
  congr 1
  exact Nat.min_eq_left hle

theorem safeBytesOf_le (anchor c : Nat) : safeBytesOf anchor c ≤ c := by
  unfold safeBytesOf
  have hpre : ((List.range c).takeWhile fun i => cacheByte anchor i != 0) <+:
      List.range c := List.takeWhile_prefix _
  have := hpre.length_le
  rwa [List.length_range] at this

theorem safeBytesOf_pred (anchor c i : Nat) (h : i < safeBytesOf anchor c) :
    cacheByte anchor i ≠ 0 := by
  have hmem : i ∈ (List.range c).takeWhile fun i => cacheByte anchor i != 0 := by
    rw [takeWhile_range_eq_range]
    rw [List.mem_range]
    exact h
  have := List.mem_takeWhile_imp hmem
  simpa using this

theorem safeBytesOf_stop (anchor c : Nat) (h : safeBytesOf anchor c < c) :
    cacheByte anchor (safeBytesOf anchor c) = 0 := by
  have hget : (List.range c)[safeBytesOf anchor c]? =
      some (safeBytesOf anchor c) :=
    List.getElem?_range h
  have := takeWhile_stop (List.range c)
    (fun i => cacheByte anchor i != 0) (safeBytesOf anchor c)
    (by
      unfold safeBytesOf
      exact hget)
  simpa using this

theorem clz64_le (n : Nat) : clz64 n ≤ 64 := by
  unfold clz64
  omega

/-- Bytes at or past position `8 - s` of an `s`-byte-shifted cache are
zero filler. -/
theorem cacheByte_shift_filler (x s j : Nat) (hs : 8 - s ≤ j) (hs2 : 0 < s)
    (hs8 : s ≤ 8) (hj : j < 8) :
    cacheByte (x * 2 ^ (8 * s) % 2 ^ 64) j = 0 := by
  unfold cacheByte
  have hsplit : (2 : Nat) ^ 64 = 2 ^ (64 - 8 * s) * 2 ^ (8 * s) := by
    rw [← pow_add]
    congr 1
    omega
  rw [hsplit, Nat.mul_mod_mul_right]
  have harr : x % 2 ^ (64 - 8 * s) * 2 ^ (8 * s) =
      x % 2 ^ (64 - 8 * s) * 2 ^ (8 * s - (56 - 8 * j)) * 2 ^ (56 - 8 * j) := by
    rw [Nat.mul_assoc, ← pow_add]
    congr 2
    omega
  rw [harr, Nat.mul_div_cancel _ (Nat.two_pow_pos _)]
  have harr2 : x % 2 ^ (64 - 8 * s) * 2 ^ (8 * s - (56 - 8 * j)) =
      x % 2 ^ (64 - 8 * s) * 2 ^ (8 * s - (56 - 8 * j) - 8) * 256 := by
    rw [Nat.mul_assoc]
    congr 1
    rw [show (256 : Nat) = 2 ^ 8 from by norm_num, ← pow_add]
    congr 1
    omega
  rw [harr2, Nat.mul_mod_left]

/-! ### Unfolding equations for the mutual recursion -/

/-- The histogram pass (steps 1-4 of `aqs_radix`), as dispatched once the
block-skip loop stops. -/
def aqs_histogram (K : Nat → List Nat) (ptrs : List SortPtr) (cp_len : Nat) :
    List SortPtr :=
  (List.range RADIX_BUCKETS).flatMap fun b =>
    if (ptrs.filter fun p => topByte p.cache == b).length = 0 then []
    else
      cps_quicksort K
        (update_caches K (ptrs.filter fun p => topByte p.cache == b)
          (cp_len + 1))
        (cp_len + 1)
        (!((ptrs.filter fun p => topByte p.cache == b).length == ptrs.length))

theorem cps_quicksort_eq (K : Nat → List Nat) (ptrs : List SortPtr)
    (cp_len : Nat) (allow_radix : Bool) :
    cps_quicksort K ptrs cp_len allow_radix =
      if allow_radix = true ∧ RADIX_SORT_THRESHOLD < ptrs.length then
        aqs_radix K ptrs cp_len
      else ptrs.mergeSort (ptrLE K cp_len) := by
  rw [cps_quicksort]
  rw [dite_eq_ite]

theorem aqs_radix_eq (K : Nat → List Nat) (ptrs : List SortPtr)
    (cp_len : Nat) :
    aqs_radix K ptrs cp_len =
      aqs_loop K ptrs cp_len 0 ((K ((ptrs.headD ⟨0, 0⟩).index)).length + 1) := by
  rw [aqs_radix]

theorem aqs_loop_eq (K : Nat → List Nat) (ptrs : List SortPtr)
    (cp_len bytes_since_load fuel : Nat) :
    aqs_loop K ptrs cp_len bytes_since_load fuel =
      if 0 < safeBytesOf ((ptrs.headD ⟨0, 0⟩).cache)
          (clz64 (diffOf ptrs ((ptrs.headD ⟨0, 0⟩).cache)) / 8) ∧
          0 < fuel then
        if 8 ≤ bytes_since_load + safeBytesOf ((ptrs.headD ⟨0, 0⟩).cache)
            (clz64 (diffOf ptrs ((ptrs.headD ⟨0, 0⟩).cache)) / 8) then
          aqs_loop K
            (update_caches K ptrs
              (cp_len + safeBytesOf ((ptrs.headD ⟨0, 0⟩).cache)
                (clz64 (diffOf ptrs ((ptrs.headD ⟨0, 0⟩).cache)) / 8)))
            (cp_len + safeBytesOf ((ptrs.headD ⟨0, 0⟩).cache)
              (clz64 (diffOf ptrs ((ptrs.headD ⟨0, 0⟩).cache)) / 8))
            0 (fuel - 1)
        else
          aqs_loop K
            (ptrs.map fun p =>
              ⟨p.index, p.cache * 2 ^ (8 * safeBytesOf
                  ((ptrs.headD ⟨0, 0⟩).cache)
                  (clz64 (diffOf ptrs ((ptrs.headD ⟨0, 0⟩).cache)) / 8)) %
                2 ^ 64⟩)
            (cp_len + safeBytesOf ((ptrs.headD ⟨0, 0⟩).cache)
              (clz64 (diffOf ptrs ((ptrs.headD ⟨0, 0⟩).cache)) / 8))
            (bytes_since_load + safeBytesOf ((ptrs.headD ⟨0, 0⟩).cache)
              (clz64 (diffOf ptrs ((ptrs.headD ⟨0, 0⟩).cache)) / 8))
            (fuel - 1)
      else aqs_histogram K ptrs cp_len := by
  rw [aqs_loop]
  rfl

/-! ### Loop-state facts -/

theorem headD_mem {l : List SortPtr} (h : l ≠ []) : l.headD ⟨0, 0⟩ ∈ l := by
  cases l with
  | nil => exact absurd rfl h
  | cons x xs => simp

theorem loopInv_cache_lt {K : Nat → List Nat} {cp s : Nat}
    {ptrs : List SortPtr} (hinv : LoopInv K cp s ptrs) {p : SortPtr}
    (hp : p ∈ ptrs) : p.cache < 2 ^ 64 := by
  rw [hinv.2.2 p hp]
  exact Nat.mod_lt _ (by norm_num)

/-- The XOR accumulator of a region with in-range caches fits in 64
bits. -/
theorem diffOf_head_lt_two_pow_64 {K : Nat → List Nat} {cp s : Nat}
    {ptrs : List SortPtr} (hinv : LoopInv K cp s ptrs) :
    diffOf ptrs ((ptrs.headD ⟨0, 0⟩).cache) < 2 ^ 64 := by
  apply Nat.lt_pow_two_of_testBit
  intro i hi
  unfold diffOf
  have hmap : ptrs.foldl (fun acc q =>
      acc ||| (q.cache ^^^ (ptrs.headD ⟨0, 0⟩).cache)) 0 =
      (ptrs.map fun q =>
        q.cache ^^^ (ptrs.headD ⟨0, 0⟩).cache).foldl (· ||| ·) 0 := by
    rw [List.foldl_map]
  rw [hmap, foldl_or_testBit]
  simp only [Nat.zero_testBit, Bool.false_or]
  rw [List.any_eq_false]
  intro x hx
  rcases List.mem_map.mp hx with ⟨p, hp, rfl⟩
  have hne : ptrs ≠ [] := by
    intro hc
    rw [hc] at hp
    simp at hp
  have h1 : p.cache.testBit i = false :=
    Nat.testBit_lt_two_pow (Nat.lt_of_lt_of_le (loopInv_cache_lt hinv hp)
      (Nat.pow_le_pow_right (by norm_num) hi))
  have h2 : ((ptrs.headD ⟨0, 0⟩).cache).testBit i = false :=
    Nat.testBit_lt_two_pow (Nat.lt_of_lt_of_le
      (loopInv_cache_lt hinv (headD_mem hne))
      (Nat.pow_le_pow_right (by norm_num) hi))
  rw [Nat.testBit_xor, h1, h2]
  decide

theorem loopInv_cacheByte {K : Nat → List Nat} (hK : ByteKeys K)
    {cp s : Nat} {ptrs : List SortPtr} (hinv : LoopInv K cp s ptrs)
    {p : SortPtr} (hp : p ∈ ptrs) (j : Nat) (hj : j < 8 - s) :
    cacheByte p.cache j = (K p.index).getD (cp + j) 0 := by
  rcases hinv with ⟨hs7, hscp, hcache⟩
  rw [hcache p hp, cacheByte_shift _ s j (by omega)]
  rw [ cacheByte_get_u64_prefix _ _ (hK p.index) (j + s) (by omega)]
  congr 1
  omega

theorem loopInv_topByte {K : Nat → List Nat} (hK : ByteKeys K)
    {cp s : Nat} {ptrs : List SortPtr} (hinv : LoopInv K cp s ptrs)
    {p : SortPtr} (hp : p ∈ ptrs) :
    topByte p.cache = (K p.index).getD cp 0 := by
  rw [topByte_eq_cacheByte _ (loopInv_cache_lt hinv hp)]
  have hj : 0 < 8 - s := by
    have h7 := hinv.1
    omega
  have := loopInv_cacheByte hK hinv hp 0 hj
  rw [this, Nat.add_zero]

/-- The block-skip scan never counts past the unconsumed part of the
register: filler zeros (or the register end) stop it. -/
theorem safe_le_slack {K : Nat → List Nat} {cp s : Nat}
    {ptrs : List SortPtr} (hinv : LoopInv K cp s ptrs) (hne : ptrs ≠ []) :
    safeBytesOf ((ptrs.headD ⟨0, 0⟩).cache)
      (clz64 (diffOf ptrs ((ptrs.headD ⟨0, 0⟩).cache)) / 8) ≤ 8 - s := by
  rcases Nat.eq_zero_or_pos s with hs | hs
  · subst hs
    have h1 := safeBytesOf_le ((ptrs.headD ⟨0, 0⟩).cache)
      (clz64 (diffOf ptrs ((ptrs.headD ⟨0, 0⟩).cache)) / 8)
    have h2 := clz64_le (diffOf ptrs ((ptrs.headD ⟨0, 0⟩).cache))
    omega
  · by_contra hcon
    have hpred := safeBytesOf_pred ((ptrs.headD ⟨0, 0⟩).cache)
      (clz64 (diffOf ptrs ((ptrs.headD ⟨0, 0⟩).cache)) / 8) (8 - s)
      (by omega)
    have hmem := headD_mem hne
    have h7 := hinv.1
    have hfiller : cacheByte ((ptrs.headD ⟨0, 0⟩).cache) (8 - s) = 0 := by
      rw [hinv.2.2 _ hmem]
      exact cacheByte_shift_filler _ s (8 - s) (Nat.le_refl _) hs
        (by omega) (by omega)
    exact hpred hfiller

/-! ### Correctness of the histogram pass -/

theorem aqs_histogram_correct (K : Nat → List Nat) (hK : ByteKeys K)
    (N : Nat)
    (IH : ∀ ptrs2 : List SortPtr, ptrs2.length < N → ∀ cp2 allow,
      CacheInv K cp2 ptrs2 →
      (idx (cps_quicksort K ptrs2 cp2 allow)).Perm (idx ptrs2) ∧
      List.Pairwise (keyIdxLE K cp2) (idx (cps_quicksort K ptrs2 cp2 allow)))
    (ptrs : List SortPtr) (cp s : Nat) (hlen : ptrs.length = N)
    (hinv : LoopInv K cp s ptrs) :
    (idx (aqs_histogram K ptrs cp)).Perm (idx ptrs) ∧
    List.Pairwise (keyIdxLE K cp) (idx (aqs_histogram K ptrs cp)) := by
  have hbody : ∀ b ∈ List.range RADIX_BUCKETS,
      (idx (if (ptrs.filter fun p => topByte p.cache == b).length = 0 then []
        else cps_quicksort K
          (update_caches K (ptrs.filter fun p => topByte p.cache == b)
            (cp + 1)) (cp + 1)
          (!((ptrs.filter fun p =>
            topByte p.cache == b).length == ptrs.length)))).Perm
        (idx (ptrs.filter fun p => topByte p.cache == b)) ∧
      List.Pairwise (keyIdxLE K (cp + 1))
        (idx (if (ptrs.filter fun p => topByte p.cache == b).length = 0 then []
          else cps_quicksort K
            (update_caches K (ptrs.filter fun p => topByte p.cache == b)
              (cp + 1)) (cp + 1)
            (!((ptrs.filter fun p =>
              topByte p.cache == b).length == ptrs.length)))) := by
    intro b _
    by_cases hb : (ptrs.filter fun p => topByte p.cache == b).length = 0
    · rw [if_pos hb, List.length_eq_zero.mp hb]
      exact ⟨List.Perm.refl _, List.Pairwise.nil⟩
    · rw [if_neg hb]
      have hcub := update_caches_cacheInv K
        (ptrs.filter fun p => topByte p.cache == b) (cp + 1)
      by_cases hdeg :
          (ptrs.filter fun p => topByte p.cache == b).length = ptrs.length
      · have hallow : (!((ptrs.filter fun p =>
            topByte p.cache == b).length == ptrs.length)) = false := by
          simp [hdeg]
        rw [hallow, cps_quicksort_eq, if_neg (by simp)]
        have hms := mergeSort_branch_correct K hK
          (update_caches K (ptrs.filter fun p => topByte p.cache == b)
            (cp + 1)) (cp + 1) hcub
        rwa [idx_update_caches] at hms
      · have hlt :
            (update_caches K (ptrs.filter fun p => topByte p.cache == b)
              (cp + 1)).length < N := by
          rw [update_caches_length]
          have hle := List.length_filter_le
            (fun p => topByte p.cache == b) ptrs
          omega
        have hres := IH _ hlt (cp + 1)
          (!((ptrs.filter fun p => topByte p.cache == b).length ==
            ptrs.length)) hcub
        rwa [idx_update_caches] at hres
  have hcov : ∀ p ∈ ptrs, topByte p.cache ∈ List.range RADIX_BUCKETS := by
    intro p hp
    rw [List.mem_range]
    show topByte p.cache < 256
    exact topByte_lt _ (loopInv_cache_lt hinv hp)
  have hbyte : ∀ b ∈ List.range RADIX_BUCKETS,
      ∀ i ∈ idx (if (ptrs.filter fun p => topByte p.cache == b).length = 0
        then []
        else cps_quicksort K
          (update_caches K (ptrs.filter fun p => topByte p.cache == b)
            (cp + 1)) (cp + 1)
          (!((ptrs.filter fun p =>
            topByte p.cache == b).length == ptrs.length))),
      (K i).getD cp 0 = b := by
    intro b hb i hi
    have hi2 : i ∈ idx (ptrs.filter fun p => topByte p.cache == b) :=
      ((hbody b hb).1.mem_iff).mp hi
    rcases List.mem_map.mp hi2 with ⟨p, hpf, hpi⟩
    rcases List.mem_filter.mp hpf with ⟨hpmem, hptop⟩
    have htop : topByte p.cache = b := by
      simpa using hptop
    rw [← hpi, ← loopInv_topByte hK hinv hpmem, htop]
  constructor
  · unfold aqs_histogram idx
    rw [List.map_flatMap]
    have h1 := flatMap_perm_congr (List.range RADIX_BUCKETS) _ _
      (fun b hb => (hbody b hb).1)
    have h3 := flatMap_filter_perm (fun p => topByte p.cache)
      (List.range RADIX_BUCKETS) ptrs (List.nodup_range _) hcov
    have h4 := h3.map SortPtr.index
    rw [List.map_flatMap] at h4
    exact h1.trans h4
  · unfold aqs_histogram idx
    rw [List.map_flatMap]
    apply pairwise_flatMap (List.range RADIX_BUCKETS) _ ?_ ?_
      (List.pairwise_lt_range _)
    · intro b hb
      have hlift := (hbody b hb).2
      apply hlift.imp_of_mem
      intro i j hi hj hij
      unfold keyIdxLE at hij ⊢
      rw [keyOrder_succ_of_getD_eq
        ((hbyte b hb i hi).trans (hbyte b hb j hj).symm)]
      exact hij
    · intro b hb b2 hb2 hlt x hx y hy
      unfold keyIdxLE
      rw [keyOrder_lt_of_getD_lt]
      · simp
      · rw [hbyte b hb x hx, hbyte b2 hb2 y hy]
        exact hlt

/-! ### Correctness of the block-skip loop -/

theorem aqs_loop_correct (K : Nat → List Nat) (hK : ByteKeys K) (N : Nat)
    (IH : ∀ ptrs2 : List SortPtr, ptrs2.length < N → ∀ cp2 allow,
      CacheInv K cp2 ptrs2 →
      (idx (cps_quicksort K ptrs2 cp2 allow)).Perm (idx ptrs2) ∧
      List.Pairwise (keyIdxLE K cp2) (idx (cps_quicksort K ptrs2 cp2 allow))) :
    ∀ (fuel : Nat) (ptrs : List SortPtr) (cp s : Nat), ptrs.length = N →
      ptrs ≠ [] → LoopInv K cp s ptrs →
      (idx (aqs_loop K ptrs cp s fuel)).Perm (idx ptrs) ∧
      List.Pairwise (keyIdxLE K cp) (idx (aqs_loop K ptrs cp s fuel)) := by
  intro fuel
  induction fuel with
  | zero =>
    intro ptrs cp s hlen hne hinv
    rw [aqs_loop_eq, if_neg (by simp)]
    exact aqs_histogram_correct K hK N IH ptrs cp s hlen hinv
  | succ f ihf =>
    intro ptrs cp s hlen hne hinv
    rw [aqs_loop_eq]
    by_cases hsb : 0 < safeBytesOf ((ptrs.headD ⟨0, 0⟩).cache)
        (clz64 (diffOf ptrs ((ptrs.headD ⟨0, 0⟩).cache)) / 8)
    case neg =>
      rw [if_neg fun hc => hsb hc.1]
      exact aqs_histogram_correct K hK N IH ptrs cp s hlen hinv
    case pos =>
      rw [if_pos ⟨hsb, by omega⟩]
      set sb := safeBytesOf ((ptrs.headD ⟨0, 0⟩).cache)
        (clz64 (diffOf ptrs ((ptrs.headD ⟨0, 0⟩).cache)) / 8) with hsbdef
      have h7 := hinv.1
      have hscp := hinv.2.1
      have hslack : sb ≤ 8 - s := safe_le_slack hinv hne
      have hagree : ∀ p ∈ ptrs, ∀ q ∈ ptrs, ∀ j, j < sb →
          (K p.index).getD (cp + j) 0 = (K q.index).getD (cp + j) 0 := by
        intro p hp q hq j hj
        have hcommon : sb ≤
            clz64 (diffOf ptrs ((ptrs.headD ⟨0, 0⟩).cache)) / 8 := by
          rw [hsbdef]
          exact safeBytesOf_le _ _
        have hmul := Nat.mul_div_le
          (clz64 (diffOf ptrs ((ptrs.headD ⟨0, 0⟩).cache))) 8
        have hclz : 8 * (j + 1) ≤
            clz64 (diffOf ptrs ((ptrs.headD ⟨0, 0⟩).cache)) := by
          omega
        have hdlt := diffOf_head_lt_two_pow_64 hinv
        have h1 := cacheByte_eq_anchor ptrs ((ptrs.headD ⟨0, 0⟩).cache)
          hdlt p hp j hclz
        have h2 := cacheByte_eq_anchor ptrs ((ptrs.headD ⟨0, 0⟩).cache)
          hdlt q hq j hclz
        have h3 := loopInv_cacheByte hK hinv hp j (by omega)
        have h4 := loopInv_cacheByte hK hinv hq j (by omega)
        rw [← h3, ← h4, h1, h2]
      have hlift : ∀ res : List Nat, (∀ i ∈ res, i ∈ idx ptrs) →
          List.Pairwise (keyIdxLE K (cp + sb)) res →
          List.Pairwise (keyIdxLE K cp) res := by
        intro res hsub hpw
        apply hpw.imp_of_mem
        intro i j hi hj hij
        unfold keyIdxLE at hij ⊢
        rcases List.mem_map.mp (hsub i hi) with ⟨p, hp, hpi⟩
        rcases List.mem_map.mp (hsub j hj) with ⟨q, hq, hqj⟩
        rw [keyOrder_add_of_agree sb fun t ht => by
          rw [← hpi, ← hqj]
          exact hagree p hp q hq t ht]
        exact hij
      by_cases hreload : 8 ≤ s + sb
      · rw [if_pos hreload]
        have hinv2 : LoopInv K (cp + sb) 0
            (update_caches K ptrs (cp + sb)) :=
          CacheInv_loopInv K hK _ _ (update_caches_cacheInv K ptrs (cp + sb))
        have hlen2 : (update_caches K ptrs (cp + sb)).length = N := by
          rw [update_caches_length]
          exact hlen
        have hne2 : update_caches K ptrs (cp + sb) ≠ [] := by
          intro hc
          unfold update_caches at hc
          exact hne (List.map_eq_nil_iff.mp hc)
        obtain ⟨hP, hS⟩ := ihf (update_caches K ptrs (cp + sb)) (cp + sb) 0
          hlen2 hne2 hinv2
        rw [idx_update_caches] at hP
        refine ⟨hP, hlift _ (fun i hi => hP.mem_iff.mp hi) hS⟩
      · rw [if_neg hreload]
        have hinv2 : LoopInv K (cp + sb) (s + sb)
            (ptrs.map fun p =>
              ⟨p.index, p.cache * 2 ^ (8 * sb) % 2 ^ 64⟩) := by
          refine ⟨by omega, by omega, ?_⟩
          intro p2 hp2
          rcases List.mem_map.mp hp2 with ⟨p, hp, hpe⟩
          rw [← hpe]
          show p.cache * 2 ^ (8 * sb) % 2 ^ 64 =
            get_u64_prefix (K p.index) (cp + sb - (s + sb)) *
              2 ^ (8 * (s + sb)) % 2 ^ 64
          rw [hinv.2.2 p hp, Nat.mod_mul_mod, Nat.mul_assoc, ← pow_add]
          have e1 : cp + sb - (s + sb) = cp - s := by omega
          have e2 : 8 * s + 8 * sb = 8 * (s + sb) := by omega
          rw [e1, e2]
        have hlen2 : (ptrs.map fun p =>
            (⟨p.index, p.cache * 2 ^ (8 * sb) % 2 ^ 64⟩ : SortPtr)).length =
            N := by
          rw [List.length_map]
          exact hlen
        have hne2 : (ptrs.map fun p =>
            (⟨p.index, p.cache * 2 ^ (8 * sb) % 2 ^ 64⟩ : SortPtr)) ≠ [] := by
          intro hc
          exact hne (List.map_eq_nil_iff.mp hc)
        have hidx2 : idx (ptrs.map fun p =>
            (⟨p.index, p.cache * 2 ^ (8 * sb) % 2 ^ 64⟩ : SortPtr)) =
            idx ptrs := by
          unfold idx
          rw [List.map_map]
          rfl
        obtain ⟨hP, hS⟩ := ihf _ (cp + sb) (s + sb) hlen2 hne2 hinv2
        rw [hidx2] at hP
        refine ⟨hP, hlift _ (fun i hi => hP.mem_iff.mp hi) hS⟩

/-! ### The master correctness theorem for the sort driver -/

theorem cps_correct (K : Nat → List Nat) (hK : ByteKeys K) :
    ∀ (n : Nat) (ptrs : List SortPtr) (cp : Nat) (allow : Bool),
      ptrs.length = n → CacheInv K cp ptrs →
      (idx (cps_quicksort K ptrs cp allow)).Perm (idx ptrs) ∧
      List.Pairwise (keyIdxLE K cp) (idx (cps_quicksort K ptrs cp allow)) := by
  intro n
  induction n using Nat.strong_induction_on with
  | _ n ihn =>
    intro ptrs cp allow hlen hinv
    rw [cps_quicksort_eq]
    by_cases hcond : allow = true ∧ RADIX_SORT_THRESHOLD < ptrs.length
    · rw [if_pos hcond]
      rw [aqs_radix_eq]
      have hne : ptrs ≠ [] := by
        intro hc
        rw [hc] at hcond
        simp [RADIX_SORT_THRESHOLD] at hcond
      have hIH : ∀ ptrs2 : List SortPtr, ptrs2.length < n →
          ∀ cp2 allow2, CacheInv K cp2 ptrs2 →
          (idx (cps_quicksort K ptrs2 cp2 allow2)).Perm (idx ptrs2) ∧
          List.Pairwise (keyIdxLE K cp2)
            (idx (cps_quicksort K ptrs2 cp2 allow2)) :=
        fun ptrs2 hl cp2 allow2 hinv2 =>
          ihn ptrs2.length hl ptrs2 cp2 allow2 rfl hinv2
      exact aqs_loop_correct K hK n hIH _ ptrs cp 0 hlen hne
        (CacheInv_loopInv K hK cp ptrs hinv)
    · rw [if_neg hcond]
      exact mergeSort_branch_correct K hK ptrs cp hinv

theorem keyOrder_zero_eq (x y : List Nat) :
    keyOrder 0 x y = listCompare x y := by
  unfold keyOrder
  rw [List.drop_zero, List.drop_zero]
  cases h : listCompare x y with
  | lt => rfl
  | gt => rfl
  | eq =>
    rw [listCompare_eq_iff.mp h]
    rw [Nat.compare_eq_eq.mpr rfl]

/-- `orasort` returns a permutation of `[0, len)` whose keys are in
non-decreasing §3 order. -/
theorem orasort_spec (K : Nat → List Nat) (hK : ByteKeys K) (len : Nat) :
    (orasort K len).Perm (List.range len) ∧
    List.Pairwise (fun i j => listCompare (K i) (K j) ≠ .gt)
      (orasort K len) := by
  unfold orasort
  by_cases h0 : len = 0
  · rw [if_pos h0, h0]
    exact ⟨by simp, List.Pairwise.nil⟩
  · rw [if_neg h0]
    have hinv : CacheInv K 0 ((List.range len).map fun index =>
        SortPtr.mk index ( get_u64_prefix (K index) 0)) := by
      intro p hp
      rcases List.mem_map.mp hp with ⟨i, _, hi⟩
      rw [← hi]
    have hidx : idx ((List.range len).map fun index =>
        SortPtr.mk index ( get_u64_prefix (K index) 0)) = List.range len := by
      unfold idx
      rw [List.map_map]
      have : (SortPtr.index ∘ fun index =>
          SortPtr.mk index ( get_u64_prefix (K index) 0)) = id := by
        funext i
        rfl
      rw [this, List.map_id]
    obtain ⟨hP, hS⟩ := cps_correct K hK
      ((List.range len).map fun index =>
        SortPtr.mk index ( get_u64_prefix (K index) 0)).length
      ((List.range len).map fun index =>
        SortPtr.mk index ( get_u64_prefix (K index) 0)) 0 true rfl hinv
    rw [hidx] at hP
    constructor
    · exact hP
    · apply hS.imp
      intro i j hij
      unfold keyIdxLE at hij
      rwa [keyOrder_zero_eq] at hij

/-- `orasort_from_indices` sorts exactly the given indices by the suffix
order at `offset`. -/
theorem orasort_from_indices_spec (K : Nat → List Nat) (hK : ByteKeys K)
    (indices : List Nat) (offset : Nat) :
    (orasort_from_indices K indices offset).Perm indices ∧
    List.Pairwise (fun i j => keyOrder offset (K i) (K j) ≠ .gt)
      (orasort_from_indices K indices offset) := by
  unfold orasort_from_indices
  by_cases h0 : indices.length = 0
  · rw [if_pos h0, List.length_eq_zero.mp h0]
    exact ⟨List.Perm.refl _, List.Pairwise.nil⟩
  · rw [if_neg h0]
    have hinv : CacheInv K offset (indices.map fun index =>
        SortPtr.mk index ( get_u64_prefix (K index) offset)) := by
      intro p hp
      rcases List.mem_map.mp hp with ⟨i, _, hi⟩
      rw [← hi]
    have hidx : idx (indices.map fun index =>
        SortPtr.mk index ( get_u64_prefix (K index) offset)) = indices := by
      unfold idx
      rw [List.map_map]
      have hcomp : (SortPtr.index ∘ fun index =>
          SortPtr.mk index ( get_u64_prefix (K index) offset)) = id := by
        funext i
        rfl
      rw [hcomp, List.map_id]
    obtain ⟨hP, hS⟩ := cps_correct K hK
      (indices.map fun index =>
        SortPtr.mk index ( get_u64_prefix (K index) offset)).length
      (indices.map fun index =>
        SortPtr.mk index ( get_u64_prefix (K index) offset)) offset true
      rfl hinv
    rw [hidx] at hP
    exact ⟨hP, hS⟩

/-- Accessors built from a finite list of byte-valued keys satisfy the
byte bound. -/
theorem byteKeys_keyFun (l : List (List Nat))
    (h : ∀ k ∈ l, ∀ b ∈ k, b < 256) : ByteKeys (keyFun l) := by
  intro i b hb
  unfold keyFun at hb
  by_cases hi : i < l.length
  · rw [List.getD_eq_getElem l [] hi] at hb
    exact h _ (List.getElem_mem hi) b hb
  · rw [List.getD_eq_getElem?_getD,
      List.getElem?_eq_none_iff.mpr (by omega)] at hb
    simp at hb

/-! ### Claim theorems -/

/-- C1.  For every key accessor (pure `get_key`, byte-valued keys),
`orasort` returns a sequence of row indices of length `len` that is a
permutation of `[0, len)`, and every adjacent pair of output keys is
non-decreasing under unsigned lexicographic byte ordering in which a
strict prefix orders before its extensions. -/
theorem orasort_sorted_permutation (K : Nat → List Nat) (len : Nat)
    (hK : ByteKeys K) :
    (orasort K len).length = len ∧
    (orasort K len).Perm (List.range len) ∧
    List.Chain' (fun i j => listCompare (K i) (K j) ≠ .gt)
      (orasort K len) := by
  obtain ⟨hP, hS⟩ := orasort_spec K hK len
  refine ⟨?_, hP, hS.chain'⟩
  rw [hP.length_eq, List.length_range]

theorem orasort_sorted_permutation_witness :
    (orasort (keyFun [[98, 97], [97], [99], [97]]) 4).length = 4 ∧
    (orasort (keyFun [[98, 97], [97], [99], [97]]) 4).Perm (List.range 4) ∧
    List.Chain' (fun i j => listCompare ((keyFun [[98, 97], [97], [99], [97]]) i)
      ((keyFun [[98, 97], [97], [99], [97]]) j) ≠ .gt)
      (orasort (keyFun [[98, 97], [97], [99], [97]]) 4) :=
  orasort_sorted_permutation (keyFun [[98, 97], [97], [99], [97]]) 4
    (byteKeys_keyFun _ (by decide))

/-- C2.  With caches holding the big-endian 8 bytes of the keys at
`cp_len` (zero-padded past end-of-key), `compare_entries` computes the
§3 total order on the key suffixes at `cp_len` with the
shorter-is-smaller length tie-break; the fast path is the unsigned `u64`
comparison of the caches, and the two slow paths compare the stated
slices with the length tie-break. -/
theorem compare_entries_correct (K : Nat → List Nat) (hK : ByteKeys K)
    (a pivot : SortPtr) (cp_len : Nat)
    (ha : a.cache = get_u64_prefix (K a.index) cp_len)
    (hp : pivot.cache = get_u64_prefix (K pivot.index) cp_len) :
    compare_entries K a pivot cp_len =
      keyOrder cp_len (K a.index) (K pivot.index) ∧
    (a.cache ≠ pivot.cache →
      compare_entries K a pivot cp_len = compare a.cache pivot.cache) ∧
    (a.cache = pivot.cache →
      ((K a.index).length < cp_len + 8 ∨
        (K pivot.index).length < cp_len + 8) →
      compare_entries K a pivot cp_len =
        match listCompare ((K a.index).drop cp_len)
          ((K pivot.index).drop cp_len) with
        | .eq => compare (K a.index).length (K pivot.index).length
        | o => o) ∧
    (a.cache = pivot.cache →
      ¬((K a.index).length < cp_len + 8 ∨
        (K pivot.index).length < cp_len + 8) →
      compare_entries K a pivot cp_len =
        match listCompare ((K a.index).drop (cp_len + 8))
          ((K pivot.index).drop (cp_len + 8)) with
        | .eq => compare (K a.index).length (K pivot.index).length
        | o => o) := by
  refine ⟨compare_entries_eq_keyOrder K hK a pivot cp_len ha hp, ?_, ?_, ?_⟩
  · intro hne
    unfold compare_entries
    rw [if_pos (by simpa using hne)]
  · intro heq hshort
    unfold compare_entries
    rw [if_neg (by simpa using heq), if_pos hshort]
  · intro heq hlong
    unfold compare_entries
    rw [if_neg (by simpa using heq), if_neg hlong]

theorem compare_entries_correct_witness :
    compare_entries (keyFun [[5, 6, 7], [5, 6]])
        ⟨0, get_u64_prefix [5, 6, 7] 1⟩ ⟨1, get_u64_prefix [5, 6] 1⟩ 1 =
      keyOrder 1 (keyFun [[5, 6, 7], [5, 6]] 0)
        (keyFun [[5, 6, 7], [5, 6]] 1) ∧
    ((⟨0, get_u64_prefix [5, 6, 7] 1⟩ : SortPtr).cache ≠
        (⟨1, get_u64_prefix [5, 6] 1⟩ : SortPtr).cache →
      compare_entries (keyFun [[5, 6, 7], [5, 6]])
          ⟨0, get_u64_prefix [5, 6, 7] 1⟩ ⟨1, get_u64_prefix [5, 6] 1⟩ 1 =
        compare (⟨0, get_u64_prefix [5, 6, 7] 1⟩ : SortPtr).cache
          (⟨1, get_u64_prefix [5, 6] 1⟩ : SortPtr).cache) ∧
    ((⟨0, get_u64_prefix [5, 6, 7] 1⟩ : SortPtr).cache =
        (⟨1, get_u64_prefix [5, 6] 1⟩ : SortPtr).cache →
      ((keyFun [[5, 6, 7], [5, 6]] 0).length < 1 + 8 ∨
        (keyFun [[5, 6, 7], [5, 6]] 1).length < 1 + 8) →
      compare_entries (keyFun [[5, 6, 7], [5, 6]])
          ⟨0, get_u64_prefix [5, 6, 7] 1⟩ ⟨1, get_u64_prefix [5, 6] 1⟩ 1 =
        match listCompare ((keyFun [[5, 6, 7], [5, 6]] 0).drop 1)
          ((keyFun [[5, 6, 7], [5, 6]] 1).drop 1) with
        | .eq => compare (keyFun [[5, 6, 7], [5, 6]] 0).length
            (keyFun [[5, 6, 7], [5, 6]] 1).length
        | o => o) ∧
    ((⟨0, get_u64_prefix [5, 6, 7] 1⟩ : SortPtr).cache =
        (⟨1, get_u64_prefix [5, 6] 1⟩ : SortPtr).cache →
      ¬((keyFun [[5, 6, 7], [5, 6]] 0).length < 1 + 8 ∨
        (keyFun [[5, 6, 7], [5, 6]] 1).length < 1 + 8) →
      compare_entries (keyFun [[5, 6, 7], [5, 6]])
          ⟨0, get_u64_prefix [5, 6, 7] 1⟩ ⟨1, get_u64_prefix [5, 6] 1⟩ 1 =
        match listCompare ((keyFun [[5, 6, 7], [5, 6]] 0).drop (1 + 8))
          ((keyFun [[5, 6, 7], [5, 6]] 1).drop (1 + 8)) with
        | .eq => compare (keyFun [[5, 6, 7], [5, 6]] 0).length
            (keyFun [[5, 6, 7], [5, 6]] 1).length
        | o => o) :=
  compare_entries_correct (keyFun [[5, 6, 7], [5, 6]])
    (byteKeys_keyFun _ (by decide))
    ⟨0, get_u64_prefix [5, 6, 7] 1⟩ ⟨1, get_u64_prefix [5, 6] 1⟩ 1
    rfl rfl

/-- C3.  The default `get_u64_prefix` returns the big-endian integer of
the up-to-eight key bytes at `offset`, zero-filled in the missing
low-order bytes; it returns `0` whenever `offset ≥ L`; and on the
unaligned fast-read branch (at least 8 bytes remaining) the raw 8-byte
read equals the zero-padded copy path. -/
theorem get_u64_prefix_correct (key : List Nat) (offset : Nat) :
    get_u64_prefix key offset =
      bytesToBE (padTo8 ((key.drop offset).take 8)) ∧
    (key.length ≤ offset → get_u64_prefix key offset = 0) ∧
    (8 ≤ key.length - offset →
      bytesToBE ((key.drop offset).take 8) =
        bytesToBE (padTo8 ((key.drop offset).take 8))) := by
  refine ⟨get_u64_prefix_eq_pad key offset, ?_, ?_⟩
  · intro h
    unfold get_u64_prefix
    rw [if_pos h]
  · intro h
    have hlen : ((key.drop offset).take 8).length = 8 := by
      rw [List.length_take, List.length_drop]
      omega
    unfold padTo8
    rw [hlen]
    simp

theorem get_u64_prefix_correct_witness :
    get_u64_prefix [1, 2, 3, 4, 5, 6, 7, 8, 9] 1 =
      bytesToBE (padTo8 (([1, 2, 3, 4, 5, 6, 7, 8, 9].drop 1).take 8)) ∧
    ([1, 2, 3, 4, 5, 6, 7, 8, 9].length ≤ 1 →
      get_u64_prefix [1, 2, 3, 4, 5, 6, 7, 8, 9] 1 = 0) ∧
    (8 ≤ [1, 2, 3, 4, 5, 6, 7, 8, 9].length - 1 →
      bytesToBE (([1, 2, 3, 4, 5, 6, 7, 8, 9].drop 1).take 8) =
        bytesToBE (padTo8 (([1, 2, 3, 4, 5, 6, 7, 8, 9].drop 1).take 8))) :=
  get_u64_prefix_correct [1, 2, 3, 4, 5, 6, 7, 8, 9] 1

/-- C9 (amended).  `orasort` on an empty accessor returns the empty
permutation; on a length-one accessor it returns `[0]` — but the sort
driver `cps_quicksort` IS invoked for length one (the body on
`src/algo.rs` line 57 runs whenever `len ≠ 0`; the comparison sort then
trivially returns the single pointer).  `orasortDriverCalls` counts the
driver invocations made by `orasort`. -/
theorem orasort_small_inputs (K : Nat → List Nat) :
    orasort K 0 = [] ∧ orasort K 1 = [0] ∧
    orasortDriverCalls 0 = 0 ∧ orasortDriverCalls 1 = 1 := by
  refine ⟨rfl, ?_, rfl, rfl⟩
  unfold orasort
  rw [if_neg one_ne_zero]
  have hrange : (List.range 1).map (fun index =>
      SortPtr.mk index ( get_u64_prefix (K index) 0)) =
      [⟨0, get_u64_prefix (K 0) 0⟩] := rfl
  rw [hrange]
  show List.map (fun p => p.index)
    (cps_quicksort K [⟨0, get_u64_prefix (K 0) 0⟩] 0 true) = [0]
  rw [cps_quicksort_eq, if_neg (by norm_num [RADIX_SORT_THRESHOLD]),
    List.mergeSort_singleton]
  rfl

/-- C9 counterexample.  The claim asserts the length-one result is
produced *without* invoking the sort driver; in the code the driver is
invoked exactly once for any non-empty input, in particular for length
one. -/
theorem orasort_len_one_calls_driver :
    orasortDriverCalls 1 = 1 ∧ ¬ orasortDriverCalls 1 = 0 := by
  decide

/-- C10.  `orasort_from_indices` returns a permutation of exactly the
given index list, ordered so that the key suffixes from `offset` are
non-decreasing lexicographically, with equal suffixes ordered by total
key length, shorter first. -/
theorem orasort_from_indices_sorted (K : Nat → List Nat)
    (indices : List Nat) (offset : Nat) (hK : ByteKeys K) :
    (orasort_from_indices K indices offset).Perm indices ∧
    List.Pairwise (fun i j =>
      listCompare ((K i).drop offset) ((K j).drop offset) = .lt ∨
        ((K i).drop offset = (K j).drop offset ∧
          (K i).length ≤ (K j).length))
      (orasort_from_indices K indices offset) := by
  obtain ⟨hP, hS⟩ := orasort_from_indices_spec K hK indices offset
  refine ⟨hP, hS.imp ?_⟩
  intro i j hij
  exact keyOrder_ne_gt.mp hij

theorem orasort_from_indices_sorted_witness :
    (orasort_from_indices (keyFun [[9, 1], [9, 2], [9, 0], [8, 5]])
        [0, 1, 2, 3] 1).Perm [0, 1, 2, 3] ∧
    List.Pairwise (fun i j =>
      listCompare ((keyFun [[9, 1], [9, 2], [9, 0], [8, 5]] i).drop 1)
          ((keyFun [[9, 1], [9, 2], [9, 0], [8, 5]] j).drop 1) = .lt ∨
        ((keyFun [[9, 1], [9, 2], [9, 0], [8, 5]] i).drop 1 =
            (keyFun [[9, 1], [9, 2], [9, 0], [8, 5]] j).drop 1 ∧
          (keyFun [[9, 1], [9, 2], [9, 0], [8, 5]] i).length ≤
            (keyFun [[9, 1], [9, 2], [9, 0], [8, 5]] j).length))
      (orasort_from_indices (keyFun [[9, 1], [9, 2], [9, 0], [8, 5]])
        [0, 1, 2, 3] 1) :=
  orasort_from_indices_sorted (keyFun [[9, 1], [9, 2], [9, 0], [8, 5]])
    [0, 1, 2, 3] 1 (byteKeys_keyFun _ (by decide))

/-! ### The block-skip invariant (C4) -/

theorem getD_ne_zero_lt_length {x : List Nat} {n : Nat}
    (h : x.getD n 0 ≠ 0) : n < x.length := by
  by_contra hc
  exact h (getD_zero_of_le x n (by omega))

/-- C4.  In the block-skip loop, `safe_bytes` counts only leading cache
bytes that are identical across the region and non-zero in the anchor,
stopping at the first zero anchor byte; consequently, advancing `cp_len`
by `safe_bytes` preserves the region invariant: every key still reaches
the new `cp_len` and all keys agree on their first `cp_len + safe_bytes`
bytes (no zero-padding byte is ever skipped). -/
theorem block_skip_preserves_region_invariant (K : Nat → List Nat)
    (hK : ByteKeys K) (ptrs : List SortPtr) (cp_len : Nat)
    (hinv : CacheInv K cp_len ptrs)
    (hreg : ∀ p ∈ ptrs, cp_len ≤ (K p.index).length ∧
      ∀ q ∈ ptrs, (K p.index).take cp_len = (K q.index).take cp_len) :
    (∀ j, j < safeBytesOf ((ptrs.headD ⟨0, 0⟩).cache)
        (clz64 (diffOf ptrs ((ptrs.headD ⟨0, 0⟩).cache)) / 8) →
      cacheByte ((ptrs.headD ⟨0, 0⟩).cache) j ≠ 0 ∧
      ∀ p ∈ ptrs, cacheByte p.cache j =
        cacheByte ((ptrs.headD ⟨0, 0⟩).cache) j) ∧
    (safeBytesOf ((ptrs.headD ⟨0, 0⟩).cache)
        (clz64 (diffOf ptrs ((ptrs.headD ⟨0, 0⟩).cache)) / 8) <
        clz64 (diffOf ptrs ((ptrs.headD ⟨0, 0⟩).cache)) / 8 →
      cacheByte ((ptrs.headD ⟨0, 0⟩).cache)
        (safeBytesOf ((ptrs.headD ⟨0, 0⟩).cache)
          (clz64 (diffOf ptrs ((ptrs.headD ⟨0, 0⟩).cache)) / 8)) = 0) ∧
    (∀ p ∈ ptrs,
      cp_len + safeBytesOf ((ptrs.headD ⟨0, 0⟩).cache)
        (clz64 (diffOf ptrs ((ptrs.headD ⟨0, 0⟩).cache)) / 8) ≤
        (K p.index).length ∧
      ∀ q ∈ ptrs,
        (K p.index).take (cp_len + safeBytesOf ((ptrs.headD ⟨0, 0⟩).cache)
          (clz64 (diffOf ptrs ((ptrs.headD ⟨0, 0⟩).cache)) / 8)) =
        (K q.index).take (cp_len + safeBytesOf ((ptrs.headD ⟨0, 0⟩).cache)
          (clz64 (diffOf ptrs ((ptrs.headD ⟨0, 0⟩).cache)) / 8))) := by
  have hloop : LoopInv K cp_len 0 ptrs := CacheInv_loopInv K hK cp_len ptrs hinv
  have hcommon8 : clz64 (diffOf ptrs ((ptrs.headD ⟨0, 0⟩).cache)) / 8 ≤ 8 := by
    have := clz64_le (diffOf ptrs ((ptrs.headD ⟨0, 0⟩).cache))
    omega
  have hsafe_le := safeBytesOf_le ((ptrs.headD ⟨0, 0⟩).cache)
    (clz64 (diffOf ptrs ((ptrs.headD ⟨0, 0⟩).cache)) / 8)
  have hanchor_eq : ∀ j, j < safeBytesOf ((ptrs.headD ⟨0, 0⟩).cache)
      (clz64 (diffOf ptrs ((ptrs.headD ⟨0, 0⟩).cache)) / 8) →
      ∀ p ∈ ptrs, cacheByte p.cache j =
        cacheByte ((ptrs.headD ⟨0, 0⟩).cache) j := by
    intro j hj p hp
    apply cacheByte_eq_anchor
    · exact diffOf_head_lt_two_pow_64 hloop
    · exact hp
    · have hmul := Nat.mul_div_le
        (clz64 (diffOf ptrs ((ptrs.headD ⟨0, 0⟩).cache))) 8
      omega
  have hkeybyte : ∀ j, j < safeBytesOf ((ptrs.headD ⟨0, 0⟩).cache)
      (clz64 (diffOf ptrs ((ptrs.headD ⟨0, 0⟩).cache)) / 8) →
      ∀ p ∈ ptrs, (K p.index).getD (cp_len + j) 0 =
        cacheByte ((ptrs.headD ⟨0, 0⟩).cache) j := by
    intro j hj p hp
    have h1 := loopInv_cacheByte hK hloop hp j (by omega)
    rw [← h1]
    exact hanchor_eq j hj p hp
  refine ⟨?_, ?_, ?_⟩
  · intro j hj
    exact ⟨safeBytesOf_pred _ _ j hj, hanchor_eq j hj⟩
  · intro hlt
    exact safeBytesOf_stop _ _ hlt
  · intro p hp
    have hplen : cp_len + safeBytesOf ((ptrs.headD ⟨0, 0⟩).cache)
        (clz64 (diffOf ptrs ((ptrs.headD ⟨0, 0⟩).cache)) / 8) ≤
        (K p.index).length := by
      rcases Nat.eq_zero_or_pos (safeBytesOf ((ptrs.headD ⟨0, 0⟩).cache)
        (clz64 (diffOf ptrs ((ptrs.headD ⟨0, 0⟩).cache)) / 8)) with hz | hz
      · rw [hz]
        have := (hreg p hp).1
        omega
      · set sb := safeBytesOf ((ptrs.headD ⟨0, 0⟩).cache)
          (clz64 (diffOf ptrs ((ptrs.headD ⟨0, 0⟩).cache)) / 8) with hsbd
        have hlast : (K p.index).getD (cp_len + (sb - 1)) 0 ≠ 0 := by
          rw [hkeybyte (sb - 1) (by omega) p hp]
          exact safeBytesOf_pred ((ptrs.headD ⟨0, 0⟩).cache)
            (clz64 (diffOf ptrs ((ptrs.headD ⟨0, 0⟩).cache)) / 8)
            (sb - 1) (by omega)
        have := getD_ne_zero_lt_length hlast
        omega
    refine ⟨hplen, ?_⟩
    intro q hq
    have hqlen : cp_len + safeBytesOf ((ptrs.headD ⟨0, 0⟩).cache)
        (clz64 (diffOf ptrs ((ptrs.headD ⟨0, 0⟩).cache)) / 8) ≤
        (K q.index).length := by
      rcases Nat.eq_zero_or_pos (safeBytesOf ((ptrs.headD ⟨0, 0⟩).cache)
        (clz64 (diffOf ptrs ((ptrs.headD ⟨0, 0⟩).cache)) / 8)) with hz | hz
      · rw [hz]
        have := (hreg q hq).1
        omega
      · set sb := safeBytesOf ((ptrs.headD ⟨0, 0⟩).cache)
          (clz64 (diffOf ptrs ((ptrs.headD ⟨0, 0⟩).cache)) / 8) with hsbd
        have hlast : (K q.index).getD (cp_len + (sb - 1)) 0 ≠ 0 := by
          rw [hkeybyte (sb - 1) (by omega) q hq]
          exact safeBytesOf_pred ((ptrs.headD ⟨0, 0⟩).cache)
            (clz64 (diffOf ptrs ((ptrs.headD ⟨0, 0⟩).cache)) / 8)
            (sb - 1) (by omega)
        have := getD_ne_zero_lt_length hlast
        omega
    set sb := safeBytesOf ((ptrs.headD ⟨0, 0⟩).cache)
      (clz64 (diffOf ptrs ((ptrs.headD ⟨0, 0⟩).cache)) / 8) with hsbd
    apply List.ext_getElem?
    intro n
    rw [List.getElem?_take, List.getElem?_take]
    by_cases hn : n < cp_len + sb
    · rw [if_pos hn, if_pos hn]
      by_cases hncp : n < cp_len
      · have htk := (hreg p hp).2 q hq
        have h1 : ((K p.index).take cp_len)[n]? = ((K q.index).take cp_len)[n]? := by
          rw [htk]
        rw [List.getElem?_take, List.getElem?_take, if_pos hncp, if_pos hncp]
          at h1
        exact h1
      · have hj : n - cp_len < sb := by omega
        have hbp := hkeybyte (n - cp_len) hj p hp
        have hbq := hkeybyte (n - cp_len) hj q hq
        have hnp : n < (K p.index).length := by omega
        have hnq : n < (K q.index).length := by omega
        have hcpn : cp_len + (n - cp_len) = n := by omega
        rw [hcpn] at hbp hbq
        rw [List.getElem?_eq_getElem hnp, List.getElem?_eq_getElem hnq]
        congr 1
        rw [← List.getD_eq_getElem (K p.index) 0 hnp,
          ← List.getD_eq_getElem (K q.index) 0 hnq, hbp, hbq]
    · rw [if_neg hn, if_neg hn]

theorem block_skip_preserves_region_invariant_witness :
    (∀ j, j < safeBytesOf
        (([⟨0, get_u64_prefix [7, 7, 1] 1⟩,
          ⟨1, get_u64_prefix [7, 7, 2] 1⟩].headD
            (⟨0, 0⟩ : SortPtr)).cache)
        (clz64 (diffOf [⟨0, get_u64_prefix [7, 7, 1] 1⟩,
          ⟨1, get_u64_prefix [7, 7, 2] 1⟩]
          (([⟨0, get_u64_prefix [7, 7, 1] 1⟩,
            ⟨1, get_u64_prefix [7, 7, 2] 1⟩].headD
              (⟨0, 0⟩ : SortPtr)).cache)) / 8) →
      cacheByte (([⟨0, get_u64_prefix [7, 7, 1] 1⟩,
        ⟨1, get_u64_prefix [7, 7, 2] 1⟩].headD (⟨0, 0⟩ : SortPtr)).cache)
        j ≠ 0 ∧
      ∀ p ∈ [⟨0, get_u64_prefix [7, 7, 1] 1⟩,
        (⟨1, get_u64_prefix [7, 7, 2] 1⟩ : SortPtr)],
        cacheByte p.cache j =
          cacheByte (([⟨0, get_u64_prefix [7, 7, 1] 1⟩,
            ⟨1, get_u64_prefix [7, 7, 2] 1⟩].headD
              (⟨0, 0⟩ : SortPtr)).cache) j) ∧
    (safeBytesOf (([⟨0, get_u64_prefix [7, 7, 1] 1⟩,
        ⟨1, get_u64_prefix [7, 7, 2] 1⟩].headD (⟨0, 0⟩ : SortPtr)).cache)
        (clz64 (diffOf [⟨0, get_u64_prefix [7, 7, 1] 1⟩,
          ⟨1, get_u64_prefix [7, 7, 2] 1⟩]
          (([⟨0, get_u64_prefix [7, 7, 1] 1⟩,
            ⟨1, get_u64_prefix [7, 7, 2] 1⟩].headD
              (⟨0, 0⟩ : SortPtr)).cache)) / 8) <
        clz64 (diffOf [⟨0, get_u64_prefix [7, 7, 1] 1⟩,
          ⟨1, get_u64_prefix [7, 7, 2] 1⟩]
          (([⟨0, get_u64_prefix [7, 7, 1] 1⟩,
            ⟨1, get_u64_prefix [7, 7, 2] 1⟩].headD
              (⟨0, 0⟩ : SortPtr)).cache)) / 8 →
      cacheByte (([⟨0, get_u64_prefix [7, 7, 1] 1⟩,
        ⟨1, get_u64_prefix [7, 7, 2] 1⟩].headD (⟨0, 0⟩ : SortPtr)).cache)
        (safeBytesOf (([⟨0, get_u64_prefix [7, 7, 1] 1⟩,
          ⟨1, get_u64_prefix [7, 7, 2] 1⟩].headD
            (⟨0, 0⟩ : SortPtr)).cache)
          (clz64 (diffOf [⟨0, get_u64_prefix [7, 7, 1] 1⟩,
            ⟨1, get_u64_prefix [7, 7, 2] 1⟩]
            (([⟨0, get_u64_prefix [7, 7, 1] 1⟩,
              ⟨1, get_u64_prefix [7, 7, 2] 1⟩].headD
                (⟨0, 0⟩ : SortPtr)).cache)) / 8)) = 0) ∧
    (∀ p ∈ [⟨0, get_u64_prefix [7, 7, 1] 1⟩,
        (⟨1, get_u64_prefix [7, 7, 2] 1⟩ : SortPtr)],
      1 + safeBytesOf (([⟨0, get_u64_prefix [7, 7, 1] 1⟩,
        ⟨1, get_u64_prefix [7, 7, 2] 1⟩].headD (⟨0, 0⟩ : SortPtr)).cache)
        (clz64 (diffOf [⟨0, get_u64_prefix [7, 7, 1] 1⟩,
          ⟨1, get_u64_prefix [7, 7, 2] 1⟩]
          (([⟨0, get_u64_prefix [7, 7, 1] 1⟩,
            ⟨1, get_u64_prefix [7, 7, 2] 1⟩].headD
              (⟨0, 0⟩ : SortPtr)).cache)) / 8) ≤
        (keyFun [[7, 7, 1], [7, 7, 2]] p.index).length ∧
      ∀ q ∈ [⟨0, get_u64_prefix [7, 7, 1] 1⟩,
        (⟨1, get_u64_prefix [7, 7, 2] 1⟩ : SortPtr)],
        (keyFun [[7, 7, 1], [7, 7, 2]] p.index).take
          (1 + safeBytesOf (([⟨0, get_u64_prefix [7, 7, 1] 1⟩,
            ⟨1, get_u64_prefix [7, 7, 2] 1⟩].headD
              (⟨0, 0⟩ : SortPtr)).cache)
            (clz64 (diffOf [⟨0, get_u64_prefix [7, 7, 1] 1⟩,
              ⟨1, get_u64_prefix [7, 7, 2] 1⟩]
              (([⟨0, get_u64_prefix [7, 7, 1] 1⟩,
                ⟨1, get_u64_prefix [7, 7, 2] 1⟩].headD
                  (⟨0, 0⟩ : SortPtr)).cache)) / 8)) =
        (keyFun [[7, 7, 1], [7, 7, 2]] q.index).take
          (1 + safeBytesOf (([⟨0, get_u64_prefix [7, 7, 1] 1⟩,
            ⟨1, get_u64_prefix [7, 7, 2] 1⟩].headD
              (⟨0, 0⟩ : SortPtr)).cache)
            (clz64 (diffOf [⟨0, get_u64_prefix [7, 7, 1] 1⟩,
              ⟨1, get_u64_prefix [7, 7, 2] 1⟩]
              (([⟨0, get_u64_prefix [7, 7, 1] 1⟩,
                ⟨1, get_u64_prefix [7, 7, 2] 1⟩].headD
                  (⟨0, 0⟩ : SortPtr)).cache)) / 8))) :=
  block_skip_preserves_region_invariant (keyFun [[7, 7, 1], [7, 7, 2]])
    (byteKeys_keyFun _ (by decide))
    [⟨0, get_u64_prefix [7, 7, 1] 1⟩, ⟨1, get_u64_prefix [7, 7, 2] 1⟩] 1
    (by unfold CacheInv; decide) (by decide)

/-! ### Degenerate buckets and termination (C5) -/

/-- If every cache shares the anchor's top byte, the XOR accumulator has
no bits in the top byte. -/
theorem diffOf_lt_two_pow_56 (ptrs : List SortPtr) (anchor : Nat)
    (htop : ∀ p ∈ ptrs, topByte p.cache = topByte anchor) :
    diffOf ptrs anchor < 2 ^ 56 := by
  apply Nat.lt_pow_two_of_testBit
  intro i hi
  unfold diffOf
  have hmap : ptrs.foldl (fun acc q => acc ||| (q.cache ^^^ anchor)) 0 =
      (ptrs.map fun q => q.cache ^^^ anchor).foldl (· ||| ·) 0 := by
    rw [List.foldl_map]
  rw [hmap, foldl_or_testBit]
  simp only [Nat.zero_testBit, Bool.false_or]
  rw [List.any_eq_false]
  intro x hx
  rcases List.mem_map.mp hx with ⟨p, hp, rfl⟩
  rw [Nat.testBit_xor]
  have hq : p.cache / 2 ^ 56 = anchor / 2 ^ 56 := htop p hp
  have hbit : p.cache.testBit i = anchor.testBit i := by
    have h1 : (p.cache >>> 56).testBit (i - 56) =
        (anchor >>> 56).testBit (i - 56) := by
      rw [Nat.shiftRight_eq_div_pow, Nat.shiftRight_eq_div_pow, hq]
    rw [Nat.testBit_shiftRight, Nat.testBit_shiftRight] at h1
    have hi2 : 56 + (i - 56) = i := by omega
    rwa [hi2] at h1
  rw [hbit]
  cases anchor.testBit i <;> decide

/-- The whole region lands in bucket `b` exactly when `b = 0` and every
pointer's top cache byte is zero, given that block-skip declined to
skip. -/
theorem degenerate_bucket_iff (K : Nat → List Nat) (ptrs : List SortPtr)
    (cp s : Nat) (hinv : LoopInv K cp s ptrs) (hne : ptrs ≠ [])
    (hsafe : safeBytesOf ((ptrs.headD ⟨0, 0⟩).cache)
      (clz64 (diffOf ptrs ((ptrs.headD ⟨0, 0⟩).cache)) / 8) = 0)
    (b : Nat) :
    (ptrs.filter fun p => topByte p.cache == b).length = ptrs.length ↔
      b = 0 ∧ ∀ p ∈ ptrs, topByte p.cache = 0 := by
  constructor
  · intro hfull
    have hfiltereq : ptrs.filter (fun p => topByte p.cache == b) = ptrs :=
      (List.filter_sublist ptrs).eq_of_length hfull
    have htopall : ∀ p ∈ ptrs, topByte p.cache = b := by
      intro p hp
      have := List.filter_eq_self.mp hfiltereq p hp
      simpa using this
    have hanchor_mem := headD_mem hne
    have htopb : topByte ((ptrs.headD ⟨0, 0⟩).cache) = b :=
      htopall _ hanchor_mem
    have hdiff : diffOf ptrs ((ptrs.headD ⟨0, 0⟩).cache) < 2 ^ 56 :=
      diffOf_lt_two_pow_56 ptrs _ fun p hp => (htopall p hp).trans htopb.symm
    have hblen : bitLen 64 (diffOf ptrs ((ptrs.headD ⟨0, 0⟩).cache)) ≤ 56 :=
      bitLen_le_of_lt_pow 64 _ 56 hdiff
    have hcommon : 1 ≤ clz64 (diffOf ptrs ((ptrs.headD ⟨0, 0⟩).cache)) / 8 := by
      unfold clz64
      omega
    have hzero := safeBytesOf_stop ((ptrs.headD ⟨0, 0⟩).cache)
      (clz64 (diffOf ptrs ((ptrs.headD ⟨0, 0⟩).cache)) / 8) (by omega)
    rw [hsafe] at hzero
    have hb0 : topByte ((ptrs.headD ⟨0, 0⟩).cache) = 0 := by
      rw [topByte_eq_cacheByte _ (loopInv_cache_lt hinv hanchor_mem), hzero]
    exact ⟨by rw [← htopb, hb0], fun p hp => by rw [htopall p hp, ← htopb, hb0]⟩
  · rintro ⟨rfl, hall⟩
    have hfe : ptrs.filter (fun p => topByte p.cache == 0) = ptrs :=
      List.filter_eq_self.mpr fun p hp => by simp [hall p hp]
    rw [hfe]

theorem headD_index_map (ptrs : List SortPtr) (g : SortPtr → SortPtr)
    (hg : ∀ p, (g p).index = p.index) :
    ((ptrs.map g).headD ⟨0, 0⟩).index = (ptrs.headD ⟨0, 0⟩).index := by
  cases ptrs with
  | nil => rfl
  | cons x xs => exact hg x

/-- With the fuel `aqs_radix` supplies, the block-skip loop never runs
out: adding fuel does not change the result.  Each skip consumes at
least one non-zero (hence real) byte of the anchor key, so at most
`anchor key length - cp_len` skip iterations can occur. -/
theorem aqs_loop_fuel_stable (K : Nat → List Nat) (hK : ByteKeys K) :
    ∀ (fuel : Nat) (ptrs : List SortPtr) (cp s : Nat), ptrs ≠ [] →
      LoopInv K cp s ptrs →
      (K ((ptrs.headD ⟨0, 0⟩).index)).length + 1 ≤ fuel + cp →
      aqs_loop K ptrs cp s fuel = aqs_loop K ptrs cp s (fuel + 1) := by
  intro fuel
  induction fuel with
  | zero =>
    intro ptrs cp s hne hinv hbound
    rw [aqs_loop_eq K ptrs cp s 0, aqs_loop_eq K ptrs cp s 1]
    have hsafe0 : ¬ 0 < safeBytesOf ((ptrs.headD ⟨0, 0⟩).cache)
        (clz64 (diffOf ptrs ((ptrs.headD ⟨0, 0⟩).cache)) / 8) := by
      intro hpos
      have hb0 := safeBytesOf_pred ((ptrs.headD ⟨0, 0⟩).cache)
        (clz64 (diffOf ptrs ((ptrs.headD ⟨0, 0⟩).cache)) / 8) 0 hpos
      have hmem := headD_mem hne
      have h7 := hinv.1
      have hcb := loopInv_cacheByte hK hinv hmem 0 (by omega)
      rw [hcb] at hb0
      have := getD_ne_zero_lt_length hb0
      omega
    rw [if_neg fun hc => hsafe0 hc.1, if_neg fun hc => hsafe0 hc.1]
  | succ f ihf =>
    intro ptrs cp s hne hinv hbound
    rw [aqs_loop_eq K ptrs cp s (f + 1), aqs_loop_eq K ptrs cp s (f + 2)]
    by_cases hsb : 0 < safeBytesOf ((ptrs.headD ⟨0, 0⟩).cache)
        (clz64 (diffOf ptrs ((ptrs.headD ⟨0, 0⟩).cache)) / 8)
    case neg =>
      rw [if_neg fun hc => hsb hc.1, if_neg fun hc => hsb hc.1]
    case pos =>
      have hmem := headD_mem hne
      have h7 := hinv.1
      have hscp := hinv.2.1
      have hcplt : cp < (K ((ptrs.headD ⟨0, 0⟩).index)).length := by
        have hb0 := safeBytesOf_pred ((ptrs.headD ⟨0, 0⟩).cache)
          (clz64 (diffOf ptrs ((ptrs.headD ⟨0, 0⟩).cache)) / 8) 0 hsb
        have hcb := loopInv_cacheByte hK hinv hmem 0 (by omega)
        rw [hcb] at hb0
        have := getD_ne_zero_lt_length hb0
        omega
      have hslack := safe_le_slack hinv hne
      set sb := safeBytesOf ((ptrs.headD ⟨0, 0⟩).cache)
        (clz64 (diffOf ptrs ((ptrs.headD ⟨0, 0⟩).cache)) / 8) with hsbd
      rw [if_pos (show 0 < sb ∧ 0 < f + 1 from ⟨hsb, by omega⟩)]
      rw [if_pos (show 0 < sb ∧ 0 < f + 2 from ⟨hsb, by omega⟩)]
      by_cases hreload : 8 ≤ s + sb
      · rw [if_pos hreload, if_pos hreload]
        show aqs_loop K (update_caches K ptrs (cp + sb)) (cp + sb) 0 f =
          aqs_loop K (update_caches K ptrs (cp + sb)) (cp + sb) 0 (f + 1)
        apply ihf
        · intro hc
          unfold update_caches at hc
          exact hne (List.map_eq_nil_iff.mp hc)
        · exact CacheInv_loopInv K hK _ _ (update_caches_cacheInv K ptrs _)
        · have hh : ((update_caches K ptrs (cp + sb)).headD ⟨0, 0⟩).index =
              (ptrs.headD ⟨0, 0⟩).index :=
            headD_index_map ptrs _ fun p => rfl
          rw [hh]
          omega
      · rw [if_neg hreload, if_neg hreload]
        show aqs_loop K
            (ptrs.map fun p => ⟨p.index, p.cache * 2 ^ (8 * sb) % 2 ^ 64⟩)
            (cp + sb) (s + sb) f =
          aqs_loop K
            (ptrs.map fun p => ⟨p.index, p.cache * 2 ^ (8 * sb) % 2 ^ 64⟩)
            (cp + sb) (s + sb) (f + 1)
        have hinv2 : LoopInv K (cp + sb) (s + sb)
            (ptrs.map fun p =>
              ⟨p.index, p.cache * 2 ^ (8 * sb) % 2 ^ 64⟩) := by
          refine ⟨by omega, by omega, ?_⟩
          intro p2 hp2
          rcases List.mem_map.mp hp2 with ⟨p, hp, hpe⟩
          rw [← hpe]
          show p.cache * 2 ^ (8 * sb) % 2 ^ 64 =
            get_u64_prefix (K p.index) (cp + sb - (s + sb)) *
              2 ^ (8 * (s + sb)) % 2 ^ 64
          rw [hinv.2.2 p hp, Nat.mod_mul_mod, Nat.mul_assoc, ← pow_add]
          have e1 : cp + sb - (s + sb) = cp - s := by omega
          have e2 : 8 * s + 8 * sb = 8 * (s + sb) := by omega
          rw [e1, e2]
        apply ihf
        · intro hc
          exact hne (List.map_eq_nil_iff.mp hc)
        · exact hinv2
        · have hh : ((ptrs.map fun p =>
              (⟨p.index, p.cache * 2 ^ (8 * sb) % 2 ^ 64⟩ : SortPtr)).headD
                ⟨0, 0⟩).index = (ptrs.headD ⟨0, 0⟩).index :=
            headD_index_map ptrs _ fun p => rfl
          rw [hh]
          omega

/-- C5.  Termination structure of the radix step, on a region in the
block-skip loop state whose scan declined to skip (`safe_bytes = 0`,
the histogram-pass situation): (i) a bucket receives the entire region
exactly when all pointers share a zero top cache byte; (ii) a bucket is
dispatched with `allow_radix = false` exactly when it is the whole
region; (iii) such a degenerate bucket is handed, at `cp_len + 1`, to
the comparison sort (no further radix pass); (iv) the loop fuel chosen
by `aqs_radix` is never binding — all the recursion in the embedding is
structurally well-founded, so the sort terminates on every input. -/
theorem radix_degenerate_veto_terminates (K : Nat → List Nat)
    (hK : ByteKeys K) (ptrs : List SortPtr) (cp s : Nat)
    (hinv : LoopInv K cp s ptrs) (hne : ptrs ≠ [])
    (hsafe : safeBytesOf ((ptrs.headD ⟨0, 0⟩).cache)
      (clz64 (diffOf ptrs ((ptrs.headD ⟨0, 0⟩).cache)) / 8) = 0) :
    (∀ b, (ptrs.filter fun p => topByte p.cache == b).length = ptrs.length ↔
      b = 0 ∧ ∀ p ∈ ptrs, topByte p.cache = 0) ∧
    (∀ b : Nat, (!((ptrs.filter fun p => topByte p.cache == b).length ==
        ptrs.length)) = false ↔
      (ptrs.filter fun p => topByte p.cache == b).length = ptrs.length) ∧
    (∀ b, (ptrs.filter fun p => topByte p.cache == b).length = ptrs.length →
      cps_quicksort K
        (update_caches K (ptrs.filter fun p => topByte p.cache == b)
          (cp + 1)) (cp + 1)
        (!((ptrs.filter fun p => topByte p.cache == b).length ==
          ptrs.length)) =
      (update_caches K ptrs (cp + 1)).mergeSort (ptrLE K (cp + 1))) ∧
    (∀ fuel, (K ((ptrs.headD ⟨0, 0⟩).index)).length + 1 ≤ fuel + cp →
      aqs_loop K ptrs cp s fuel = aqs_loop K ptrs cp s (fuel + 1)) := by
  refine ⟨degenerate_bucket_iff K ptrs cp s hinv hne hsafe, ?_, ?_, ?_⟩
  · intro b
    simp
  · intro b hfull
    have hfiltereq : ptrs.filter (fun p => topByte p.cache == b) = ptrs :=
      (List.filter_sublist ptrs).eq_of_length hfull
    rw [hfiltereq]
    have hfalse : (!(ptrs.length == ptrs.length)) = false := by simp
    rw [hfalse, cps_quicksort_eq, if_neg (by simp)]
  · intro fuel hbound
    exact aqs_loop_fuel_stable K hK fuel ptrs cp s hne hinv hbound

theorem radix_degenerate_veto_terminates_witness :
    (∀ b, ([⟨0, get_u64_prefix [0, 1] 0⟩,
        (⟨1, get_u64_prefix [0, 2] 0⟩ : SortPtr)].filter
        fun p => topByte p.cache == b).length =
        [⟨0, get_u64_prefix [0, 1] 0⟩,
          (⟨1, get_u64_prefix [0, 2] 0⟩ : SortPtr)].length ↔
      b = 0 ∧ ∀ p ∈ [⟨0, get_u64_prefix [0, 1] 0⟩,
        (⟨1, get_u64_prefix [0, 2] 0⟩ : SortPtr)], topByte p.cache = 0) ∧
    (∀ b : Nat, (!(([⟨0, get_u64_prefix [0, 1] 0⟩,
        (⟨1, get_u64_prefix [0, 2] 0⟩ : SortPtr)].filter
        fun p => topByte p.cache == b).length ==
        [⟨0, get_u64_prefix [0, 1] 0⟩,
          (⟨1, get_u64_prefix [0, 2] 0⟩ : SortPtr)].length)) = false ↔
      ([⟨0, get_u64_prefix [0, 1] 0⟩,
        (⟨1, get_u64_prefix [0, 2] 0⟩ : SortPtr)].filter
        fun p => topByte p.cache == b).length =
        [⟨0, get_u64_prefix [0, 1] 0⟩,
          (⟨1, get_u64_prefix [0, 2] 0⟩ : SortPtr)].length) ∧
    (∀ b, ([⟨0, get_u64_prefix [0, 1] 0⟩,
        (⟨1, get_u64_prefix [0, 2] 0⟩ : SortPtr)].filter
        fun p => topByte p.cache == b).length =
        [⟨0, get_u64_prefix [0, 1] 0⟩,
          (⟨1, get_u64_prefix [0, 2] 0⟩ : SortPtr)].length →
      cps_quicksort (keyFun [[0, 1], [0, 2]])
        (update_caches (keyFun [[0, 1], [0, 2]])
          ([⟨0, get_u64_prefix [0, 1] 0⟩,
            (⟨1, get_u64_prefix [0, 2] 0⟩ : SortPtr)].filter
            fun p => topByte p.cache == b) (0 + 1)) (0 + 1)
        (!(([⟨0, get_u64_prefix [0, 1] 0⟩,
          (⟨1, get_u64_prefix [0, 2] 0⟩ : SortPtr)].filter
          fun p => topByte p.cache == b).length ==
          [⟨0, get_u64_prefix [0, 1] 0⟩,
            (⟨1, get_u64_prefix [0, 2] 0⟩ : SortPtr)].length)) =
      (update_caches (keyFun [[0, 1], [0, 2]])
        [⟨0, get_u64_prefix [0, 1] 0⟩,
          (⟨1, get_u64_prefix [0, 2] 0⟩ : SortPtr)] (0 + 1)).mergeSort
        (ptrLE (keyFun [[0, 1], [0, 2]]) (0 + 1))) ∧
    (∀ fuel, (keyFun [[0, 1], [0, 2]]
        (([⟨0, get_u64_prefix [0, 1] 0⟩,
          (⟨1, get_u64_prefix [0, 2] 0⟩ : SortPtr)].headD
            ⟨0, 0⟩).index)).length + 1 ≤ fuel + 0 →
      aqs_loop (keyFun [[0, 1], [0, 2]])
        [⟨0, get_u64_prefix [0, 1] 0⟩,
          (⟨1, get_u64_prefix [0, 2] 0⟩ : SortPtr)] 0 0 fuel =
      aqs_loop (keyFun [[0, 1], [0, 2]])
        [⟨0, get_u64_prefix [0, 1] 0⟩,
          (⟨1, get_u64_prefix [0, 2] 0⟩ : SortPtr)] 0 0 (fuel + 1)) :=
  radix_degenerate_veto_terminates (keyFun [[0, 1], [0, 2]])
    (byteKeys_keyFun _ (by decide))
    [⟨0, get_u64_prefix [0, 1] 0⟩, ⟨1, get_u64_prefix [0, 2] 0⟩] 0 0
    (by unfold LoopInv; decide) (by decide) (by decide)

/-! ### Determinism: the engine consults only the keys it sorts (C8) -/

theorem compare_entries_congr (K1 K2 : Nat → List Nat) (a b : SortPtr)
    (cp : Nat) (ha : K1 a.index = K2 a.index) (hb : K1 b.index = K2 b.index) :
    compare_entries K1 a b cp = compare_entries K2 a b cp := by
  unfold compare_entries
  rw [ha, hb]

theorem update_caches_congr (K1 K2 : Nat → List Nat) (ptrs : List SortPtr)
    (cp : Nat) (hagree : ∀ p ∈ ptrs, K1 p.index = K2 p.index) :
    update_caches K1 ptrs cp = update_caches K2 ptrs cp := by
  unfold update_caches
  apply List.map_congr_left
  intro p hp
  rw [hagree p hp]

theorem mergeSort_ptrLE_congr (K1 K2 : Nat → List Nat)
    (ptrs : List SortPtr) (cp : Nat)
    (hagree : ∀ p ∈ ptrs, K1 p.index = K2 p.index) :
    ptrs.mergeSort (ptrLE K1 cp) = ptrs.mergeSort (ptrLE K2 cp) := by
  apply mergeSort_congr
  intro a ha b hb
  unfold ptrLE
  rw [compare_entries_congr K1 K2 a b cp (hagree a ha) (hagree b hb)]

theorem aqs_loop_congr (K1 K2 : Nat → List Nat) (N : Nat)
    (IH : ∀ ptrs2 : List SortPtr, ptrs2.length < N → ∀ cp2 allow,
      (∀ p ∈ ptrs2, K1 p.index = K2 p.index) →
      cps_quicksort K1 ptrs2 cp2 allow = cps_quicksort K2 ptrs2 cp2 allow) :
    ∀ (fuel : Nat) (ptrs : List SortPtr) (cp s : Nat), ptrs.length = N →
      (∀ p ∈ ptrs, K1 p.index = K2 p.index) →
      aqs_loop K1 ptrs cp s fuel = aqs_loop K2 ptrs cp s fuel := by
  intro fuel
  induction fuel with
  | zero =>
    intro ptrs cp s hlen hagree
    rw [aqs_loop_eq K1 ptrs cp s 0, aqs_loop_eq K2 ptrs cp s 0]
    rw [if_neg (by simp), if_neg (by simp)]
    unfold aqs_histogram
    apply flatMap_congr
    intro b _
    by_cases hb : (ptrs.filter fun p => topByte p.cache == b).length = 0
    · rw [if_pos hb, if_pos hb]
    · rw [if_neg hb, if_neg hb]
      have hmem : ∀ p ∈ ptrs.filter fun p => topByte p.cache == b,
          K1 p.index = K2 p.index :=
        fun p hp => hagree p (List.mem_of_mem_filter hp)
      rw [update_caches_congr K1 K2 _ _ hmem]
      have hmem2 : ∀ p ∈ update_caches K2
          (ptrs.filter fun p => topByte p.cache == b) (cp + 1),
          K1 p.index = K2 p.index := by
        intro p hp
        rcases List.mem_map.mp hp with ⟨q, hq, hqe⟩
        rw [← hqe]
        exact hmem q hq
      by_cases hdeg :
          (ptrs.filter fun p => topByte p.cache == b).length = ptrs.length
      · have hallow : (!((ptrs.filter fun p =>
            topByte p.cache == b).length == ptrs.length)) = false := by
          simp [hdeg]
        rw [hallow, cps_quicksort_eq, cps_quicksort_eq,
          if_neg (by simp), if_neg (by simp)]
        exact mergeSort_ptrLE_congr K1 K2 _ _ hmem2
      · apply IH
        · rw [update_caches_length]
          have := List.length_filter_le (fun p => topByte p.cache == b) ptrs
          omega
        · exact hmem2
  | succ f ihf =>
    intro ptrs cp s hlen hagree
    rw [aqs_loop_eq K1 ptrs cp s (f + 1), aqs_loop_eq K2 ptrs cp s (f + 1)]
    by_cases hsb : 0 < safeBytesOf ((ptrs.headD ⟨0, 0⟩).cache)
        (clz64 (diffOf ptrs ((ptrs.headD ⟨0, 0⟩).cache)) / 8) ∧ 0 < f + 1
    case neg =>
      rw [if_neg hsb, if_neg hsb]
      unfold aqs_histogram
      apply flatMap_congr
      intro b _
      by_cases hb : (ptrs.filter fun p => topByte p.cache == b).length = 0
      · rw [if_pos hb, if_pos hb]
      · rw [if_neg hb, if_neg hb]
        have hmem : ∀ p ∈ ptrs.filter fun p => topByte p.cache == b,
            K1 p.index = K2 p.index :=
          fun p hp => hagree p (List.mem_of_mem_filter hp)
        rw [update_caches_congr K1 K2 _ _ hmem]
        have hmem2 : ∀ p ∈ update_caches K2
            (ptrs.filter fun p => topByte p.cache == b) (cp + 1),
            K1 p.index = K2 p.index := by
          intro p hp
          rcases List.mem_map.mp hp with ⟨q, hq, hqe⟩
          rw [← hqe]
          exact hmem q hq
        by_cases hdeg :
            (ptrs.filter fun p => topByte p.cache == b).length = ptrs.length
        · have hallow : (!((ptrs.filter fun p =>
              topByte p.cache == b).length == ptrs.length)) = false := by
            simp [hdeg]
          rw [hallow, cps_quicksort_eq, cps_quicksort_eq,
            if_neg (by simp), if_neg (by simp)]
          exact mergeSort_ptrLE_congr K1 K2 _ _ hmem2
        · apply IH
          · rw [update_caches_length]
            have := List.length_filter_le (fun p => topByte p.cache == b) ptrs
            omega
          · exact hmem2
    case pos =>
      rw [if_pos hsb, if_pos hsb]
      set sb := safeBytesOf ((ptrs.headD ⟨0, 0⟩).cache)
        (clz64 (diffOf ptrs ((ptrs.headD ⟨0, 0⟩).cache)) / 8) with hsbd
      by_cases hreload : 8 ≤ s + sb
      · rw [if_pos hreload, if_pos hreload]
        show aqs_loop K1 (update_caches K1 ptrs (cp + sb)) (cp + sb) 0 f =
          aqs_loop K2 (update_caches K2 ptrs (cp + sb)) (cp + sb) 0 f
        rw [update_caches_congr K1 K2 ptrs _ hagree]
        apply ihf
        · rw [update_caches_length]
          exact hlen
        · intro p hp
          rcases List.mem_map.mp hp with ⟨q, hq, hqe⟩
          rw [← hqe]
          exact hagree q hq
      · rw [if_neg hreload, if_neg hreload]
        show aqs_loop K1
            (ptrs.map fun p => ⟨p.index, p.cache * 2 ^ (8 * sb) % 2 ^ 64⟩)
            (cp + sb) (s + sb) f =
          aqs_loop K2
            (ptrs.map fun p => ⟨p.index, p.cache * 2 ^ (8 * sb) % 2 ^ 64⟩)
            (cp + sb) (s + sb) f
        apply ihf
        · rw [List.length_map]
          exact hlen
        · intro p hp
          rcases List.mem_map.mp hp with ⟨q, hq, hqe⟩
          rw [← hqe]
          exact hagree q hq

theorem cps_congr (K1 K2 : Nat → List Nat) :
    ∀ (n : Nat) (ptrs : List SortPtr) (cp : Nat) (allow : Bool),
      ptrs.length = n → (∀ p ∈ ptrs, K1 p.index = K2 p.index) →
      cps_quicksort K1 ptrs cp allow = cps_quicksort K2 ptrs cp allow := by
  intro n
  induction n using Nat.strong_induction_on with
  | _ n ihn =>
    intro ptrs cp allow hlen hagree
    rw [cps_quicksort_eq, cps_quicksort_eq]
    by_cases hcond : allow = true ∧ RADIX_SORT_THRESHOLD < ptrs.length
    · rw [if_pos hcond, if_pos hcond]
      rw [aqs_radix_eq, aqs_radix_eq]
      have hne : ptrs ≠ [] := by
        intro hc
        rw [hc] at hcond
        simp [RADIX_SORT_THRESHOLD] at hcond
      have hanchor : K1 ((ptrs.headD ⟨0, 0⟩).index) =
          K2 ((ptrs.headD ⟨0, 0⟩).index) := hagree _ (headD_mem hne)
      rw [hanchor]
      exact aqs_loop_congr K1 K2 n
        (fun ptrs2 hl cp2 allow2 hagree2 =>
          ihn ptrs2.length hl ptrs2 cp2 allow2 rfl hagree2)
        _ ptrs cp 0 hlen hagree
    · rw [if_neg hcond, if_neg hcond]
      exact mergeSort_ptrLE_congr K1 K2 ptrs cp hagree

/-- C8.  The permutation returned by `orasort` is a deterministic
function of the input keys on `[0, len)` and their positions alone: two
accessors with the same length and the same keys on that range produce
identical output (no dependence on any other state). -/
theorem orasort_deterministic (K1 K2 : Nat → List Nat) (len : Nat)
    (hagree : ∀ i, i < len → K1 i = K2 i) :
    orasort K1 len = orasort K2 len := by
  unfold orasort
  by_cases h0 : len = 0
  · rw [if_pos h0, if_pos h0]
  · rw [if_neg h0, if_neg h0]
    have hpointers : (List.range len).map (fun index =>
        SortPtr.mk index ( get_u64_prefix (K1 index) 0)) =
        (List.range len).map (fun index =>
          SortPtr.mk index ( get_u64_prefix (K2 index) 0)) := by
      apply List.map_congr_left
      intro i hi
      rw [hagree i (List.mem_range.mp hi)]
    show List.map (fun p => p.index) (cps_quicksort K1 _ 0 true) = _
    rw [hpointers]
    rw [cps_congr K1 K2 ((List.range len).map fun index =>
        SortPtr.mk index ( get_u64_prefix (K2 index) 0)).length _ 0 true rfl ?_]
    intro p hp
    rcases List.mem_map.mp hp with ⟨i, hi, hie⟩
    rw [← hie]
    exact hagree i (List.mem_range.mp hi)

theorem orasort_deterministic_witness :
    orasort (keyFun [[1], [2]]) 2 =
      orasort (fun i => if i < 2 then keyFun [[1], [2]] i else [9]) 2 :=
  orasort_deterministic (keyFun [[1], [2]])
    (fun i => if i < 2 then keyFun [[1], [2]] i else [9]) 2
    (by decide)

/-! ### Idempotence: an already-sorted region passes through unchanged -/

theorem getD_le_of_keyOrder_le {off : Nat} {x y : List Nat}
    (h : keyOrder off x y ≠ .gt) : x.getD off 0 ≤ y.getD off 0 := by
  by_contra hc
  push_neg at hc
  have hlt := keyOrder_lt_of_getD_lt (show y.getD off 0 < x.getD off 0 from hc)
  rw [keyOrder_swap] at hlt
  apply h
  cases hv : keyOrder off x y with
  | gt => rfl
  | lt => rw [hv] at hlt; exact absurd hlt (by decide)
  | eq => rw [hv] at hlt; exact absurd hlt (by decide)

theorem flatMap_nil_fun {α β : Type _} : ∀ (bs : List α),
    (bs.flatMap fun _ => ([] : List β)) = [] := by
  intro bs
  induction bs with
  | nil => rfl
  | cons b bs ih => rw [List.flatMap_cons, List.nil_append, ih]

/-- Bucketing a list that is already sorted by its digit reassembles it
unchanged (stability makes the flattening the identity). -/
theorem flatMap_filter_of_sorted {α : Type _} (f : α → Nat) :
    ∀ (l : List α) (bs : List Nat), bs.Pairwise (· < ·) →
      (∀ x ∈ l, f x ∈ bs) →
      List.Pairwise (fun x y => f x ≤ f y) l →
      (bs.flatMap fun b => l.filter fun x => f x == b) = l := by
  intro l
  induction l with
  | nil =>
    intro bs _ _ _
    rw [flatMap_congr bs (fun b => List.filter (fun x => f x == b) [])
      (fun _ => ([] : List α)) (fun b _ => rfl), flatMap_nil_fun]
  | cons x xs ih =>
    intro bs hbs0 hcov hsort
    have hx : f x ∈ bs := hcov x (by simp)
    rcases List.append_of_mem hx with ⟨bs1, bs2, rfl⟩
    have hbs := hbs0
    rw [List.pairwise_append] at hbs
    obtain ⟨hbs1, hbs2c, hcross⟩ := hbs
    have hfx2 : ∀ b ∈ bs2, f x < b :=
      fun b hb => (List.pairwise_cons.mp hbs2c).1 b hb
    have hfx1 : ∀ b ∈ bs1, b < f x :=
      fun b hb => hcross b hb (f x) (by simp)
    have hxle : ∀ y ∈ xs, f x ≤ f y :=
      fun y hy => (List.pairwise_cons.mp hsort).1 y hy
    have h1cons : ∀ b ∈ bs1,
        ((x :: xs).filter fun z => f z == b) = [] := by
      intro b hb
      rw [List.filter_eq_nil_iff]
      intro a ha
      simp only [beq_iff_eq]
      intro hc
      rcases List.mem_cons.mp ha with rfl | ha2
      · have := hfx1 b hb
        omega
      · have h1 := hxle a ha2
        have h2 := hfx1 b hb
        omega
    have h1xs : ∀ b ∈ bs1, (xs.filter fun z => f z == b) = [] := by
      intro b hb
      rw [List.filter_eq_nil_iff]
      intro a ha
      simp only [beq_iff_eq]
      intro hc
      have h1 := hxle a ha
      have h2 := hfx1 b hb
      omega
    have hfilx : ((x :: xs).filter fun z => f z == f x) =
        x :: (xs.filter fun z => f z == f x) := by
      rw [List.filter_cons, if_pos (by simp)]
    have h2cons : ∀ b ∈ bs2, ((x :: xs).filter fun z => f z == b) =
        xs.filter fun z => f z == b := by
      intro b hb
      rw [List.filter_cons]
      have hne : (f x == b) = false :=
        beq_eq_false_iff_ne.mpr (by have := hfx2 b hb; omega)
      rw [hne, if_neg Bool.false_ne_true]
    have hih := ih (bs1 ++ f x :: bs2) hbs0
      (fun y hy => hcov y (by simp [hy]))
      (List.pairwise_cons.mp hsort).2
    rw [List.flatMap_append, List.flatMap_cons] at hih
    rw [flatMap_congr bs1 _ (fun _ => ([] : List α)) h1xs,
      flatMap_nil_fun, List.nil_append] at hih
    rw [List.flatMap_append, List.flatMap_cons]
    rw [flatMap_congr bs1 _ (fun _ => ([] : List α)) h1cons,
      flatMap_nil_fun, List.nil_append]
    rw [hfilx, flatMap_congr bs2 _ (fun b => xs.filter fun z => f z == b)
      h2cons, List.cons_append, hih]

/-- On a region whose indices are already sorted at `cp`, the
comparison-sort branch is the identity. -/
theorem mergeSort_id_of_sorted (K : Nat → List Nat) (hK : ByteKeys K)
    (ptrs : List SortPtr) (cp : Nat) (hinv : CacheInv K cp ptrs)
    (hsorted : List.Pairwise (keyIdxLE K cp) (idx ptrs)) :
    ptrs.mergeSort (ptrLE K cp) = ptrs := by
  apply List.mergeSort_of_sorted
  have hpw := List.pairwise_map.mp hsorted
  apply hpw.imp_of_mem
  intro p q hp hq hpq
  unfold ptrLE
  rw [compare_entries_eq_keyOrder K hK p q cp (hinv p hp) (hinv q hq)]
  exact (ordering_isLE_iff _).mpr hpq

/-- The histogram pass maps an already-sorted region to itself. -/
theorem aqs_histogram_id (K : Nat → List Nat) (hK : ByteKeys K) (N : Nat)
    (IH : ∀ ptrs2 : List SortPtr, ptrs2.length < N → ∀ cp2 allow,
      CacheInv K cp2 ptrs2 →
      List.Pairwise (keyIdxLE K cp2) (idx ptrs2) →
      idx (cps_quicksort K ptrs2 cp2 allow) = idx ptrs2)
    (ptrs : List SortPtr) (cp s : Nat) (hlen : ptrs.length = N)
    (hinv : LoopInv K cp s ptrs)
    (hsorted : List.Pairwise (keyIdxLE K cp) (idx ptrs)) :
    idx (aqs_histogram K ptrs cp) = idx ptrs := by
  have htop : ∀ p ∈ ptrs, topByte p.cache = (K p.index).getD cp 0 :=
    fun p hp => loopInv_topByte hK hinv hp
  have hbucket : ∀ b : Nat,
      idx (if (ptrs.filter fun p => topByte p.cache == b).length = 0 then []
        else cps_quicksort K
          (update_caches K (ptrs.filter fun p => topByte p.cache == b)
            (cp + 1)) (cp + 1)
          (!((ptrs.filter fun p =>
            topByte p.cache == b).length == ptrs.length))) =
        idx (ptrs.filter fun p => topByte p.cache == b) := by
    intro b
    by_cases hb : (ptrs.filter fun p => topByte p.cache == b).length = 0
    · rw [if_pos hb, List.length_eq_zero.mp hb]
    · rw [if_neg hb]
      set bucket := ptrs.filter fun p => topByte p.cache == b with hbdef
      have hsub : bucket.Sublist ptrs := List.filter_sublist ptrs
      have hsortb : List.Pairwise (keyIdxLE K cp) (idx bucket) :=
        List.Pairwise.sublist (hsub.map SortPtr.index) hsorted
      have hconst : ∀ p ∈ bucket, (K p.index).getD cp 0 = b := by
        intro p hp
        rcases List.mem_filter.mp hp with ⟨hpm, hptop⟩
        rw [← htop p hpm]
        simpa using hptop
      have hsortb1 : List.Pairwise (keyIdxLE K (cp + 1)) (idx bucket) := by
        apply hsortb.imp_of_mem
        intro i j hi hj hij
        unfold keyIdxLE at hij ⊢
        rcases List.mem_map.mp hi with ⟨p, hp, rfl⟩
        rcases List.mem_map.mp hj with ⟨q, hq, rfl⟩
        rw [← keyOrder_succ_of_getD_eq
          ((hconst p hp).trans (hconst q hq).symm)]
        exact hij
      have hcub := update_caches_cacheInv K bucket (cp + 1)
      have hsortb2 : List.Pairwise (keyIdxLE K (cp + 1))
          (idx (update_caches K bucket (cp + 1))) := by
        rw [idx_update_caches]
        exact hsortb1
      by_cases hdeg : bucket.length = ptrs.length
      · have hallow : (!(bucket.length == ptrs.length)) = false := by
          simp [hdeg]
        rw [hallow, cps_quicksort_eq, if_neg (by simp)]
        rw [mergeSort_id_of_sorted K hK _ (cp + 1) hcub hsortb2]
        rw [idx_update_caches]
      · have hlt : (update_caches K bucket (cp + 1)).length < N := by
          rw [update_caches_length]
          have hle := List.length_filter_le
            (fun p => topByte p.cache == b) ptrs
          rw [← hbdef] at hle
          omega
        rw [IH _ hlt (cp + 1) _ hcub hsortb2, idx_update_caches]
  have hflat : ((List.range RADIX_BUCKETS).flatMap fun b =>
      ptrs.filter fun p => topByte p.cache == b) = ptrs := by
    apply flatMap_filter_of_sorted (fun p => topByte p.cache) ptrs
      (List.range RADIX_BUCKETS) (List.pairwise_lt_range _)
    · intro p hp
      rw [List.mem_range]
      exact topByte_lt _ (loopInv_cache_lt hinv hp)
    · have hpw := List.pairwise_map.mp hsorted
      apply hpw.imp_of_mem
      intro p q hp hq hpq
      rw [htop p hp, htop q hq]
      exact getD_le_of_keyOrder_le hpq
  have hexp : idx (aqs_histogram K ptrs cp) =
      (List.range RADIX_BUCKETS).flatMap fun b =>
        idx (if (ptrs.filter fun p => topByte p.cache == b).length = 0
          then []
          else cps_quicksort K
            (update_caches K (ptrs.filter fun p => topByte p.cache == b)
              (cp + 1)) (cp + 1)
            (!((ptrs.filter fun p =>
              topByte p.cache == b).length == ptrs.length))) := by
    unfold aqs_histogram idx
    rw [List.map_flatMap]
  rw [hexp, flatMap_congr (List.range RADIX_BUCKETS) _
    (fun b => idx (ptrs.filter fun p => topByte p.cache == b))
    (fun b _ => hbucket b)]
  show ((List.range RADIX_BUCKETS).flatMap fun b =>
    idx (ptrs.filter fun p => topByte p.cache == b)) = idx ptrs
  unfold idx
  rw [← List.map_flatMap, hflat]

/-- The block-skip loop maps an already-sorted region to itself. -/
theorem aqs_loop_id (K : Nat → List Nat) (hK : ByteKeys K) (N : Nat)
    (IH : ∀ ptrs2 : List SortPtr, ptrs2.length < N → ∀ cp2 allow,
      CacheInv K cp2 ptrs2 →
      List.Pairwise (keyIdxLE K cp2) (idx ptrs2) →
      idx (cps_quicksort K ptrs2 cp2 allow) = idx ptrs2) :
    ∀ (fuel : Nat) (ptrs : List SortPtr) (cp s : Nat), ptrs.length = N →
      ptrs ≠ [] → LoopInv K cp s ptrs →
      List.Pairwise (keyIdxLE K cp) (idx ptrs) →
      idx (aqs_loop K ptrs cp s fuel) = idx ptrs := by
  intro fuel
  induction fuel with
  | zero =>
    intro ptrs cp s hlen hne hinv hsorted
    rw [aqs_loop_eq, if_neg (by simp)]
    exact aqs_histogram_id K hK N IH ptrs cp s hlen hinv hsorted
  | succ f ihf =>
    intro ptrs cp s hlen hne hinv hsorted
    rw [aqs_loop_eq]
    by_cases hsb : 0 < safeBytesOf ((ptrs.headD ⟨0, 0⟩).cache)
        (clz64 (diffOf ptrs ((ptrs.headD ⟨0, 0⟩).cache)) / 8)
    case neg =>
      rw [if_neg fun hc => hsb hc.1]
      exact aqs_histogram_id K hK N IH ptrs cp s hlen hinv hsorted
    case pos =>
      rw [if_pos ⟨hsb, by omega⟩]
      set sb := safeBytesOf ((ptrs.headD ⟨0, 0⟩).cache)
        (clz64 (diffOf ptrs ((ptrs.headD ⟨0, 0⟩).cache)) / 8) with hsbdef
      have h7 := hinv.1
      have hscp := hinv.2.1
      have hslack : sb ≤ 8 - s := safe_le_slack hinv hne
      have hagree : ∀ p ∈ ptrs, ∀ q ∈ ptrs, ∀ j, j < sb →
          (K p.index).getD (cp + j) 0 = (K q.index).getD (cp + j) 0 := by
        intro p hp q hq j hj
        have hcommon : sb ≤
            clz64 (diffOf ptrs ((ptrs.headD ⟨0, 0⟩).cache)) / 8 := by
          rw [hsbdef]
          exact safeBytesOf_le _ _
        have hmul := Nat.mul_div_le
          (clz64 (diffOf ptrs ((ptrs.headD ⟨0, 0⟩).cache))) 8
        have hclz : 8 * (j + 1) ≤
            clz64 (diffOf ptrs ((ptrs.headD ⟨0, 0⟩).cache)) := by
          omega
        have hdlt := diffOf_head_lt_two_pow_64 hinv
        have h1 := cacheByte_eq_anchor ptrs ((ptrs.headD ⟨0, 0⟩).cache)
          hdlt p hp j hclz
        have h2 := cacheByte_eq_anchor ptrs ((ptrs.headD ⟨0, 0⟩).cache)
          hdlt q hq j hclz
        have h3 := loopInv_cacheByte hK hinv hp j (by omega)
        have h4 := loopInv_cacheByte hK hinv hq j (by omega)
        rw [← h3, ← h4, h1, h2]
      have hsorted2 : List.Pairwise (keyIdxLE K (cp + sb)) (idx ptrs) := by
        apply hsorted.imp_of_mem
        intro i j hi hj hij
        unfold keyIdxLE at hij ⊢
        rcases List.mem_map.mp hi with ⟨p, hp, rfl⟩
        rcases List.mem_map.mp hj with ⟨q, hq, rfl⟩
        rw [← keyOrder_add_of_agree sb (hagree p hp q hq)]
        exact hij
      by_cases hreload : 8 ≤ s + sb
      · rw [if_pos hreload]
        have hinv2 : LoopInv K (cp + sb) 0
            (update_caches K ptrs (cp + sb)) :=
          CacheInv_loopInv K hK _ _ (update_caches_cacheInv K ptrs (cp + sb))
        have hlen2 : (update_caches K ptrs (cp + sb)).length = N := by
          rw [update_caches_length]
          exact hlen
        have hne2 : update_caches K ptrs (cp + sb) ≠ [] := by
          intro hc
          unfold update_caches at hc
          exact hne (List.map_eq_nil_iff.mp hc)
        have hs2 : List.Pairwise (keyIdxLE K (cp + sb))
            (idx (update_caches K ptrs (cp + sb))) := by
          rw [idx_update_caches]
          exact hsorted2
        simp only [Nat.add_sub_cancel]
        rw [ihf (update_caches K ptrs (cp + sb)) (cp + sb) 0 hlen2 hne2
          hinv2 hs2, idx_update_caches]
      · rw [if_neg hreload]
        have hinv2 : LoopInv K (cp + sb) (s + sb)
            (ptrs.map fun p =>
              ⟨p.index, p.cache * 2 ^ (8 * sb) % 2 ^ 64⟩) := by
          refine ⟨by omega, by omega, ?_⟩
          intro p2 hp2
          rcases List.mem_map.mp hp2 with ⟨p, hp, hpe⟩
          rw [← hpe]
          show p.cache * 2 ^ (8 * sb) % 2 ^ 64 =
            get_u64_prefix (K p.index) (cp + sb - (s + sb)) *
              2 ^ (8 * (s + sb)) % 2 ^ 64
          rw [hinv.2.2 p hp, Nat.mod_mul_mod, Nat.mul_assoc, ← pow_add]
          have e1 : cp + sb - (s + sb) = cp - s := by omega
          have e2 : 8 * s + 8 * sb = 8 * (s + sb) := by omega
          rw [e1, e2]
        have hlen2 : (ptrs.map fun p =>
            (⟨p.index, p.cache * 2 ^ (8 * sb) % 2 ^ 64⟩ : SortPtr)).length =
            N := by
          rw [List.length_map]
          exact hlen
        have hne2 : (ptrs.map fun p =>
            (⟨p.index, p.cache * 2 ^ (8 * sb) % 2 ^ 64⟩ : SortPtr)) ≠ [] := by
          intro hc
          exact hne (List.map_eq_nil_iff.mp hc)
        have hidx2 : idx (ptrs.map fun p =>
            (⟨p.index, p.cache * 2 ^ (8 * sb) % 2 ^ 64⟩ : SortPtr)) =
            idx ptrs := by
          unfold idx
          rw [List.map_map]
          rfl
        have hs2 : List.Pairwise (keyIdxLE K (cp + sb))
            (idx (ptrs.map fun p =>
              (⟨p.index, p.cache * 2 ^ (8 * sb) % 2 ^ 64⟩ : SortPtr))) := by
          rw [hidx2]
          exact hsorted2
        simp only [Nat.add_sub_cancel]
        rw [ihf _ (cp + sb) (s + sb) hlen2 hne2 hinv2 hs2, hidx2]

/-- The driver maps an already-sorted region to itself. -/
theorem cps_sorted_id (K : Nat → List Nat) (hK : ByteKeys K) :
    ∀ (n : Nat) (ptrs : List SortPtr) (cp : Nat) (allow : Bool),
      ptrs.length = n → CacheInv K cp ptrs →
      List.Pairwise (keyIdxLE K cp) (idx ptrs) →
      idx (cps_quicksort K ptrs cp allow) = idx ptrs := by
  intro n
  induction n using Nat.strong_induction_on with
  | _ n ihn =>
    intro ptrs cp allow hlen hinv hsorted
    rw [cps_quicksort_eq]
    by_cases hcond : allow = true ∧ RADIX_SORT_THRESHOLD < ptrs.length
    · rw [if_pos hcond, aqs_radix_eq]
      have hne : ptrs ≠ [] := by
        intro hc
        rw [hc] at hcond
        simp [RADIX_SORT_THRESHOLD] at hcond
      have hIH : ∀ ptrs2 : List SortPtr, ptrs2.length < n → ∀ cp2 allow2,
          CacheInv K cp2 ptrs2 →
          List.Pairwise (keyIdxLE K cp2) (idx ptrs2) →
          idx (cps_quicksort K ptrs2 cp2 allow2) = idx ptrs2 :=
        fun ptrs2 hl cp2 allow2 hinv2 hs2 =>
          ihn ptrs2.length hl ptrs2 cp2 allow2 rfl hinv2 hs2
      exact aqs_loop_id K hK n hIH _ ptrs cp 0 hlen hne
        (CacheInv_loopInv K hK cp ptrs hinv) hsorted
    · rw [if_neg hcond]
      rw [mergeSort_id_of_sorted K hK ptrs cp hinv hsorted]

/-- C7.  Idempotence: on a collection whose keys are already in
non-decreasing order under the §3 total order (equal keys allowed),
`orasort` returns the identity permutation `[0, 1, ..., len - 1]`. -/
theorem orasort_idempotent (K : Nat → List Nat) (len : Nat)
    (hK : ByteKeys K)
    (hsorted : List.Chain' (fun i j => listCompare (K i) (K j) ≠ .gt)
      (List.range len)) :
    orasort K len = List.range len := by
  have hpw : List.Pairwise (fun i j => listCompare (K i) (K j) ≠ .gt)
      (List.range len) := by
    haveI : IsTrans Nat (fun i j => listCompare (K i) (K j) ≠ .gt) := by
      constructor
      intro a b c h1 h2
      rw [← keyOrder_zero_eq] at h1 h2 ⊢
      exact keyOrder_le_trans h1 h2
    exact List.chain'_iff_pairwise.mp hsorted
  unfold orasort
  by_cases h0 : len = 0
  · rw [if_pos h0, h0, List.range_zero]
  · rw [if_neg h0]
    have hinv : CacheInv K 0 ((List.range len).map fun index =>
        SortPtr.mk index ( get_u64_prefix (K index) 0)) := by
      intro p hp
      rcases List.mem_map.mp hp with ⟨i, _, hi⟩
      rw [← hi]
    have hidx : idx ((List.range len).map fun index =>
        SortPtr.mk index ( get_u64_prefix (K index) 0)) = List.range len := by
      unfold idx
      rw [List.map_map]
      have : (SortPtr.index ∘ fun index =>
          SortPtr.mk index ( get_u64_prefix (K index) 0)) = id := by
        funext i
        rfl
      rw [this, List.map_id]
    have hs0 : List.Pairwise (keyIdxLE K 0)
        (idx ((List.range len).map fun index =>
          SortPtr.mk index ( get_u64_prefix (K index) 0))) := by
      rw [hidx]
      apply hpw.imp
      intro i j hij
      unfold keyIdxLE
      rwa [keyOrder_zero_eq]
    have hmain := cps_sorted_id K hK
      ((List.range len).map fun index =>
        SortPtr.mk index ( get_u64_prefix (K index) 0)).length
      ((List.range len).map fun index =>
        SortPtr.mk index ( get_u64_prefix (K index) 0)) 0 true rfl hinv hs0
    show (cps_quicksort K ((List.range len).map fun index =>
      SortPtr.mk index ( get_u64_prefix (K index) 0)) 0 true).map
        (fun p => p.index) = List.range len
    have hfin : idx (cps_quicksort K ((List.range len).map fun index =>
        SortPtr.mk index ( get_u64_prefix (K index) 0)) 0 true) =
        List.range len := by
      rw [hmain, hidx]
    exact hfin

/-! ### The in-place cycle-walk applier -/

theorem getD_set_self {α : Type _} (l : List α) (i : Nat) (x d : α)
    (h : i < l.length) : (l.set i x).getD i d = x := by
  rw [List.getD_eq_getElem?_getD, List.getElem?_set_self h]
  rfl

theorem getD_set_ne {α : Type _} (l : List α) (i j : Nat) (x d : α)
    (h : i ≠ j) : (l.set i x).getD j d = l.getD j d := by
  rw [List.getD_eq_getElem?_getD, List.getElem?_set_ne h,
    ← List.getD_eq_getElem?_getD]

theorem listSwap_length (l : List (List Nat)) (i j : Nat) :
    (listSwap l i j).length = l.length := by
  show ((l.set i (l.getD j [])).set j (l.getD i [])).length = l.length
  rw [List.length_set, List.length_set]

theorem listSwap_getD_fst (l : List (List Nat)) (i j : Nat) (hij : j ≠ i)
    (hi : i < l.length) : (listSwap l i j).getD i [] = l.getD j [] := by
  show ((l.set i (l.getD j [])).set j (l.getD i [])).getD i [] = l.getD j []
  rw [getD_set_ne _ _ _ _ _ hij, getD_set_self _ _ _ _ hi]

theorem listSwap_getD_snd (l : List (List Nat)) (i j : Nat)
    (hj : j < l.length) : (listSwap l i j).getD j [] = l.getD i [] := by
  show ((l.set i (l.getD j [])).set j (l.getD i [])).getD j [] = l.getD i []
  exact getD_set_self _ _ _ _ (by rw [List.length_set]; exact hj)

theorem listSwap_getD_other (l : List (List Nat)) (i j k : Nat)
    (h1 : i ≠ k) (h2 : j ≠ k) :
    (listSwap l i j).getD k [] = l.getD k [] := by
  show ((l.set i (l.getD j [])).set j (l.getD i [])).getD k [] = l.getD k []
  rw [getD_set_ne _ _ _ _ _ h2, getD_set_ne _ _ _ _ _ h1]

/-- Strengthening a chain over `l ++ [x]`: the first component of every
adjacent pair lies in `l`. -/
theorem chain'_append_singleton_imp {α : Type _} {R S : α → α → Prop} :
    ∀ (l : List α) (x : α), (∀ a ∈ l, ∀ b, R a b → S a b) →
      List.Chain' R (l ++ [x]) → List.Chain' S (l ++ [x])
  | [], x, _, _ => List.chain'_singleton x
  | [a], x, hmem, h => by
    rw [List.singleton_append, List.chain'_pair] at h ⊢
    exact hmem a (by simp) x h
  | a :: b :: l, x, hmem, h => by
    simp only [List.cons_append] at h ⊢
    rw [List.chain'_cons] at h ⊢
    refine ⟨hmem a (by simp) b h.1, ?_⟩
    have := chain'_append_singleton_imp (b :: l) x
      (fun c hc d hd => hmem c (by simp [hc]) d hd) h.2
    simpa using this

/-- Strengthening a chain over `x :: l`: the second component of every
adjacent pair lies in `l`. -/
theorem chain'_cons_imp {α : Type _} {R S : α → α → Prop} :
    ∀ (x : α) (l : List α), (∀ b ∈ l, ∀ a, R a b → S a b) →
      List.Chain' R (x :: l) → List.Chain' S (x :: l)
  | x, [], _, _ => List.chain'_singleton x
  | x, b :: l, hmem, h => by
    rw [List.chain'_cons] at h ⊢
    exact ⟨hmem b (by simp) x h.1,
      chain'_cons_imp b l (fun c hc a hca => hmem c (by simp [hc]) a hca) h.2⟩

theorem cycleWalk_succ (fuel : Nat) (data : List (List Nat)) (ind : List Nat)
    (i cur : Nat) :
    cycleWalk (fuel + 1) data ind i cur =
      if ind.getD cur 0 ≠ i then
        cycleWalk fuel (listSwap data cur (ind.getD cur 0))
          (ind.set cur cur) i (ind.getD cur 0)
      else (data, ind.set cur cur) := by
  rw [cycleWalk]

theorem nodup_lt_length_le (cs : List Nat) (n : Nat) (hnd : cs.Nodup)
    (hlt : ∀ c ∈ cs, c < n) : cs.length ≤ n := by
  have h1 : cs.toFinset ⊆ Finset.range n := by
    intro c hc
    rw [List.mem_toFinset] at hc
    rw [Finset.mem_range]
    exact hlt c hc
  have h2 := Finset.card_le_card h1
  rw [List.toFinset_card_of_nodup hnd, Finset.card_range] at h2
  exact h2

/-- Full specification of one cycle walk: `cs` lists the visited slots in
order, starting at `cur`, each pointing (through `ind`) to the next, the
last pointing back to `i`.  The walk marks every slot of `cs` as placed
and rotates the data values one step backward along the cycle; everything
outside `cs` is untouched. -/
theorem cycleWalk_spec :
    ∀ (cs : List Nat) (fuel : Nat) (data : List (List Nat)) (ind : List Nat)
      (i cur : Nat),
      cs.headD 0 = cur → cs ≠ [] → cs.Nodup →
      (∀ c ∈ cs, c < ind.length) → (∀ c ∈ cs, c < data.length) →
      List.Chain' (fun a b => ind.getD a 0 = b) (cs ++ [i]) →
      (∀ c ∈ cs.tail, c ≠ i) →
      cs.length < fuel →
      (cycleWalk fuel data ind i cur).2.length = ind.length ∧
      (cycleWalk fuel data ind i cur).1.length = data.length ∧
      (∀ j ∈ cs, (cycleWalk fuel data ind i cur).2.getD j 0 = j) ∧
      (∀ j, j ∉ cs →
        (cycleWalk fuel data ind i cur).2.getD j 0 = ind.getD j 0) ∧
      List.Chain' (fun a b =>
        (cycleWalk fuel data ind i cur).1.getD a [] = data.getD b [])
        (cs ++ [cur]) ∧
      (∀ j, j ∉ cs →
        (cycleWalk fuel data ind i cur).1.getD j [] = data.getD j []) := by
  intro cs
  induction cs with
  | nil =>
    intro fuel data ind i cur _ hne
    exact absurd rfl hne
  | cons c0 rest ih =>
    cases rest with
    | nil =>
      intro fuel data ind i cur hhead _ _ hbi _ hchain _ hfuel
      simp only [List.headD_cons] at hhead
      subst hhead
      cases fuel with
      | zero => simp at hfuel
      | succ f =>
        rw [cycleWalk_succ]
        rw [List.singleton_append, List.chain'_pair] at hchain
        rw [if_neg (show ¬(ind.getD c0 0 ≠ i) from fun hc => hc hchain)]
        refine ⟨List.length_set _ _ _, rfl, ?_, ?_, ?_, fun j _ => rfl⟩
        · intro j hj
          rw [List.mem_singleton] at hj
          subst hj
          exact getD_set_self _ _ _ _ (hbi j (by simp))
        · intro j hj
          exact getD_set_ne _ _ _ _ _ (fun he => hj (by simp [he]))
        · rw [List.singleton_append, List.chain'_pair]
    | cons c1 rest2 =>
      intro fuel data ind i cur hhead _ hnd hbi hbd hchain htail hfuel
      simp only [List.headD_cons] at hhead
      subst hhead
      cases fuel with
      | zero => simp at hfuel
      | succ f =>
        rw [cycleWalk_succ]
        simp only [List.cons_append] at hchain
        rw [List.chain'_cons] at hchain
        obtain ⟨hpt, hchain2⟩ := hchain
        have hc1i : c1 ≠ i := htail c1 (by simp)
        rw [hpt, if_pos hc1i]
        rw [List.nodup_cons] at hnd
        have hc0c1 : c0 ≠ c1 := fun he => hnd.1 (by simp [he])
        have hc0rest : c0 ∉ c1 :: rest2 := hnd.1
        have hc0d : c0 < data.length := hbd c0 (by simp)
        have hc1d : c1 < data.length := hbd c1 (by simp)
        have hc0i' : c0 < ind.length := hbi c0 (by simp)
        obtain ⟨H1, H2, H3, H4, H5, H6⟩ := ih f (listSwap data c0 c1)
          (ind.set c0 c0) i c1 rfl (by simp) hnd.2
          (fun c hc => by
            rw [List.length_set]
            exact hbi c (by simp [hc]))
          (fun c hc => by
            rw [listSwap_length]
            exact hbd c (by simp [hc]))
          (by
            have himp : ∀ a ∈ c1 :: rest2, ∀ b, ind.getD a 0 = b →
                (ind.set c0 c0).getD a 0 = b := by
              intro a ha b hab
              rw [getD_set_ne _ _ _ _ _
                (fun he => hc0rest (by rw [he]; exact ha))]
              exact hab
            exact chain'_append_singleton_imp (c1 :: rest2) i himp hchain2)
          (fun c hc => htail c (by
            simp only [List.tail_cons] at hc ⊢
            exact List.mem_cons_of_mem c1 hc))
          (by
            simp only [List.length_cons] at hfuel ⊢
            omega)
        refine ⟨?_, ?_, ?_, ?_, ?_, ?_⟩
        · rw [H1, List.length_set]
        · rw [H2, listSwap_length]
        · intro j hj
          rcases List.mem_cons.mp hj with rfl | hj2
          · rw [H4 j hc0rest]
            exact getD_set_self _ _ _ _ hc0i'
          · exact H3 j hj2
        · intro j hj
          have hj1 : j ∉ c1 :: rest2 := fun hc => hj (by simp [hc])
          have hj0 : c0 ≠ j := fun he => hj (by simp [← he])
          rw [H4 j hj1]
          exact getD_set_ne _ _ _ _ _ hj0
        · simp only [List.cons_append]
          rw [List.chain'_cons]
          constructor
          · rw [H6 c0 hc0rest]
            exact listSwap_getD_fst data c0 c1 (Ne.symm hc0c1) hc0d
          · rw [List.chain'_append] at H5
            obtain ⟨Hint, _, Hlast⟩ := H5
            have hint2 : List.Chain' (fun a b =>
                (cycleWalk f (listSwap data c0 c1) (ind.set c0 c0) i
                  c1).1.getD a [] = data.getD b []) (c1 :: rest2) := by
              apply chain'_cons_imp c1 rest2 ?_ Hint
              intro b hb a hab
              rw [hab]
              exact listSwap_getD_other data c0 c1 b
                (fun he => hc0rest
                  (by rw [he]; exact List.mem_cons_of_mem c1 hb))
                (fun he => (List.nodup_cons.mp hnd.2).1
                  (by rw [he]; exact hb))
            have hfin : List.Chain' (fun a b =>
                (cycleWalk f (listSwap data c0 c1) (ind.set c0 c0) i
                  c1).1.getD a [] = data.getD b [])
                ((c1 :: rest2) ++ [c0]) := by
              rw [List.chain'_append]
              refine ⟨hint2, List.chain'_singleton _, ?_⟩
              intro x hx y hy
              simp only [List.head?_cons, Option.mem_def,
                Option.some_inj] at hy
              subst hy
              have := Hlast x hx c1 (by simp)
              rw [this]
              exact listSwap_getD_snd data c0 c1 hc1d
            exact hfin
        · intro j hj
          have hj1 : j ∉ c1 :: rest2 := fun hc => hj (by simp [hc])
          rw [H6 j hj1]
          exact listSwap_getD_other data c0 c1 j
            (fun he => hj (by simp [← he]))
            (fun he => hj (by simp [← he]))

theorem chain'_and {α : Type _} {R S : α → α → Prop} :
    ∀ (l : List α), List.Chain' R l → List.Chain' S l →
      List.Chain' (fun a b => R a b ∧ S a b) l
  | [], _, _ => List.chain'_nil
  | [a], _, _ => List.chain'_singleton a
  | a :: b :: l, hR, hS => by
    rw [List.chain'_cons] at hR hS ⊢
    exact ⟨⟨hR.1, hS.1⟩, chain'_and (b :: l) hR.2 hS.2⟩

/-- In a chain over `l ++ [x]`, every member of `l` is the first
component of some adjacent pair. -/
theorem chain'_append_forall_mem {α : Type _} {R : α → α → Prop} :
    ∀ (l : List α) (x : α), List.Chain' R (l ++ [x]) →
      ∀ a ∈ l, ∃ b, R a b ∧ (b ∈ l ∨ b = x)
  | [], _, _, a, ha => absurd ha (by simp)
  | [a0], x, h, a, ha => by
    rw [List.singleton_append, List.chain'_pair] at h
    rw [List.mem_singleton] at ha
    subst ha
    exact ⟨x, h, Or.inr rfl⟩
  | a0 :: a1 :: l, x, h, a, ha => by
    simp only [List.cons_append] at h
    rw [List.chain'_cons] at h
    rcases List.mem_cons.mp ha with rfl | ha2
    · exact ⟨a1, h.1, Or.inl (by simp)⟩
    · obtain ⟨b, hb, hbm⟩ := chain'_append_forall_mem (a1 :: l) x h.2 a ha2
      exact ⟨b, hb, hbm.elim (fun hh => Or.inl (by simp [hh])) Or.inr⟩

/-- An injective self-map of a finite closed set returns to its starting
point: the start lies on a cycle whose iterates are pairwise distinct
until the first return. -/
theorem iterate_cycle (f : Nat → Nat) (n : Nat) (S : Nat → Prop)
    (hS : ∀ j, S j → j < n)
    (hcl : ∀ j, S j → S (f j))
    (hinj : ∀ a b, a < n → b < n → f a = f b → a = b)
    (i : Nat) (hi : S i) :
    ∃ k, 0 < k ∧ f^[k] i = i ∧
      ∀ a b, a < b → b < k → f^[a] i ≠ f^[b] i := by
  have hiter : ∀ t, S (f^[t] i) := by
    intro t
    induction t with
    | zero => simpa using hi
    | succ t iht =>
      rw [Function.iterate_succ_apply']
      exact hcl _ iht
  have hbound : ∀ t, f^[t] i < n := fun t => hS _ (hiter t)
  have hpeel : ∀ d a b, f^[a + d] i = f^[b + d] i → f^[a] i = f^[b] i := by
    intro d
    induction d with
    | zero =>
      intro a b h
      simpa using h
    | succ d ihd =>
      intro a b h
      apply ihd
      have ha : a + (d + 1) = (a + d) + 1 := by omega
      have hb : b + (d + 1) = (b + d) + 1 := by omega
      rw [ha, hb, Function.iterate_succ_apply',
        Function.iterate_succ_apply'] at h
      exact hinj _ _ (hbound _) (hbound _) h
  have hex : ∃ mm, 0 < mm ∧ f^[mm] i = i := by
    have hcard : (Finset.range n).card < (Finset.range (n + 1)).card := by
      rw [Finset.card_range, Finset.card_range]
      omega
    have hmaps : ∀ a ∈ Finset.range (n + 1), f^[a] i ∈ Finset.range n :=
      fun t _ => Finset.mem_range.mpr (hbound t)
    obtain ⟨a, _, b, _, hne, heq⟩ :=
      Finset.exists_ne_map_eq_of_card_lt_of_maps_to hcard hmaps
    rcases lt_or_gt_of_ne hne with hab | hab
    · have h0 := hpeel a 0 (b - a)
        (by rw [Nat.zero_add, Nat.sub_add_cancel (le_of_lt hab)]; exact heq)
      exact ⟨b - a, by omega, by simpa using h0.symm⟩
    · have h0 := hpeel b 0 (a - b)
        (by rw [Nat.zero_add, Nat.sub_add_cancel (le_of_lt hab)]
            exact heq.symm)
      exact ⟨a - b, by omega, by simpa using h0.symm⟩
  obtain ⟨hkpos, hki⟩ := Nat.find_spec hex
  refine ⟨Nat.find hex, hkpos, hki, ?_⟩
  intro a b hab hbk heq2
  have h0 := hpeel a 0 (b - a)
    (by rw [Nat.zero_add, Nat.sub_add_cancel (by omega)]; exact heq2)
  exact Nat.find_min hex (show b - a < Nat.find hex by omega)
    ⟨by omega, by simpa using h0.symm⟩

/-- The row-permutation `indices` read as a function. -/
def piFun (pi : List Nat) : Nat → Nat := fun j => pi.getD j 0

/-- Invariant of `apply_permutation`'s outer loop after `m` iterations:
every slot is either placed (marked `ind[j] = j`, holding the final value
`orig[pi j]`) or untouched (holding `orig[j]` with `ind[j] = pi j`); the
first `m` slots are placed; and `pi` still maps unplaced slots to
unplaced slots. -/
def ApplyInv (orig : List (List Nat)) (pi : List Nat) (m : Nat)
    (st : List (List Nat) × List Nat) : Prop :=
  st.1.length = orig.length ∧ st.2.length = orig.length ∧
  (∀ j, j < orig.length → st.2.getD j 0 = j ∨ st.2.getD j 0 = pi.getD j 0) ∧
  (∀ j, j < orig.length → st.2.getD j 0 = j →
    st.1.getD j [] = orig.getD (pi.getD j 0) []) ∧
  (∀ j, j < orig.length → st.2.getD j 0 ≠ j →
    st.1.getD j [] = orig.getD j []) ∧
  (∀ j, j < m → st.2.getD j 0 = j) ∧
  (∀ j, j < orig.length → st.2.getD j 0 ≠ j →
    st.2.getD (pi.getD j 0) 0 ≠ pi.getD j 0)

/-- One iteration of `apply_permutation`'s outer loop preserves the
invariant, advancing the placed prefix by one. -/
theorem applyInv_step (orig : List (List Nat)) (pi : List Nat)
    (hbound : ∀ j, j < orig.length → pi.getD j 0 < orig.length)
    (hinj : ∀ a b, a < orig.length → b < orig.length →
      pi.getD a 0 = pi.getD b 0 → a = b)
    (m : Nat) (st : List (List Nat) × List Nat) (hm : m < orig.length)
    (hI : ApplyInv orig pi m st) :
    ApplyInv orig pi (m + 1) (cycleWalk (st.2.length + 1) st.1 st.2 m m) := by
  obtain ⟨hd1, hd2, hdich, hdone, hpend, hproc, hclose⟩ := hI
  by_cases hmd : st.2.getD m 0 = m
  · obtain ⟨G1, G2, G3, G4, G5, G6⟩ := cycleWalk_spec [m] (st.2.length + 1)
      st.1 st.2 m m rfl (by simp) (List.nodup_singleton m)
      (fun c hc => by rw [List.mem_singleton] at hc; rw [hc, hd2]; exact hm)
      (fun c hc => by rw [List.mem_singleton] at hc; rw [hc, hd1]; exact hm)
      (by rw [List.singleton_append, List.chain'_pair]; exact hmd)
      (by simp)
      (by rw [List.length_singleton, hd2]; omega)
    rw [List.singleton_append, List.chain'_pair] at G5
    refine ⟨by rw [G2, hd1], by rw [G1, hd2], ?_, ?_, ?_, ?_, ?_⟩
    · intro j hj
      by_cases hjm : j = m
      · subst hjm
        exact Or.inl (G3 j (by simp))
      · rw [G4 j (by simp [hjm])]
        exact hdich j hj
    · intro j hj hjj
      by_cases hjm : j = m
      · subst hjm
        rw [G5]
        exact hdone j hj hmd
      · rw [G6 j (by simp [hjm])]
        rw [G4 j (by simp [hjm])] at hjj
        exact hdone j hj hjj
    · intro j hj hjj
      by_cases hjm : j = m
      · subst hjm
        rw [G3 j (by simp)] at hjj
        exact absurd rfl hjj
      · rw [G6 j (by simp [hjm])]
        rw [G4 j (by simp [hjm])] at hjj
        exact hpend j hj hjj
    · intro j hj
      by_cases hjm : j = m
      · subst hjm
        exact G3 j (by simp)
      · rw [G4 j (by simp [hjm])]
        exact hproc j (by omega)
    · intro j hj hjj
      by_cases hjm : j = m
      · subst hjm
        rw [G3 j (by simp)] at hjj
        exact absurd rfl hjj
      · rw [G4 j (by simp [hjm])] at hjj
        have hcl := hclose j hj hjj
        have hpjm : pi.getD j 0 ≠ m := fun he => hcl (by rw [he]; exact hmd)
        rw [G4 (pi.getD j 0) (fun hc => hpjm (List.mem_singleton.mp hc))]
        exact hcl
  · obtain ⟨k, hk0, hkm, hdist⟩ := iterate_cycle (piFun pi) orig.length
      (fun j => j < orig.length ∧ st.2.getD j 0 ≠ j)
      (fun j hj => hj.1)
      (fun j hj => ⟨hbound j hj.1, hclose j hj.1 hj.2⟩)
      hinj m ⟨hm, hmd⟩
    have hS : ∀ t, (piFun pi)^[t] m < orig.length ∧
        st.2.getD ((piFun pi)^[t] m) 0 ≠ (piFun pi)^[t] m := by
      intro t
      induction t with
      | zero => exact ⟨hm, hmd⟩
      | succ t iht =>
        rw [Function.iterate_succ_apply']
        exact ⟨hbound _ iht.1, hclose _ iht.1 iht.2⟩
    set cs := (List.range k).map (fun t => (piFun pi)^[t] m) with hcs
    have hcs_len : cs.length = k := by
      rw [hcs, List.length_map, List.length_range]
    have hmem_iff : ∀ c, c ∈ cs ↔ ∃ t, t < k ∧ (piFun pi)^[t] m = c := by
      intro c
      rw [hcs, List.mem_map]
      constructor
      · rintro ⟨t, ht, rfl⟩
        exact ⟨t, List.mem_range.mp ht, rfl⟩
      · rintro ⟨t, ht, rfl⟩
        exact ⟨t, List.mem_range.mpr ht, rfl⟩
    have hm_mem : m ∈ cs := (hmem_iff m).mpr ⟨0, hk0, rfl⟩
    have hcs_pend : ∀ c ∈ cs, st.2.getD c 0 ≠ c := by
      intro c hc
      obtain ⟨t, _, rfl⟩ := (hmem_iff c).mp hc
      exact (hS t).2
    have hcs_lt : ∀ c ∈ cs, c < orig.length := by
      intro c hc
      obtain ⟨t, _, rfl⟩ := (hmem_iff c).mp hc
      exact (hS t).1
    have hcs_nd : cs.Nodup := by
      rw [hcs]
      apply List.Nodup.map_on ?_ (List.nodup_range k)
      intro a ha b hb hab
      rw [List.mem_range] at ha hb
      rcases Nat.lt_trichotomy a b with h | h | h
      · exact absurd hab (hdist a b h hb)
      · exact h
      · exact absurd hab.symm (hdist b a h ha)
    have hcs_head : cs.headD 0 = m := by
      rw [hcs]
      cases k with
      | zero => exact absurd hk0 (by omega)
      | succ k2 =>
        rw [List.range_succ_eq_map, List.map_cons, List.headD_cons]
        exact Function.iterate_zero_apply _ _
    have happend : cs ++ [m] =
        (List.range (k + 1)).map (fun t => (piFun pi)^[t] m) := by
      rw [hcs, List.range_succ, List.map_append, List.map_singleton, hkm]
    have hchainI : List.Chain' (fun a b => st.2.getD a 0 = b) (cs ++ [m]) := by
      rw [happend, List.chain'_map]
      refine (List.chain'_range_succ _ k).mpr ?_
      intro t ht
      rcases hdich _ (hS t).1 with h | h
      · exact absurd h (hS t).2
      · rw [h, Function.iterate_succ_apply']
        rfl
    have htailm : ∀ c ∈ cs.tail, c ≠ m := by
      intro c hc hcm
      subst hcm
      cases k with
      | zero => exact absurd hk0 (by omega)
      | succ k2 =>
        rw [hcs, List.range_succ_eq_map, List.map_cons, List.tail_cons,
          List.map_map] at hc
        rcases List.mem_map.mp hc with ⟨t, ht, hte⟩
        rw [List.mem_range] at ht
        apply hdist 0 (t + 1) (by omega) (by omega)
        rw [Function.iterate_zero_apply]
        exact hte.symm
    have hfuelOK : cs.length < st.2.length + 1 := by
      have h1 := nodup_lt_length_le cs orig.length hcs_nd hcs_lt
      rw [hd2]
      omega
    obtain ⟨G1, G2, G3, G4, G5, G6⟩ := cycleWalk_spec cs (st.2.length + 1)
      st.1 st.2 m m hcs_head (List.ne_nil_of_mem hm_mem) hcs_nd
      (fun c hc => by rw [hd2]; exact hcs_lt c hc)
      (fun c hc => by rw [hd1]; exact hcs_lt c hc)
      hchainI htailm hfuelOK
    have hcomb := chain'_and (cs ++ [m]) hchainI G5
    have hnext := chain'_append_forall_mem cs m hcomb
    have hvals : ∀ a ∈ cs,
        (cycleWalk (st.2.length + 1) st.1 st.2 m m).1.getD a [] =
          orig.getD (pi.getD a 0) [] := by
      intro a ha
      obtain ⟨b, ⟨hb1, hb2⟩, hbm⟩ := hnext a ha
      have hax : st.2.getD a 0 = pi.getD a 0 := by
        rcases hdich a (hcs_lt a ha) with h | h
        · exact absurd h (hcs_pend a ha)
        · exact h
      have hbpend : st.2.getD b 0 ≠ b := by
        rcases hbm with h | h
        · exact hcs_pend b h
        · rw [h]
          exact hmd
      have hblt : b < orig.length := by
        rcases hbm with h | h
        · exact hcs_lt b h
        · rw [h]
          exact hm
      have hbpi : b = pi.getD a 0 := by
        rw [← hb1, hax]
      rw [hb2, hpend b hblt hbpend, hbpi]
    have hpred : ∀ c ∈ cs, ∃ c2 ∈ cs, pi.getD c2 0 = c := by
      intro c hc
      obtain ⟨t, ht, rfl⟩ := (hmem_iff c).mp hc
      cases t with
      | zero =>
        refine ⟨(piFun pi)^[k - 1] m,
          (hmem_iff _).mpr ⟨k - 1, by omega, rfl⟩, ?_⟩
        have hstep : (piFun pi)^[(k - 1) + 1] m =
            piFun pi ((piFun pi)^[k - 1] m) :=
          Function.iterate_succ_apply' _ _ _
        rw [show (k - 1) + 1 = k from by omega, hkm] at hstep
        rw [Function.iterate_zero_apply]
        show piFun pi ((piFun pi)^[k - 1] m) = m
        exact hstep.symm
      | succ t2 =>
        refine ⟨(piFun pi)^[t2] m,
          (hmem_iff _).mpr ⟨t2, by omega, rfl⟩, ?_⟩
        show piFun pi ((piFun pi)^[t2] m) = (piFun pi)^[t2 + 1] m
        exact (Function.iterate_succ_apply' _ _ _).symm
    have hnotin : ∀ j, j < orig.length → j ∉ cs → pi.getD j 0 ∉ cs := by
      intro j hj hjcs hcon
      obtain ⟨c2, hc2, hc2e⟩ := hpred _ hcon
      have he : c2 = j := hinj c2 j (hcs_lt c2 hc2) hj hc2e
      exact hjcs (by rw [← he]; exact hc2)
    refine ⟨by rw [G2, hd1], by rw [G1, hd2], ?_, ?_, ?_, ?_, ?_⟩
    · intro j hj
      by_cases hjc : j ∈ cs
      · exact Or.inl (G3 j hjc)
      · rw [G4 j hjc]
        exact hdich j hj
    · intro j hj hjj
      by_cases hjc : j ∈ cs
      · exact hvals j hjc
      · rw [G6 j hjc]
        rw [G4 j hjc] at hjj
        exact hdone j hj hjj
    · intro j hj hjj
      by_cases hjc : j ∈ cs
      · rw [G3 j hjc] at hjj
        exact absurd rfl hjj
      · rw [G6 j hjc]
        rw [G4 j hjc] at hjj
        exact hpend j hj hjj
    · intro j hj
      by_cases hjc : j ∈ cs
      · exact G3 j hjc
      · rw [G4 j hjc]
        have hjm : j ≠ m := fun he => hjc (by rw [he]; exact hm_mem)
        exact hproc j (by omega)
    · intro j hj hjj
      by_cases hjc : j ∈ cs
      · rw [G3 j hjc] at hjj
        exact absurd rfl hjj
      · rw [G4 j hjc] at hjj
        have hnc := hnotin j hj hjc
        rw [G4 (pi.getD j 0) hnc]
        exact hclose j hj hjj

/-- `apply_permutation` materializes the original sequence at the given
permutation of `[0, len)`. -/
theorem apply_permutation_spec (data : List (List Nat)) (indices : List Nat)
    (hperm : indices.Perm (List.range data.length)) :
    apply_permutation data indices = indices.map fun t => data.getD t [] := by
  have hlen : indices.length = data.length := by
    rw [hperm.length_eq, List.length_range]
  have hmemr : ∀ x ∈ indices, x < data.length := by
    intro x hx
    have := hperm.subset hx
    rwa [List.mem_range] at this
  have hbound : ∀ j, j < data.length → indices.getD j 0 < data.length := by
    intro j hj
    have hj2 : j < indices.length := by omega
    rw [List.getD_eq_getElem _ _ hj2]
    exact hmemr _ (List.getElem_mem hj2)
  have hnd : indices.Nodup := hperm.nodup_iff.mpr (List.nodup_range _)
  have hinj : ∀ a b, a < data.length → b < data.length →
      indices.getD a 0 = indices.getD b 0 → a = b := by
    intro a b ha hb he
    have ha2 : a < indices.length := by omega
    have hb2 : b < indices.length := by omega
    rw [List.getD_eq_getElem _ _ ha2, List.getD_eq_getElem _ _ hb2] at he
    have h3 : indices.get ⟨a, ha2⟩ = indices.get ⟨b, hb2⟩ := by
      simpa using he
    have h4 := List.nodup_iff_injective_get.mp hnd h3
    simpa using h4
  have hI0 : ApplyInv data indices 0 (data, indices) := by
    refine ⟨rfl, hlen, ?_, ?_, ?_, ?_, ?_⟩
    · intro j _
      exact Or.inr rfl
    · intro j _ hjj
      show data.getD j [] = data.getD (indices.getD j 0) []
      rw [hjj]
    · intro j _ _
      rfl
    · intro j hj
      omega
    · intro j hj hjj hcon
      exact hjj (hinj _ j (hbound j hj) hj hcon)
  have hstep : ∀ mm, mm ≤ data.length →
      ApplyInv data indices mm
        ((List.range mm).foldl
          (fun st i => cycleWalk (st.2.length + 1) st.1 st.2 i i)
          (data, indices)) := by
    intro mm
    induction mm with
    | zero =>
      intro _
      exact hI0
    | succ mm ihm =>
      intro hmm
      rw [List.range_succ, List.foldl_append, List.foldl_cons, List.foldl_nil]
      exact applyInv_step data indices hbound hinj mm _ (by omega)
        (ihm (by omega))
  obtain ⟨hf1, _, _, hfdone, _, hfproc, _⟩ := hstep data.length (Nat.le_refl _)
  show ((List.range data.length).foldl
      (fun st i => cycleWalk (st.2.length + 1) st.1 st.2 i i)
      (data, indices)).1 = indices.map fun t => data.getD t []
  apply List.ext_getElem
  · rw [hf1, List.length_map, hlen]
  · intro j h1 h2
    have hjn : j < data.length := by
      rw [hf1] at h1
      exact h1
    have hdj := hfdone j hjn (hfproc j hjn)
    have hj2 : j < indices.length := by omega
    have hR : (indices.map fun t => data.getD t []).getD j [] =
        data.getD (indices.getD j 0) [] := by
      rw [List.getD_eq_getElem _ _ (by rw [List.length_map]; exact hj2),
        List.getElem_map, List.getD_eq_getElem _ _ hj2]
    rw [← List.getD_eq_getElem _ ([]) h1, ← List.getD_eq_getElem _ ([]) h2]
    rw [hdj, hR]

/-- C6.  `orasort_mut` leaves the collection equal to the original
materialized at the indices returned by `orasort` on the original data
(`result[i] = old[pi[i]]`), and the cycle-walk applier realizes exactly
this permutation for every permutation `pi` of `[0, len)`. -/
theorem orasort_mut_correct (data : List (List Nat))
    (hdata : ∀ k ∈ data, ∀ b ∈ k, b < 256) :
    (∀ indices : List Nat, indices.Perm (List.range data.length) →
      apply_permutation data indices = indices.map fun t => data.getD t []) ∧
    orasort_mut data =
      (orasort (keyFun data) data.length).map fun t => data.getD t [] := by
  constructor
  · exact fun indices h => apply_permutation_spec data indices h
  · show apply_permutation data (orasort (keyFun data) data.length) =
      (orasort (keyFun data) data.length).map fun t => data.getD t []
    exact apply_permutation_spec data _
      ((orasort_spec (keyFun data) (byteKeys_keyFun data hdata)
        data.length).1)

theorem orasort_mut_correct_witness :
    orasort_mut [[2], [1], [2, 0]] =
      (orasort (keyFun [[2], [1], [2, 0]]) 3).map
        (fun t => [[2], [1], [2, 0]].getD t []) :=
  (orasort_mut_correct [[2], [1], [2, 0]] (by decide)).2

theorem orasort_idempotent_witness :
    orasort (keyFun [[1], [1, 2], [3]]) 3 = List.range 3 :=
  orasort_idempotent (keyFun [[1], [1, 2], [3]]) 3
    (byteKeys_keyFun _ (by decide))
    (by
      show List.Chain' _ [0, 1, 2]
      exact List.chain'_cons.mpr ⟨by decide,
        List.chain'_cons.mpr ⟨by decide, List.chain'_singleton _⟩⟩)

end Orasort
